import Mathlib

set_option linter.unusedSectionVars false

/-!
# Aho–Corasick trie of `yy_aho_corasick.h`

The C++ graph of `std::shared_ptr<trie_node>` objects is embedded as an arena: a list of
nodes, a `node_ptr` being the index of the node in the list.  `std::make_shared` appends a
node at the end of the arena, so an object keeps its index for ever and pointer equality is
equality of indices.  The root object is the first one allocated (index `0`).

Loops that follow failure-links or edges carry a fuel argument; the entry points supply a
fuel that is larger than the number of objects of the arena.
-/

namespace yy_data

/-- The `trie_node_shim` of the source: an edge label with the pointer to the child. -/
structure trie_node_shim (K : Type) where
  key : K
  node : Nat
deriving DecidableEq, Repr

/-- The `trie_node` of the source.  `m_payload` is `some v` for an object of the derived class
`ac_trie::Payload` (holding `v`) and `none` for a plain `trie_node` or the `RootNode`. -/
structure trie_node (K P : Type) where
  m_fail : Nat
  m_children : List (trie_node_shim K)
  m_payload : Option P
deriving DecidableEq, Repr

/-- The arena of node objects. -/
abbrev Heap (K P : Type) := List (trie_node K P)

/-- The pointer `m_root`: the root object is the first allocation of the builder. -/
def m_root : Nat := 0

/-- Dereference of a node pointer (an index outside the arena reads as a node without edges
whose failure-link is the root; the builder never produces such an index). -/
def Heap.node {K P : Type} (h : Heap K P) (i : Nat) : trie_node K P :=
  h.getD i ⟨m_root, [], none⟩

/-- What a call of a member function comes to: the call does not compile (`ill_formed`), it
compiles and its behaviour is undefined, or it returns. -/
inductive Outcome (α : Type) where
  | ill_formed : Outcome α
  | undefined : Outcome α
  | returns : α → Outcome α
deriving DecidableEq, Repr

section find

variable {K : Type} [LinearOrder K]

/-- The comparator `trie_node::comp`: `-1`, `0` or `1` as `value` is below, equal to or above
the key of `shim`. -/
def trie_node.comp (shim : trie_node_shim K) (value : K) : Int :=
  if value < shim.key then -1
  else if value = shim.key then 0
  else 1

/-- Modelled from the spec: the lower-bound insertion point that `yy_util::find`
(`yy_vector_util.h`, not among the sources) computes by binary search over the sorted edge
list: the number of leading edges whose key is below `key`. -/
def lower_bound : List (trie_node_shim K) → K → Nat
  | [], _ => 0
  | shim :: rest, key =>
    if 0 < trie_node.comp shim key then lower_bound rest key + 1 else 0

/-- Modelled from the spec: `yy_util::find` (`yy_vector_util.h`, not among the sources),
returning the lower-bound insertion point of `key` and whether the edge at that position
compares equal to `key`. -/
def find (children : List (trie_node_shim K)) (key : K) : Nat × Bool :=
  let iter := lower_bound children key
  match children[iter]? with
  | some shim => (iter, decide (trie_node.comp shim key = 0))
  | none => (iter, false)

end find

/-- The call `vector::emplace(iter, shim)`: insert `shim` before position `iter`. -/
def emplace {K : Type} (children : List (trie_node_shim K)) (iter : Nat)
    (shim : trie_node_shim K) : List (trie_node_shim K) :=
  children.take iter ++ shim :: children.drop iter

section trie

variable {K P : Type} [LinearOrder K]

/-- The method `trie_node::add(key, fail)` on the object `self`: the child along `key`, created
as a plain node with failure-link `fail` when the edge is missing. -/
def trie_node.add (h : Heap K P) (self : Nat) (key : K) (fail : Nat) : Heap K P × Nat :=
  let n := h.node self
  let r := find n.m_children key
  if r.2 then
    (h, (n.m_children[r.1]?.map trie_node_shim.node).getD m_root)
  else
    let node := h.length
    let h1 := h ++ [⟨fail, [], none⟩]
    (h1.set self { n with m_children := emplace n.m_children r.1 ⟨key, node⟩ }, node)

/-- The call `std::swap(a->m_fail, b->m_fail)`. -/
def swap_fail (h : Heap K P) (a b : Nat) : Heap K P :=
  let na := h.node a
  let nb := h.node b
  let h1 : Heap K P := h.set a { na with m_fail := nb.m_fail }
  h1.set b { h1.node b with m_fail := na.m_fail }

/-- The call `std::swap(a->m_children, b->m_children)`. -/
def swap_children (h : Heap K P) (a b : Nat) : Heap K P :=
  let na := h.node a
  let nb := h.node b
  let h1 : Heap K P := h.set a { na with m_children := nb.m_children }
  h1.set b { h1.node b with m_children := na.m_children }

/-- The method `trie_node::add(node_shim child)` on the object `self`: a missing edge is
inserted; on an existing edge the failure-link and the edges of the old child and of
`child.node` are swapped and the edge is redirected to `child.node`. -/
def trie_node.add_shim (h : Heap K P) (self : Nat) (child : trie_node_shim K) : Heap K P :=
  let n := h.node self
  let r := find n.m_children child.key
  if !r.2 then
    h.set self { n with m_children := emplace n.m_children r.1 child }
  else
    let shim_node := (n.m_children[r.1]?.map trie_node_shim.node).getD m_root
    let h1 := swap_fail h shim_node child.node
    let h2 := swap_children h1 shim_node child.node
    let n2 := h2.node self
    h2.set self { n2 with m_children := n2.m_children.set r.1 child }

/-- The method `trie_node::get(key)`: the child along `key`, `none` for the null pointer. -/
def trie_node.get (h : Heap K P) (self : Nat) (key : K) : Option Nat :=
  let n := h.node self
  let r := find n.m_children key
  if r.2 then n.m_children[r.1]?.map trie_node_shim.node else none

/-- The method `trie_node::get(key, def)`. -/
def trie_node.get_def (h : Heap K P) (self : Nat) (key : K) (d : Nat) : Nat :=
  match trie_node.get h self key with
  | none => d
  | some node => node

/-- The virtual method `empty()`: `true` on `trie_node` and `RootNode`, `false` on `Payload`. -/
def trie_node.empty (h : Heap K P) (self : Nat) : Bool :=
  (h.node self).m_payload.isNone

/-- The virtual method `value()`: the payload of a `Payload` object, the exception
`std::runtime_error("Invalid value")` on `trie_node` and `RootNode`. -/
def trie_node.value (h : Heap K P) (self : Nat) : Except String P :=
  match (h.node self).m_payload with
  | some v => .ok v
  | none => .error "Invalid value"

/-- The constructor `ac_trie()`: one `RootNode` whose failure-link is itself. -/
def ac_trie.new : Heap K P := [⟨m_root, [], none⟩]

/-- The range-for of `ac_trie::add` over all tokens but the last one. -/
def ac_trie.add_descend (h : Heap K P) (parent : Nat) : List K → Heap K P × Nat
  | [] => (h, parent)
  | key :: rest =>
    let r := trie_node.add h parent key m_root
    ac_trie.add_descend r.1 r.2 rest

/-- The method `ac_trie::add(word, value)`. -/
def ac_trie.add (h : Heap K P) (word : List K) (value : P) : Heap K P :=
  match word.getLast? with
  | none => h
  | some back =>
    let r := ac_trie.add_descend h m_root word.dropLast
    let node := r.1.length
    let h1 := r.1 ++ [⟨m_root, [], some value⟩]
    trie_node.add_shim h1 r.2 ⟨back, node⟩

/-- The loop of `compile_visitor::visit` for the edge label `key`; `state` and `fail` are the
local variables of the source. -/
def compile_visitor.loop (h : Heap K P) (key : K) : Nat → Nat → Nat → Option Nat
  | 0, _, _ => none
  | fuel + 1, state, fail =>
    if fail = m_root then
      let fail1 := trie_node.get_def h state key m_root
      let state1 := (h.node state).m_fail
      if state1 = m_root then some fail1
      else compile_visitor.loop h key fuel state1 fail1
    else some fail

/-- The method `compile_visitor::visit(child)` of a visitor built with failure candidate
`m_fail`: enqueue `child`, compute its failure-link and store it. -/
def compile_visitor.visit (m_fail : Nat) (s : Heap K P × List (trie_node_shim K))
    (child : trie_node_shim K) : Option (Heap K P × List (trie_node_shim K)) :=
  match compile_visitor.loop s.1 child.key (s.1.length + 2) m_fail m_root with
  | none => none
  | some fail =>
    some (s.1.set child.node { s.1.node child.node with m_fail := fail }, s.2 ++ [child])

/-- The method `trie_node::visit(visitor)` with a `compile_visitor`: the visitor is applied to
the edges in order. -/
def trie_node.visit (m_fail : Nat) :
    Heap K P × List (trie_node_shim K) → List (trie_node_shim K) →
      Option (Heap K P × List (trie_node_shim K))
  | s, [] => some s
  | s, child :: rest =>
    match compile_visitor.visit m_fail s child with
    | none => none
    | some s1 => trie_node.visit m_fail s1 rest

/-- The `while(!queue.empty())` loop of `ac_trie::compile`. -/
def ac_trie.compile_loop : Nat → Heap K P → List (trie_node_shim K) → Option (Heap K P)
  | _, h, [] => some h
  | 0, _, _ :: _ => none
  | fuel + 1, h, shim :: queue =>
    let n := h.node shim.node
    match trie_node.visit n.m_fail (h, queue) n.m_children with
    | none => none
    | some s => ac_trie.compile_loop fuel s.1 s.2

/-- The method `ac_trie::compile()`: the queue starts with the edges of the root
(`add_children_visitor`). -/
def ac_trie.compile (h : Heap K P) : Option (Heap K P) :=
  ac_trie.compile_loop h.length h (h.node m_root).m_children

/-- The loop of `Automaton::next` from the local `node`. -/
def Automaton.next_loop (h : Heap K P) (ch : K) : Nat → Nat → Option Nat
  | 0, _ => none
  | fuel + 1, node =>
    match trie_node.get h node ch with
    | some child => some child
    | none =>
      if node = m_root then some node
      else Automaton.next_loop h ch fuel (h.node node).m_fail

/-- The method `Automaton::next(ch)`: the new `m_state` (`none` when the loop does not end). -/
def Automaton.next (h : Heap K P) (m_state : Nat) (ch : K) : Option Nat :=
  Automaton.next_loop h ch (h.length + 2) m_state

/-- A fresh cursor (`create_automaton`) fed the tokens of `text` with `next`, one by one. -/
def Automaton.run (h : Heap K P) : Nat → List K → Option Nat
  | m_state, [] => some m_state
  | m_state, ch :: rest =>
    match Automaton.next h m_state ch with
    | none => none
    | some s => Automaton.run h s rest

/-- The method `Automaton::empty()`. -/
def Automaton.empty (h : Heap K P) (m_state : Nat) : Bool :=
  trie_node.empty h m_state

/-- The `while(begin != end)` loop of `Automaton::word`: `rest` is the range from `begin` to
`end`, which the loop never changes, and `ch` is the first token of the sequence.  The result
is `some none` for the `return false` inside the loop and `some (some node)` when the loop
is left. -/
def Automaton.word_loop (h : Heap K P) (ch : K) (rest : List K) : Nat → Nat → Option (Option Nat)
  | 0, _ => none
  | fuel + 1, node =>
    if rest ≠ [] then
      match trie_node.get h node ch with
      | none => some none
      | some child => Automaton.word_loop h ch rest fuel child
    else some (some node)

/-- The method `Automaton::word(key)`: the returned flag and the new `m_state`. -/
def Automaton.word (h : Heap K P) (m_state : Nat) : List K → Option (Bool × Nat)
  | [] => some (false, m_state)
  | ch :: rest =>
    match Automaton.next h m_state ch with
    | none => none
    | some s =>
      if s ≠ m_root then
        match Automaton.word_loop h ch rest (h.length + 2) s with
        | none => none
        | some none => some (false, s)
        | some (some node) => some (Automaton.empty h node, node)
      else some (false, s)

/-- The method `Automaton::visit(visitor)`: the payloads handed to the visitor, in order. -/
def Automaton.visit (h : Heap K P) (m_state : Nat) : Except String (List P) :=
  if m_state ≠ m_root then
    if !trie_node.empty h m_state then
      (trie_node.value h m_state).map fun v => [v]
    else .ok []
  else .ok []

/-- The method `Automaton::visit_all(visitor)` as it is in the source.  The test of its loop
(line 410) is written `node.empty()` on `node`, a `std::shared_ptr`, which has no member
`empty`: the member template is ill-formed, no call of it compiles, and no payload is handed
to a visitor, whatever the arena and the cursor. -/
def Automaton.visit_all (_h : Heap K P) (_m_state : Nat) : Outcome (List P) :=
  .ill_formed

/-- The loop of `Automaton::visit_all` from the local `node`, with the test of line 410 changed
to `node->empty()`, the one-token change under which the method compiles; this is not the
source but the source after that change.  The payload handed to the visitor is, as in the
source, `static_cast<Payload &>(*m_state).value()`: the payload of the current node when that
node is a `Payload` object, and undefined behaviour when it is not. -/
def Automaton.visit_all_repaired_loop (h : Heap K P) (m_state : Nat) :
    Nat → Nat → Option (Outcome (List P))
  | 0, _ => none
  | fuel + 1, node =>
    if node ≠ m_root then
      if !trie_node.empty h node then
        match (h.node m_state).m_payload with
        | none => some .undefined
        | some v =>
          match Automaton.visit_all_repaired_loop h m_state fuel (h.node node).m_fail with
          | none => none
          | some (.returns vs) => some (.returns (v :: vs))
          | some o => some o
      else Automaton.visit_all_repaired_loop h m_state fuel (h.node node).m_fail
    else some (.returns [])

/-- The method `Automaton::visit_all(visitor)` after the change of line 410 to `node->empty()`:
the payloads handed to the visitor, in order (`none` when the loop does not end). -/
def Automaton.visit_all_repaired (h : Heap K P) (m_state : Nat) :
    Option (Outcome (List P)) :=
  Automaton.visit_all_repaired_loop h m_state (h.length + 2) m_state

/-- A builder: the patterns of `pats` added in order to a fresh `ac_trie`. -/
def ac_trie.add_all (h : Heap K P) : List (List K × P) → Heap K P
  | [] => h
  | (word, value) :: rest => ac_trie.add_all (ac_trie.add h word value) rest

/-- A fresh builder with the patterns of `pats` added in order, then compiled. -/
def ac_trie.build (pats : List (List K × P)) : Option (Heap K P) :=
  ac_trie.compile (ac_trie.add_all ac_trie.new pats)

end trie

/-! ## Notions used to state the properties -/

section notions

variable {K P : Type} [LinearOrder K]

/-- The failure-link of the object at index `x`. -/
def fail_of (h : Heap K P) (x : Nat) : Nat := (h.node x).m_fail

/-- The `n`-th node of the chain `s, fail(s), fail(fail(s)), ...`. -/
def fail_chain (h : Heap K P) (s n : Nat) : Nat := (fail_of h)^[n] s

/-- The node reached from `s` along the direct edges labelled by `path`. -/
def walk_from (h : Heap K P) : Nat → List K → Option Nat
  | s, [] => some s
  | s, key :: rest => (trie_node.get h s key).bind fun c => walk_from h c rest

/-- The node reached from the root along the direct edges labelled by `path`. -/
def walk (h : Heap K P) (path : List K) : Option Nat := walk_from h m_root path

/-- A pattern given as a string, with its own text as payload. -/
def text_pattern (s : String) : List Char × String := (s.toList, s)

/-- A small graph: root `-1->` node 1 `-2->` node 2, the failure-link of node 2 being node 1. -/
def sample_heap : Heap Nat Nat :=
  [⟨0, [⟨1, 1⟩], none⟩, ⟨0, [⟨2, 2⟩], none⟩, ⟨1, [], some 7⟩]

/-- The edge list is strictly increasing by key. -/
def sorted_keys (l : List (trie_node_shim K)) : Prop :=
  (l.map trie_node_shim.key).Sorted (· < ·)

/-- The child that `trie_node::get` reads from an edge list. -/
def child_of (l : List (trie_node_shim K)) (key : K) : Option Nat :=
  if (find l key).2 then l[(find l key).1]?.map trie_node_shim.node else none

/-- The payload found at the end of `path`, when the path exists and ends on a Match node. -/
def payload_at (h : Heap K P) (path : List K) : Option P :=
  (walk h path).bind fun x => (h.node x).m_payload

/-- The structural invariant of the arena: edge lists are sorted by key, edges lead to
allocated non-root objects, every object is reached from the root by at most one path, and
the root carries no payload. -/
structure WF (h : Heap K P) : Prop where
  pos : 0 < h.length
  sorted : ∀ i, sorted_keys (h.node i).m_children
  child_valid : ∀ i s, s ∈ (h.node i).m_children → s.node ≠ m_root ∧ s.node < h.length
  walk_inj : ∀ p q n, walk h p = some n → walk h q = some n → p = q
  root_payload : (h.node m_root).m_payload = none

/-- The arena after a new edge `i -k-> c` to a new object `c` appended to `h`. -/
structure FreshEdge (h h' : Heap K P) (i : Nat) (k : K) (nc : trie_node K P) : Prop where
  len : h'.length = h.length + 1
  at_i : h'.node i = { h.node i with
    m_children := emplace (h.node i).m_children (find (h.node i).m_children k).1
      ⟨k, h.length⟩ }
  at_c : h'.node h.length = nc
  others : ∀ j, j ≠ i → j ≠ h.length → h'.node j = h.node j

/-- The arena after the edge `i -k-> o` was redirected to a new Match object appended to `h`
that took over the failure-link and the edges of `o`. -/
structure Promote (h h' : Heap K P) (i : Nat) (k : K) (o : Nat) (v : P) : Prop where
  len : h'.length = h.length + 1
  at_i : h'.node i = { h.node i with
    m_children := (h.node i).m_children.set (find (h.node i).m_children k).1 ⟨k, h.length⟩ }
  at_c : h'.node h.length = ⟨(h.node o).m_fail, (h.node o).m_children, some v⟩
  at_o : h'.node o = ⟨m_root, [], (h.node o).m_payload⟩
  others : ∀ j, j ≠ i → j ≠ h.length → j ≠ o → h'.node j = h.node j

/-- The renaming of objects by a promotion: the old child `o` becomes the new object `c`. -/
def promote_map (o c : Nat) (x : Nat) : Nat := if x = o then c else x

/-- Every object on a path from the root has the root as failure-link. -/
def AllRoot (h : Heap K P) : Prop := ∀ p x, walk h p = some x → fail_of h x = m_root

/-- The payload that the insertions of `pats`, in order, leave for the path `p`, starting from
`acc`: the payload of the last non-empty pattern equal to `p`. -/
def pattern_payload : List (List K × P) → List K → Option P → Option P
  | [], _, acc => acc
  | (w, v) :: rest, p, acc => pattern_payload rest p (if p = w ∧ w ≠ [] then some v else acc)

/-- The arenas `h` and `h'` have the same objects with the same edges and payloads (they may
differ in failure-links only). -/
def Skel (h h' : Heap K P) : Prop :=
  h'.length = h.length ∧
  ∀ j, (h'.node j).m_children = (h.node j).m_children ∧
    (h'.node j).m_payload = (h.node j).m_payload

/-- The states of a builder: a fresh `ac_trie` followed by any sequence of `add` and `compile`
calls. -/
inductive Builder : Heap K P → Prop
  | new : Builder ac_trie.new
  | add (h : Heap K P) (word : List K) (value : P) :
      Builder h → Builder (ac_trie.add h word value)
  | compile (h h' : Heap K P) : Builder h → ac_trie.compile h = some h' → Builder h'

/-- The failure-link of every non-root object on a path `p` from the root is the object on a
path that is a strictly shorter suffix of `p`. -/
def SuffixFail (h : Heap K P) : Prop :=
  ∀ p x, p ≠ [] → walk h p = some x →
    ∃ q, q.length < p.length ∧ q <:+ p ∧ walk h q = some (fail_of h x)

/-- The failure-links of the children along the edges in `E` are the result of the loop of
`compile_visitor::visit` on the final arena. -/
def StableOn (h : Heap K P) (E : List K → K → Prop) : Prop :=
  ∀ p k n c, E p k → walk h p = some n → trie_node.get h n k = some c →
    compile_visitor.loop h k (h.length + 2) (fail_of h n) m_root = some (fail_of h c)

/-- The arena is a fixed point of `compile`: below every non-root object, the failure-link of
each child is what the loop of `compile_visitor::visit` computes. -/
def Stable (h : Heap K P) : Prop := StableOn h fun p _ => p ≠ []

/-- The bookkeeping of the breadth-first pass: `Dp` are the paths of the objects already taken
from the queue and `Qp` the paths of the objects in the queue, in order. -/
structure PInv (h0 : Heap K P) (Dp Qp : List (List K)) : Prop where
  nodup : (Dp ++ Qp).Nodup
  valid : ∀ p ∈ Dp ++ Qp, p ≠ [] ∧ (walk h0 p).isSome
  parent : ∀ p ∈ Dp ++ Qp, 2 ≤ p.length → p.dropLast ∈ Dp
  le_queue : ∀ d ∈ Dp, ∀ q ∈ Qp, d.length ≤ q.length
  sorted : Qp.Pairwise fun a b => a.length ≤ b.length
  near : ∀ q ∈ Qp, ∀ q' ∈ Qp, q'.length ≤ q.length + 1
  children : ∀ p ∈ Dp, ∀ a, (walk h0 (p ++ [a])).isSome → p ++ [a] ∈ Dp ++ Qp
  first : ∀ a, (walk h0 [a]).isSome → [a] ∈ Dp ++ Qp

/-- The paths of the children of the object on `px`, in edge order. -/
def child_paths (px : List K) (l : List (trie_node_shim K)) : List (List K) :=
  l.map fun s => px ++ [s.key]

/-- The objects `s` of `h` and `s'` of `h'` are on the same path from the root. -/
def SamePath (h h' : Heap K P) (s s' : Nat) : Prop :=
  ∃ p, walk h p = some s ∧ walk h' p = some s'

/-- Two compiled arenas with the same paths and the same payloads on them. -/
structure Twin (h h' : Heap K P) : Prop where
  wf : WF h
  wf' : WF h'
  rf : fail_of h m_root = m_root
  rf' : fail_of h' m_root = m_root
  sf : SuffixFail h
  sf' : SuffixFail h'
  st : Stable h
  st' : Stable h'
  path : ∀ p, (walk h p).isSome ↔ (walk h' p).isSome
  pay : ∀ p, payload_at h p = payload_at h' p

/-- The reports of `visit_all`, after the change of line 410 to `node->empty()`, on a fresh
cursor before the first token of `text` and after each of its tokens. -/
def visit_all_repaired_trace (h : Heap K P) (text : List K) :
    List (Option (Outcome (List P))) :=
  text.inits.map fun t => (Automaton.run h m_root t).bind (Automaton.visit_all_repaired h)

/-- The reports of `visit()` and the outcome of `visit_all()` on a fresh cursor before the first
token of `text` and after each of its tokens. -/
def visit_trace (h : Heap K P) (text : List K) :
    List (Option (Except String (List P) × Outcome (List P))) :=
  text.inits.map fun t =>
    (Automaton.run h m_root t).map fun s => (Automaton.visit h s, Automaton.visit_all h s)


/-- The method `ac_trie::create_automaton()`: the `m_state` of the new cursor is the root. -/
def ac_trie.create_automaton (_h : Heap K P) : Nat := m_root

/-- Every failure-link is the index of an allocated object (the arena form of a non-null
`node_ptr`). -/
def FailValid (h : Heap K P) : Prop := ∀ i, fail_of h i < h.length

/-- The object `y` is on a path of two or more edges from the root of `h0`. -/
def Deep (h0 : Heap K P) (y : Nat) : Prop := ∃ p, 2 ≤ p.length ∧ walk h0 p = some y

/-- The object `x` is on a path from the root: it is a node of the trie. -/
def Live (h : Heap K P) (x : Nat) : Prop := ∃ p, walk h p = some x

/-- The failure-link invariant of a builder between `add` and `compile` calls in any order.
The failure-link of the root is the root; every failure-link is the index of an allocated
object; an object that is on no path (the object that a promotion replaced) has no edges and
the root as failure-link; and the failure-link of a node on the path `p` is the node on a
strictly shorter suffix of `p`, or, for `p` of two or more tokens, an object that a promotion
has since replaced. -/
structure Link (h : Heap K P) : Prop where
  root : fail_of h m_root = m_root
  valid : FailValid h
  dead : ∀ i, ¬ Live h i → (h.node i).m_children = [] ∧ fail_of h i = m_root
  link : ∀ p x, p ≠ [] → walk h p = some x →
    (∃ q, q.length < p.length ∧ q <:+ p ∧ walk h q = some (fail_of h x)) ∨
    (2 ≤ p.length ∧ ¬ Live h (fail_of h x))

/-- In the arena `h`, the failure-link of the object `y` is the node of `h0` on a strictly
shorter suffix of the path of `y`. -/
def GoodFail (h0 h : Heap K P) (y : Nat) : Prop :=
  ∀ p, walk h0 p = some y →
    ∃ q, q.length < p.length ∧ q <:+ p ∧ walk h0 q = some (fail_of h y)

/-- The states of a builder together with the patterns added so far, in order. -/
inductive BuilderOf : List (List K × P) → Heap K P → Prop
  | new : BuilderOf [] ac_trie.new
  | add (pats : List (List K × P)) (h : Heap K P) (word : List K) (value : P) :
      BuilderOf pats h → BuilderOf (pats ++ [(word, value)]) (ac_trie.add h word value)
  | compile (pats : List (List K × P)) (h h' : Heap K P) :
      BuilderOf pats h → ac_trie.compile h = some h' → BuilderOf pats h'

/-- The `while(!queue.empty())` loop of `ac_trie::compile` as `ac_trie.compile_loop`, returning
also the objects taken from the queue (`shim.node` at each `pop_front`), in order. -/
def ac_trie.compile_loop_trace :
    Nat → Heap K P → List (trie_node_shim K) → Option (Heap K P × List Nat)
  | _, h, [] => some (h, [])
  | 0, _, _ :: _ => none
  | fuel + 1, h, shim :: queue =>
    let n := h.node shim.node
    match trie_node.visit n.m_fail (h, queue) n.m_children with
    | none => none
    | some s =>
      match ac_trie.compile_loop_trace fuel s.1 s.2 with
      | none => none
      | some r => some (r.1, shim.node :: r.2)

/-- The method `ac_trie::compile()` as `ac_trie.compile`, returning also the objects taken from
the queue, in order. -/
def ac_trie.compile_trace (h : Heap K P) : Option (Heap K P × List Nat) :=
  ac_trie.compile_loop_trace h.length h (h.node m_root).m_children

/-- A builder state with a failure-link to a replaced object: "112" is added and compiled,
which makes the node of "1" the failure-link of the node of "11"; then "1" is added, which
replaces the node of "1" by a new Match object. -/
def sample_builder : Heap Nat Nat :=
  ac_trie.add ((ac_trie.compile (ac_trie.add ac_trie.new [1, 1, 2] 7)).getD []) [1] 9

end notions

/-! ## The flat map of `yy_flat_map.h` -/

section flatmap

variable {K V : Type} [LinearOrder K]

/-- The class `flat_map`: the key array and the value array. -/
structure flat_map (K V : Type) where
  m_keys : List K
  m_values : List V
deriving DecidableEq, Repr

/-- Modelled from the spec: `simple_vector::emplace(pos, x)` (`yy_vector.h`, not among the
sources), the insertion of `x` before position `pos` of a vector. -/
def simple_vector.emplace {α : Type} (l : List α) (pos : Nat) (x : α) : List α :=
  l.take pos ++ x :: l.drop pos

/-- Modelled from the spec: `yy_data::lower_bound(begin, end, key)` (`yy_lower_bound.h`, not
among the sources) on the sorted key array: the position of the first key that is not below
`p_key`. -/
def flat_map.lower_bound : List K → K → Nat
  | [], _ => 0
  | k :: rest, p_key => if k < p_key then flat_map.lower_bound rest p_key + 1 else 0

/-- The method `flat_map::do_lower_bound_raw`: the lower bound and whether it is the end. -/
def flat_map.do_lower_bound_raw (m : flat_map K V) (p_key : K) : Nat × Bool :=
  let iter := flat_map.lower_bound m.m_keys p_key
  (iter, decide (iter = m.m_keys.length))

/-- The method `flat_map::do_find_raw`: the lower bound and whether the key there is
`p_key`. -/
def flat_map.do_find_raw (m : flat_map K V) (p_key : K) : Nat × Bool :=
  let r := m.do_lower_bound_raw p_key
  (r.1, !r.2 && decide (m.m_keys[r.1]? = some p_key))

/-- The method `flat_map::do_find`: as `do_find_raw`, with the position as an index. -/
def flat_map.do_find (m : flat_map K V) (p_key : K) : Nat × Bool :=
  m.do_find_raw p_key

/-- The method `flat_map::find_pos`. -/
def flat_map.find_pos (m : flat_map K V) (p_key : K) : Nat × Bool :=
  m.do_find p_key

/-- The method `flat_map::do_emplace`: the key and the value are inserted at the same
position; the result is the new map and the position of the key. -/
def flat_map.do_emplace (m : flat_map K V) (p_key_pos : Nat) (p_key : K) (p_value : V) :
    flat_map K V × Nat :=
  (⟨simple_vector.emplace m.m_keys p_key_pos p_key,
    simple_vector.emplace m.m_values p_key_pos p_value⟩, p_key_pos)

/-- The method `flat_map::emplace(key, value)`: the new map, the position of the key and
whether it was inserted. -/
def flat_map.emplace (m : flat_map K V) (p_key : K) (p_value : V) :
    flat_map K V × (Nat × Bool) :=
  let r := m.do_find_raw p_key
  if !r.2 then
    let e := m.do_emplace r.1 p_key p_value
    (e.1, (e.2, true))
  else (m, (r.1, false))

/-- The method `flat_map::size()`. -/
def flat_map.size (m : flat_map K V) : Nat := m.m_keys.length

/-- The default constructor `flat_map()`: the empty map. -/
def flat_map.new : flat_map K V := ⟨[], []⟩

/-- The loop of the initializer-list constructor: `emplace` for each entry, in order. -/
def flat_map.emplace_all (m : flat_map K V) : List (K × V) → flat_map K V
  | [] => m
  | (key, value) :: rest => flat_map.emplace_all (m.emplace key value).1 rest

/-- The constructor `flat_map(std::initializer_list)`. -/
def flat_map.from_initializer_list (init : List (K × V)) : flat_map K V :=
  flat_map.emplace_all flat_map.new init

/-- The entries of the map: key `i` with value `i`. -/
def flat_map.entries (m : flat_map K V) : List (K × V) := m.m_keys.zip m.m_values

/-- The method `flat_map::empty()`. -/
def flat_map.empty (m : flat_map K V) : Bool := m.m_keys.isEmpty

/-- The `for` loop of `flat_map::operator<` at index `idx` with `n` rounds to go: `some (some r)`
for a `return r` inside the loop, `some none` when the loop runs to its end, and `none` when an
array is read outside its bounds (which does not happen when both maps hold as many values as
keys). -/
def flat_map.less_loop [LinearOrder V] (m other : flat_map K V) :
    Nat → Nat → Option (Option Bool)
  | 0, _ => some none
  | n + 1, idx =>
    match m.m_keys[idx]?, other.m_keys[idx]? with
    | some k, some ok =>
      if k < ok then some (some true)
      else if k ≠ ok then some (some false)
      else
        match m.m_values[idx]?, other.m_values[idx]? with
        | some v, some ov =>
          if v < ov then some (some true)
          else if ¬ (v = ov) then some (some false)
          else flat_map.less_loop m other n (idx + 1)
        | _, _ => none
    | _, _ => none

/-- The operator `flat_map::operator<`. -/
def flat_map.operator_lt [LinearOrder V] (m other : flat_map K V) : Option Bool :=
  if m.empty then some (!other.empty)
  else if !m.empty && other.empty then some false
  else
    match flat_map.less_loop m other (min m.size other.size) 0 with
    | none => none
    | some (some r) => some r
    | some none => some (decide (m.size < other.size))

/-- The `for` loop of `flat_map::operator==`, with the results of `less_loop`. -/
def flat_map.equal_loop [LinearOrder V] (m other : flat_map K V) :
    Nat → Nat → Option (Option Bool)
  | 0, _ => some none
  | n + 1, idx =>
    match m.m_keys[idx]?, other.m_keys[idx]? with
    | some k, some ok =>
      if ¬ (k = ok) then some (some false)
      else
        match m.m_values[idx]?, other.m_values[idx]? with
        | some v, some ov =>
          if ¬ (v = ov) then some (some false)
          else flat_map.equal_loop m other n (idx + 1)
        | _, _ => none
    | _, _ => none

/-- The operator `flat_map::operator==`. -/
def flat_map.operator_eq [LinearOrder V] (m other : flat_map K V) : Option Bool :=
  if m.empty then some other.empty
  else if !m.empty && other.empty then some false
  else
    match flat_map.equal_loop m other (min m.size other.size) 0 with
    | none => none
    | some (some r) => some r
    | some none => some (decide (m.size = other.size))

/-- The lexicographic comparison of two entry sequences as a function: the first position
where the sequences differ decides, by key and then by value, and a proper prefix is
smaller. -/
def entries_less [LinearOrder V] : List (K × V) → List (K × V) → Bool
  | [], [] => false
  | [], _ :: _ => true
  | _ :: _, [] => false
  | (k, v) :: r, (ok, ov) :: or =>
    if k < ok then true
    else if k ≠ ok then false
    else if v < ov then true
    else if ¬ (v = ov) then false
    else entries_less r or

end flatmap

/-! ## The subject of `subject_observer.h` -/

section subject

variable {K D A R W T O : Type} [DecidableEq K]

/-- The class `observer_base<R, Args...>` with its implementations `observer_func` and
`observer_class_method`: the virtual method `event(data, args...)`, a function of the data, of
the arguments and of the state `W` of the program outside the subject, which the call may
change. -/
structure observer_base (D A R W : Type) where
  event : D → A → W → R × W

/-- The member function `std::unordered_map::find(key)` on the map given as the partial
function from keys to mapped values: `none` for `end()`. -/
def unordered_map.find (m : K → Option O) (key : K) : Option O := m key

/-- The member function `std::unordered_map::try_emplace(key, value)`: nothing is changed when
the key is present; the flag says whether the value was inserted. -/
def unordered_map.try_emplace (m : K → Option O) (key : K) (value : O) :
    (K → Option O) × Bool :=
  match m key with
  | some _ => (m, false)
  | none => (fun k => if k = key then some value else m k, true)

/-- The member function `std::unordered_map::erase(key)`. -/
def unordered_map.erase (m : K → Option O) (key : K) : K → Option O :=
  fun k => if k = key then none else m k

/-- The class `subject<K, R, Args...>`, and with `R := Unit` its specialisation
`subject<K, void, Args...>`: the map `m_observers`. -/
structure subject (K D A R W : Type) where
  m_observers : K → Option (observer_base D A R W)

/-- A default-constructed `subject`: no observer is registered. -/
def subject.new : subject K D A R W := ⟨fun _ => none⟩

/-- The method `subject::event(key, data, args...)`: the returned tuple and the state of the
program after the call. -/
def subject.event [Inhabited R] (s : subject K D A R W) (key : K) (data : D) (args : A)
    (w : W) : (Bool × R) × W :=
  match unordered_map.find s.m_observers key with
  | some found =>
    let r := found.event data args w
    ((true, r.1), r.2)
  | none => ((false, default), w)

/-- The method `subject<K, void, Args...>::event(key, data, args...)`: the returned flag
`call` and the state of the program after the call. -/
def subject.event_void (s : subject K D A Unit W) (key : K) (data : D) (args : A) (w : W) :
    Bool × W :=
  let found := unordered_map.find s.m_observers key
  let call := found.isSome
  match found with
  | some o => (call, (o.event data args w).2)
  | none => (call, w)

/-- The method `subject::add(key, func)` (the same in both class templates): the new subject
and the returned flag. -/
def subject.add (s : subject K D A R W) (key : K) (func : D → A → W → R × W) :
    subject K D A R W × Bool :=
  let r := unordered_map.try_emplace s.m_observers key ⟨func⟩
  (⟨r.1⟩, r.2)

/-- The method `subject::add(key, obj, method)` (the same in both class templates); `obj` is
`none` for a null `shared_ptr`. -/
def subject.add_method (s : subject K D A R W) (key : K) (obj : Option T)
    (method : T → D → A → W → R × W) : subject K D A R W × Bool :=
  match obj with
  | none => (s, false)
  | some o =>
    let r := unordered_map.try_emplace s.m_observers key ⟨method o⟩
    (⟨r.1⟩, r.2)

/-- The method `subject::erase(key)` (the same in both class templates). -/
def subject.erase (s : subject K D A R W) (key : K) : subject K D A R W :=
  ⟨unordered_map.erase s.m_observers key⟩

end subject

/-! ## Theorems -/

section basic

variable {K P : Type}

theorem node_of_length_le (h : Heap K P) (i : Nat) (hi : h.length ≤ i) :
    h.node i = ⟨m_root, [], none⟩ := by
  unfold Heap.node
  rw [List.getD_eq_default _ _ hi]

theorem iterate_chain_bound (f : Nat → Nat) (N : Nat) (Q : Nat → Prop) (s n : Nat)
    (hN : ∀ x, N ≤ x → Q (f x)) (hnot : ∀ j < n, ¬ Q (f^[j] s)) (hQ : Q (f^[n] s)) :
    n ≤ N + 1 := by
  by_contra hlt
  push_neg at hlt
  have hne : ∀ i j, i < j → j < n → f^[i] s ≠ f^[j] s := by
    intro i j hij hj heq
    have h1 : f^[i + (n - j)] s = f^[n] s := by
      have e1 : i + (n - j) = (n - j) + i := by omega
      have e2 : n = (n - j) + j := by omega
      rw [e1, Function.iterate_add_apply]
      conv_rhs => rw [e2, Function.iterate_add_apply]
      exact congrArg _ heq
    exact hnot (i + (n - j)) (by omega) (h1 ▸ hQ)
  have hinj : Set.InjOn (fun j => f^[j] s) (Finset.range (n - 1) : Set Nat) := by
    intro i hi j hj hij
    simp only [Finset.coe_range, Set.mem_Iio] at hi hj
    rcases Nat.lt_trichotomy i j with h1 | h1 | h1
    · exact absurd hij (hne i j h1 (by omega))
    · exact h1
    · exact absurd hij.symm (hne j i h1 (by omega))
  have hmaps : ∀ j ∈ Finset.range (n - 1), (fun j => f^[j] s) j ∈ Finset.range N := by
    intro j hj
    simp only [Finset.mem_range] at hj ⊢
    by_contra hge
    push_neg at hge
    have := hN _ hge
    rw [← Function.iterate_succ_apply' f j s] at this
    exact hnot (j + 1) (by omega) this
  have := Finset.card_le_card_of_injOn _ hmaps hinj
  simp at this
  omega

end basic

section cursor

variable {K P : Type} [LinearOrder K]

theorem next_loop_of_chain (h : Heap K P) (t : K) (n : Nat) :
    ∀ (fuel s : Nat), n < fuel →
      (∀ j < n, trie_node.get h (fail_chain h s j) t = none ∧ fail_chain h s j ≠ m_root) →
      Automaton.next_loop h t fuel s =
        match trie_node.get h (fail_chain h s n) t with
        | some c => some c
        | none => if fail_chain h s n = m_root then some m_root
                  else Automaton.next_loop h t (fuel - n - 1) (fail_chain h s (n + 1)) := by
  induction n with
  | zero =>
    intro fuel s hf _
    obtain ⟨f, rfl⟩ : ∃ f, fuel = f + 1 := ⟨fuel - 1, by omega⟩
    simp only [Automaton.next_loop, fail_chain, Function.iterate_zero, id_eq]
    cases hg : trie_node.get h s t with
    | some c => rfl
    | none =>
      simp only [Function.iterate_succ, Function.comp, Function.iterate_zero, id_eq, fail_of]
      by_cases hr : s = m_root
      · simp [hr]
      · simp [hr]
  | succ n ih =>
    intro fuel s hf hskip
    obtain ⟨f, rfl⟩ : ∃ f, fuel = f + 1 := ⟨fuel - 1, by omega⟩
    have h0 := hskip 0 (by omega)
    simp only [fail_chain, Function.iterate_zero, id_eq] at h0
    have hstep : Automaton.next_loop h t (f + 1) s = Automaton.next_loop h t f (fail_of h s) := by
      simp only [Automaton.next_loop, h0.1, if_neg h0.2, fail_of]
    rw [hstep, ih f (fail_of h s) (by omega)]
    · simp only [fail_chain, Function.iterate_succ, Function.comp]
      have : f + 1 - (n + 1) - 1 = f - n - 1 := by omega
      rw [this]
    · intro j hj
      have := hskip (j + 1) (by omega)
      simpa only [fail_chain, Function.iterate_succ, Function.comp] using this

theorem next_chain_bound (h : Heap K P) (s : Nat) (t : K) (n : Nat)
    (hskip : ∀ j < n, trie_node.get h (fail_chain h s j) t = none ∧ fail_chain h s j ≠ m_root)
    (hstop : trie_node.get h (fail_chain h s n) t ≠ none ∨ fail_chain h s n = m_root) :
    n ≤ h.length + 1 := by
  apply iterate_chain_bound (fail_of h) h.length
    (fun x => trie_node.get h x t ≠ none ∨ x = m_root) s n
  · intro x hx
    right
    simp [fail_of, node_of_length_le h x hx]
  · intro j hj
    have := hskip j hj
    simp only [fail_chain] at this
    simp [this.1, this.2]
  · exact hstop

theorem next_of_chain_edge (h : Heap K P) (s : Nat) (t : K) (n c : Nat)
    (hskip : ∀ j < n, trie_node.get h (fail_chain h s j) t = none ∧ fail_chain h s j ≠ m_root)
    (hc : trie_node.get h (fail_chain h s n) t = some c) :
    Automaton.next h s t = some c := by
  have hb := next_chain_bound h s t n hskip (Or.inl (by simp [hc]))
  unfold Automaton.next
  rw [next_loop_of_chain h t n _ s (by omega) hskip, hc]

theorem next_of_chain_root (h : Heap K P) (s : Nat) (t : K) (n : Nat)
    (hskip : ∀ j < n, trie_node.get h (fail_chain h s j) t = none ∧ fail_chain h s j ≠ m_root)
    (hnone : trie_node.get h (fail_chain h s n) t = none) (hroot : fail_chain h s n = m_root) :
    Automaton.next h s t = some m_root := by
  have hb := next_chain_bound h s t n hskip (Or.inr hroot)
  unfold Automaton.next
  rw [next_loop_of_chain h t n _ s (by omega) hskip, hnone]
  simp [hroot]

/-- C9: `next(t)` moves to the child along `t` of the first node of the chain
`s, fail(s), fail(fail(s)), ...` that has an edge for `t`, the chain ending with the root; when
no node up to and including the root has an edge for `t` the cursor becomes the root.  In
particular a direct edge from `s` is taken, and the root without an edge for `t` is kept. -/
theorem next_follows_fail_chain (h : Heap K P) (s : Nat) (t : K) (n : Nat)
    (hskip : ∀ j < n,
      trie_node.get h (fail_chain h s j) t = none ∧ fail_chain h s j ≠ m_root) :
    (∀ c, trie_node.get h (fail_chain h s n) t = some c → Automaton.next h s t = some c) ∧
    (trie_node.get h (fail_chain h s n) t = none → fail_chain h s n = m_root →
      Automaton.next h s t = some m_root) ∧
    (∀ c, trie_node.get h s t = some c → Automaton.next h s t = some c) ∧
    (trie_node.get h m_root t = none → Automaton.next h m_root t = some m_root) := by
  refine ⟨fun c hc => next_of_chain_edge h s t n c hskip hc,
    fun hnone hroot => next_of_chain_root h s t n hskip hnone hroot,
    fun c hc => next_of_chain_edge h s t 0 c (fun j hj => absurd hj (Nat.not_lt_zero j)) hc,
    fun hnone => next_of_chain_root h m_root t 0 (fun j hj => absurd hj (Nat.not_lt_zero j))
      hnone rfl⟩

theorem next_follows_fail_chain_witness :
    (∀ j < 1, trie_node.get sample_heap (fail_chain sample_heap 2 j) 2 = none ∧
      fail_chain sample_heap 2 j ≠ m_root) ∧
    Automaton.next sample_heap 2 2 = some 2 :=
  ⟨by decide, (next_follows_fail_chain sample_heap 2 2 1 (by decide)).1 2 (by decide)⟩

/-- C10: `visit` hands the payload of the current node to the callback exactly once when the
current node is a Match node, and does not call it when the current node is the root or a
node without payload; it is a function of the cursor and gives no new cursor position. -/
theorem visit_reports_current_payload (h : Heap K P) (m_state : Nat) :
    (∀ v, m_state ≠ m_root → (h.node m_state).m_payload = some v →
      Automaton.visit h m_state = .ok [v]) ∧
    (m_state = m_root ∨ (h.node m_state).m_payload = none →
      Automaton.visit h m_state = .ok []) := by
  constructor
  · intro v hs hv
    simp [Automaton.visit, hs, trie_node.empty, trie_node.value, hv, Except.map]
  · intro hcase
    rcases hcase with hs | hv
    · simp [Automaton.visit, hs]
    · simp [Automaton.visit, trie_node.empty, hv]

theorem visit_reports_current_payload_witness :
    ((2 : Nat) ≠ m_root ∧ (sample_heap.node 2).m_payload = some 7) ∧
    Automaton.visit sample_heap 2 = .ok [7] :=
  ⟨by decide, (visit_reports_current_payload sample_heap 2).1 7 (by decide) (by decide)⟩

/-- C1, the code at the failing input: with "he" and "she" added and compiled, after the text
"she" the call of `visit_all` does not compile as the method is in the source, so neither "she"
nor "he" is reported; and with the test of line 410 changed to `node->empty()`, `visit_all`
hands "she" to the callback twice (once for each Match node of the chain, each time the
payload of the current node) and never hands it "he". -/
theorem visit_all_she_reports_she_twice :
    ((ac_trie.build [text_pattern "he", text_pattern "she"]).bind fun h =>
      (Automaton.run h m_root "she".toList).map (Automaton.visit_all h)) =
      some .ill_formed ∧
    ((ac_trie.build [text_pattern "he", text_pattern "she"]).bind fun h =>
      (Automaton.run h m_root "she".toList).bind (Automaton.visit_all_repaired h)) =
      some (.returns ["she", "she"]) := by
  exact ⟨by rfl, by rfl⟩

/-- C3, the code at the failing input: with "aab" and "b" added and compiled, the node of "aab"
is object 3, "ab" is not a path, the node of "b" is object 4 (so "b" is the longest proper
suffix of "aab" that is a path), and the failure-link of the node of "aab" is the root, not
the node of "b". -/
theorem compile_aab_fail_is_root :
    ((ac_trie.build [text_pattern "aab", text_pattern "b"]).map fun h =>
      (walk h "aab".toList, walk h "ab".toList, walk h "b".toList, fail_of h 3)) =
      some (some 3, none, some 4, m_root) := by
  rfl

/-- C8, the code at the failing input: with "ab" added and compiled, `word("ab")` on a fresh
cursor returns false although the path of "ab" ends on a Match node, and `word("a")` returns
true although the node of "a" carries no payload. -/
theorem word_ab_false_word_a_true :
    ((ac_trie.build [text_pattern "ab"]).map fun h =>
      (walk h "ab".toList, (walk h "ab".toList).map (trie_node.empty h),
        (Automaton.word h m_root "ab".toList).map Prod.fst,
        (walk h "a".toList).map (trie_node.empty h),
        (Automaton.word h m_root "a".toList).map Prod.fst)) =
      some (some 2, some false, some false, some true, some true) := by
  rfl

end cursor

section edges

variable {K : Type} [LinearOrder K]

theorem comp_pos_iff (s : trie_node_shim K) (k : K) : 0 < trie_node.comp s k ↔ s.key < k := by
  unfold trie_node.comp
  split_ifs with h1 h2
  · simp [not_lt_of_lt h1]
  · simp [h2]
  · simp only [zero_lt_one, true_iff]
    exact lt_of_le_of_ne (not_lt.mp h1) (Ne.symm h2)

theorem comp_zero_iff (s : trie_node_shim K) (k : K) : trie_node.comp s k = 0 ↔ k = s.key := by
  unfold trie_node.comp
  split_ifs with h1 h2
  · simp [ne_of_lt h1]
  · simp [h2]
  · simp [h2]

theorem sorted_keys_cons (s : trie_node_shim K) (l : List (trie_node_shim K)) :
    sorted_keys (s :: l) ↔ (∀ x ∈ l, s.key < x.key) ∧ sorted_keys l := by
  simp [sorted_keys, List.Sorted]

theorem lower_bound_cons_lt (s : trie_node_shim K) (l : List (trie_node_shim K)) (k : K)
    (h : s.key < k) : lower_bound (s :: l) k = lower_bound l k + 1 := by
  simp [lower_bound, comp_pos_iff, h]

theorem lower_bound_cons_ge (s : trie_node_shim K) (l : List (trie_node_shim K)) (k : K)
    (h : ¬ s.key < k) : lower_bound (s :: l) k = 0 := by
  simp [lower_bound, comp_pos_iff, h]

theorem find_fst (l : List (trie_node_shim K)) (k : K) : (find l k).1 = lower_bound l k := by
  simp only [find]
  split <;> rfl

theorem find_snd (l : List (trie_node_shim K)) (k : K) :
    (find l k).2 = true ↔ ∃ s, l[lower_bound l k]? = some s ∧ k = s.key := by
  simp only [find]
  split
  · rename_i s hs
    simp [hs, comp_zero_iff]
  · rename_i hs
    simp [hs]

theorem find_cons_lt (s : trie_node_shim K) (l : List (trie_node_shim K)) (k : K)
    (h : s.key < k) : find (s :: l) k = ((find l k).1 + 1, (find l k).2) := by
  simp only [find, lower_bound_cons_lt s l k h, List.getElem?_cons_succ]
  cases l[lower_bound l k]? <;> rfl

theorem find_cons_eq (s : trie_node_shim K) (l : List (trie_node_shim K)) (k : K)
    (h : k = s.key) : find (s :: l) k = (0, true) := by
  have hlt : ¬ s.key < k := by simp [h]
  apply Prod.ext
  · rw [find_fst, lower_bound_cons_ge s l k hlt]
  · show (find (s :: l) k).2 = true
    rw [find_snd, lower_bound_cons_ge s l k hlt]
    exact ⟨s, by simp, h⟩

theorem find_cons_gt (s : trie_node_shim K) (l : List (trie_node_shim K)) (k : K)
    (h : k < s.key) : find (s :: l) k = (0, false) := by
  have hlt : ¬ s.key < k := not_lt_of_lt h
  apply Prod.ext
  · rw [find_fst, lower_bound_cons_ge s l k hlt]
  · show (find (s :: l) k).2 = false
    rw [← Bool.not_eq_true, find_snd, lower_bound_cons_ge s l k hlt]
    rintro ⟨x, hx, hk⟩
    simp only [List.getElem?_cons_zero, Option.some.injEq] at hx
    rw [← hx] at hk
    exact absurd hk (ne_of_lt h)

theorem find_nil (k : K) : find ([] : List (trie_node_shim K)) k = (0, false) := rfl

theorem child_of_iff_mem (l : List (trie_node_shim K)) (hl : sorted_keys l) (k : K) (c : Nat) :
    child_of l k = some c ↔ ⟨k, c⟩ ∈ l := by
  induction l with
  | nil => simp [child_of, find_nil]
  | cons s rest ih =>
    rw [sorted_keys_cons] at hl
    rcases lt_trichotomy s.key k with hlt | heq | hgt
    · have : child_of (s :: rest) k = child_of rest k := by
        simp [child_of, find_cons_lt s rest k hlt]
      rw [this, ih hl.2, List.mem_cons]
      constructor
      · exact Or.inr
      · rintro (h | h)
        · rw [← h] at hlt; exact absurd hlt (lt_irrefl _)
        · exact h
    · have : child_of (s :: rest) k = some s.node := by
        simp [child_of, find_cons_eq s rest k heq.symm]
      rw [this, List.mem_cons]
      constructor
      · intro h
        left
        cases s
        simp only [Option.some.injEq] at h
        simp only at heq
        rw [← h, heq]
      · rintro (h | h)
        · rw [← h]
        · have := hl.1 _ h
          simp only at this
          rw [heq] at this
          exact absurd this (lt_irrefl _)
    · have : child_of (s :: rest) k = none := by
        simp [child_of, find_cons_gt s rest k hgt]
      rw [this, List.mem_cons]
      constructor
      · intro h; cases h
      · rintro (h | h)
        · rw [← h] at hgt; exact absurd hgt (lt_irrefl _)
        · have := hl.1 _ h
          simp only at this
          exact absurd (lt_trans this hgt) (lt_irrefl _)

theorem find_found_iff (l : List (trie_node_shim K)) (k : K) :
    (find l k).2 = true ↔ ∃ c, child_of l k = some c := by
  unfold child_of
  by_cases h : (find l k).2 = true
  · simp only [h, if_true, true_iff]
    obtain ⟨s, hs, _⟩ := (find_snd l k).mp h
    rw [find_fst, hs]
    exact ⟨s.node, rfl⟩
  · simp [h]

/-- Inserting a missing key at its lower bound. -/
theorem emplace_spec (l : List (trie_node_shim K)) (hl : sorted_keys l) (k : K) (c : Nat)
    (hnf : (find l k).2 = false) :
    sorted_keys (emplace l (find l k).1 ⟨k, c⟩) ∧
    ∀ x, x ∈ emplace l (find l k).1 ⟨k, c⟩ ↔ x = ⟨k, c⟩ ∨ x ∈ l := by
  induction l with
  | nil => simp [emplace, find_nil, sorted_keys]
  | cons s rest ih =>
    rw [sorted_keys_cons] at hl
    rcases lt_trichotomy s.key k with hlt | heq | hgt
    · rw [find_cons_lt s rest k hlt] at hnf ⊢
      simp only at hnf ⊢
      have ih' := ih hl.2 hnf
      have he : emplace (s :: rest) ((find rest k).1 + 1) ⟨k, c⟩ =
          s :: emplace rest (find rest k).1 ⟨k, c⟩ := by
        simp [emplace]
      rw [he, sorted_keys_cons]
      refine ⟨⟨?_, ih'.1⟩, ?_⟩
      · intro x hx
        rcases (ih'.2 x).mp hx with h | h
        · rw [h]; exact hlt
        · exact hl.1 x h
      · intro x
        rw [List.mem_cons, ih'.2 x, List.mem_cons]
        tauto
    · rw [find_cons_eq s rest k heq.symm] at hnf
      simp at hnf
    · rw [find_cons_gt s rest k hgt]
      have he : emplace (s :: rest) 0 ⟨k, c⟩ = ⟨k, c⟩ :: s :: rest := by
        simp [emplace]
      simp only [he]
      refine ⟨?_, ?_⟩
      · rw [sorted_keys_cons, sorted_keys_cons]
        refine ⟨?_, hl⟩
        intro x hx
        rcases List.mem_cons.mp hx with h | h
        · rw [h]; exact hgt
        · exact lt_trans hgt (hl.1 x h)
      · intro x
        simp [List.mem_cons]

/-- Redirecting the edge of a key that is present. -/
theorem set_spec (l : List (trie_node_shim K)) (hl : sorted_keys l) (k : K) (c : Nat)
    (hf : (find l k).2 = true) :
    sorted_keys (l.set (find l k).1 ⟨k, c⟩) ∧
    ∀ x, x ∈ l.set (find l k).1 ⟨k, c⟩ ↔ x = ⟨k, c⟩ ∨ (x ∈ l ∧ x.key ≠ k) := by
  induction l with
  | nil => simp [find_nil] at hf
  | cons s rest ih =>
    rw [sorted_keys_cons] at hl
    rcases lt_trichotomy s.key k with hlt | heq | hgt
    · rw [find_cons_lt s rest k hlt] at hf ⊢
      simp only at hf ⊢
      have ih' := ih hl.2 hf
      rw [List.set_cons_succ, sorted_keys_cons]
      refine ⟨⟨?_, ih'.1⟩, ?_⟩
      · intro x hx
        rcases (ih'.2 x).mp hx with h | h
        · rw [h]; exact hlt
        · exact hl.1 x h.1
      · intro x
        rw [List.mem_cons, ih'.2 x, List.mem_cons]
        constructor
        · rintro (h | h | h)
          · right; exact ⟨Or.inl h, by rw [h]; exact ne_of_lt hlt⟩
          · left; exact h
          · right; exact ⟨Or.inr h.1, h.2⟩
        · rintro (h | ⟨h | h, h2⟩)
          · right; left; exact h
          · left; exact h
          · right; right; exact ⟨h, h2⟩
    · rw [find_cons_eq s rest k heq.symm]
      simp only [List.set_cons_zero]
      refine ⟨?_, ?_⟩
      · rw [sorted_keys_cons]
        refine ⟨?_, hl.2⟩
        intro x hx
        have := hl.1 x hx
        simpa [heq] using this
      · intro x
        rw [List.mem_cons, List.mem_cons]
        constructor
        · rintro (h | h)
          · left; exact h
          · right
            refine ⟨Or.inr h, ?_⟩
            have := hl.1 x h
            rw [heq] at this
            exact (ne_of_lt this).symm
        · rintro (h | ⟨h | h, h2⟩)
          · left; exact h
          · rw [h] at h2; exact absurd heq h2
          · right; exact h
    · rw [find_cons_gt s rest k hgt] at hf
      simp at hf

end edges

section heap

variable {K P : Type} [LinearOrder K]

theorem node_set (h : Heap K P) (i j : Nat) (n : trie_node K P) :
    Heap.node (h.set i n) j = if i = j ∧ i < h.length then n else h.node j := by
  unfold Heap.node
  simp only [List.getD_eq_getElem?_getD, List.getElem?_set]
  by_cases hij : i = j
  · subst hij
    by_cases hi : i < h.length
    · simp [hi]
    · simp [hi, List.getElem?_eq_none (not_lt.mp hi)]
  · simp [hij]

theorem node_append (h : Heap K P) (j : Nat) (n : trie_node K P) :
    Heap.node (h ++ [n]) j = if j = h.length then n else h.node j := by
  unfold Heap.node
  simp only [List.getD_eq_getElem?_getD]
  rcases Nat.lt_trichotomy j h.length with hlt | heq | hgt
  · rw [List.getElem?_append_left hlt]
    simp [Nat.ne_of_lt hlt]
  · subst heq
    simp
  · rw [List.getElem?_append_right (Nat.le_of_lt hgt)]
    have h1 : j - h.length ≠ 0 := by omega
    have h2 : h[j]? = none := List.getElem?_eq_none (Nat.le_of_lt hgt)
    obtain ⟨m, hm⟩ : ∃ m, j - h.length = m + 1 := ⟨j - h.length - 1, by omega⟩
    simp [Nat.ne_of_gt hgt, h2, hm]

theorem get_eq_child_of (h : Heap K P) (s : Nat) (k : K) :
    trie_node.get h s k = child_of (h.node s).m_children k := rfl

theorem get_some_iff (h : Heap K P) (hw : WF h) (s : Nat) (k : K) (c : Nat) :
    trie_node.get h s k = some c ↔ ⟨k, c⟩ ∈ (h.node s).m_children := by
  rw [get_eq_child_of, child_of_iff_mem _ (hw.sorted s)]

theorem get_valid (h : Heap K P) (hw : WF h) (s : Nat) (k : K) (c : Nat)
    (hg : trie_node.get h s k = some c) : c ≠ m_root ∧ c < h.length :=
  hw.child_valid s _ ((get_some_iff h hw s k c).mp hg)

theorem get_of_length_le (h : Heap K P) (s : Nat) (hs : h.length ≤ s) (k : K) :
    trie_node.get h s k = none := by
  rw [get_eq_child_of, node_of_length_le h s hs]
  rfl

theorem walk_from_append (h : Heap K P) (s : Nat) (p q : List K) :
    walk_from h s (p ++ q) = (walk_from h s p).bind fun x => walk_from h x q := by
  induction p generalizing s with
  | nil => simp [walk_from]
  | cons a rest ih =>
    simp only [List.cons_append, walk_from]
    cases trie_node.get h s a with
    | none => rfl
    | some c => simp [ih]

theorem walk_nil (h : Heap K P) : walk h [] = some m_root := rfl

theorem walk_snoc (h : Heap K P) (p : List K) (a : K) :
    walk h (p ++ [a]) = (walk h p).bind fun x => trie_node.get h x a := by
  unfold walk
  rw [walk_from_append]
  congr 1
  funext x
  simp only [walk_from]
  cases trie_node.get h x a <;> rfl

theorem walk_snoc_some (h : Heap K P) (p : List K) (a : K) (x : Nat) :
    walk h (p ++ [a]) = some x ↔ ∃ y, walk h p = some y ∧ trie_node.get h y a = some x := by
  rw [walk_snoc]
  cases walk h p <;> simp

theorem walk_congr (h h' : Heap K P)
    (hg : ∀ j a, trie_node.get h' j a = trie_node.get h j a) (p : List K) :
    walk h' p = walk h p := by
  induction p using List.reverseRecOn with
  | nil => rfl
  | append_singleton q a ih =>
    rw [walk_snoc, walk_snoc, ih]
    congr 1
    funext x
    exact hg x a

theorem walk_valid (h : Heap K P) (hw : WF h) (p : List K) (x : Nat)
    (hp : walk h p = some x) : x < h.length := by
  induction p using List.reverseRecOn generalizing x with
  | nil =>
    simp only [walk_nil, Option.some.injEq] at hp
    rw [← hp]; exact hw.pos
  | append_singleton q a _ =>
    obtain ⟨y, _, hy⟩ := (walk_snoc_some h q a x).mp hp
    exact (get_valid h hw y a x hy).2

theorem walk_ne_root (h : Heap K P) (hw : WF h) (p : List K) (x : Nat)
    (hp : walk h p = some x) (hne : p ≠ []) : x ≠ m_root := by
  intro hx
  rw [hx] at hp
  exact hne (hw.walk_inj p [] m_root hp (walk_nil h))

/-- A new edge `i -k-> c` to an object `c` without edges that no edge led to. -/
theorem walk_fresh_edge (h h' : Heap K P) (i c : Nat) (k : K)
    (hg : ∀ j a, trie_node.get h' j a =
      if j = i ∧ a = k then some c else trie_node.get h j a)
    (hik : trie_node.get h i k = none) (hci : c ≠ i)
    (hout : ∀ a, trie_node.get h c a = none)
    (p : List K) (x : Nat) :
    walk h' p = some x ↔
      walk h p = some x ∨ (x = c ∧ ∃ q, p = q ++ [k] ∧ walk h q = some i) := by
  induction p using List.reverseRecOn generalizing x with
  | nil =>
    simp only [walk_nil, Option.some.injEq]
    constructor
    · exact Or.inl
    · rintro (hx | ⟨_, q, hq, _⟩)
      · exact hx
      · simp at hq
  | append_singleton q a ih =>
    rw [walk_snoc_some]
    constructor
    · rintro ⟨y, hy, hya⟩
      rcases (ih y).mp hy with hy' | ⟨hyc, _⟩
      · rw [hg] at hya
        split_ifs at hya with hcase
        · right
          simp only [Option.some.injEq] at hya
          refine ⟨hya.symm, q, ?_, ?_⟩
          · rw [hcase.2]
          · rw [← hcase.1]; exact hy'
        · left
          exact (walk_snoc_some h q a x).mpr ⟨y, hy', hya⟩
      · rw [hg, hyc] at hya
        simp only [hci, false_and, if_false, hout] at hya
        cases hya
    · rintro (hx | ⟨hxc, q', hq', hq'i⟩)
      · obtain ⟨y, hy, hya⟩ := (walk_snoc_some h q a x).mp hx
        refine ⟨y, (ih y).mpr (Or.inl hy), ?_⟩
        rw [hg]
        split_ifs with hcase
        · rw [hcase.1, hcase.2, hik] at hya
          cases hya
        · exact hya
      · obtain ⟨hq, ha⟩ := List.append_inj' hq' rfl
        simp only [List.cons.injEq, and_true] at ha
        subst hq ha
        refine ⟨i, (ih i).mpr (Or.inl hq'i), ?_⟩
        rw [hg]
        simp [hxc]

theorem walk_not_fresh (h : Heap K P) (c : Nat) (hc0 : c ≠ m_root)
    (hin : ∀ j a, trie_node.get h j a ≠ some c) (p : List K) : walk h p ≠ some c := by
  induction p using List.reverseRecOn with
  | nil =>
    simp only [walk_nil, ne_eq, Option.some.injEq]
    exact fun hx => hc0 hx.symm
  | append_singleton q a _ =>
    intro hp
    obtain ⟨y, _, hya⟩ := (walk_snoc_some h q a c).mp hp
    exact hin y a hya

end heap

section addkey

variable {K P : Type} [LinearOrder K]

theorem get_none_iff_not_found (h : Heap K P) (i : Nat) (k : K) :
    trie_node.get h i k = none ↔ (find (h.node i).m_children k).2 = false := by
  rw [get_eq_child_of]
  constructor
  · intro hn
    by_contra hf
    rw [Bool.not_eq_false, find_found_iff] at hf
    obtain ⟨c, hc⟩ := hf
    rw [hn] at hc
    cases hc
  · intro hf
    simp [child_of, hf]

theorem option_eq_of_iff {α : Type} (o1 o2 : Option α)
    (hiff : ∀ x, o1 = some x ↔ o2 = some x) : o1 = o2 := by
  cases o1 with
  | none =>
    cases o2 with
    | none => rfl
    | some y => exact absurd ((hiff y).mpr rfl) (by simp)
  | some x => exact ((hiff x).mp rfl).symm

theorem add_found (h : Heap K P) (i : Nat) (k : K) (f c : Nat)
    (hc : trie_node.get h i k = some c) : trie_node.add h i k f = (h, c) := by
  have hf : (find (h.node i).m_children k).2 = true := by
    by_contra hn
    rw [Bool.not_eq_true, ← get_none_iff_not_found, hc] at hn
    cases hn
  unfold trie_node.get at hc
  simp only [hf, if_true] at hc
  unfold trie_node.add
  simp only [hf, if_true, hc, Option.getD_some]

theorem add_new_fst (h : Heap K P) (i : Nat) (k : K) (f : Nat)
    (hn : trie_node.get h i k = none) :
    (trie_node.add h i k f).1 = (h ++ [(⟨f, [], none⟩ : trie_node K P)]).set i
      { h.node i with
        m_children := emplace (h.node i).m_children (find (h.node i).m_children k).1
          ⟨k, h.length⟩ } := by
  have hf := (get_none_iff_not_found h i k).mp hn
  unfold trie_node.add
  simp only [hf, Bool.false_eq_true, if_false]

theorem add_new_snd (h : Heap K P) (i : Nat) (k : K) (f : Nat)
    (hn : trie_node.get h i k = none) : (trie_node.add h i k f).2 = h.length := by
  have hf := (get_none_iff_not_found h i k).mp hn
  unfold trie_node.add
  simp only [hf, Bool.false_eq_true, if_false]

theorem add_new_fresh_edge (h : Heap K P) (i : Nat) (hi : i < h.length) (k : K) (f : Nat)
    (hn : trie_node.get h i k = none) :
    FreshEdge h (trie_node.add h i k f).1 i k ⟨f, [], none⟩ := by
  rw [add_new_fst h i k f hn]
  have hi' : i < (h ++ [(⟨f, [], none⟩ : trie_node K P)]).length := by simp; omega
  refine ⟨by simp, ?_, ?_, ?_⟩
  · rw [node_set, if_pos ⟨rfl, hi'⟩]
  · rw [node_set, if_neg (fun hc => absurd hc.1 (Nat.ne_of_lt hi)), node_append, if_pos rfl]
  · intro j hji hjc
    rw [node_set, if_neg (fun hc => hji hc.1.symm), node_append, if_neg hjc]

theorem fresh_edge_get (h h' : Heap K P) (hw : WF h) (i : Nat) (hi : i < h.length) (k : K)
    (nc : trie_node K P) (hnc : nc.m_children = [])
    (hfe : FreshEdge h h' i k nc) (hn : trie_node.get h i k = none) (j : Nat) (a : K) :
    trie_node.get h' j a = if j = i ∧ a = k then some h.length else trie_node.get h j a := by
  have hf := (get_none_iff_not_found h i k).mp hn
  have hes := emplace_spec (h.node i).m_children (hw.sorted i) k h.length hf
  by_cases hji : j = i
  · subst hji
    rw [get_eq_child_of, hfe.at_i]
    simp only
    apply option_eq_of_iff
    intro x
    rw [child_of_iff_mem _ hes.1, hes.2]
    by_cases hak : a = k
    · subst hak
      simp only [true_and, if_true, Option.some.injEq]
      constructor
      · rintro (hx | hx)
        · cases hx; rfl
        · rw [← get_some_iff h hw, hn] at hx
          cases hx
      · intro hx
        left; rw [hx]
    · simp only [hak, and_false, if_false]
      rw [get_some_iff h hw]
      constructor
      · rintro (hx | hx)
        · cases hx; exact absurd rfl hak
        · exact hx
      · exact Or.inr
  · simp only [hji, false_and, if_false]
    by_cases hjc : j = h.length
    · subst hjc
      rw [get_eq_child_of, hfe.at_c, hnc, get_of_length_le h _ (le_refl _)]
      rfl
    · rw [get_eq_child_of, hfe.others j hji hjc, get_eq_child_of]

theorem fresh_edge_wf (h h' : Heap K P) (hw : WF h) (i : Nat) (hi : i < h.length) (k : K)
    (nc : trie_node K P) (hnc : nc.m_children = [])
    (hfe : FreshEdge h h' i k nc) (hn : trie_node.get h i k = none) : WF h' := by
  have hf := (get_none_iff_not_found h i k).mp hn
  have hes := emplace_spec (h.node i).m_children (hw.sorted i) k h.length hf
  have hg := fresh_edge_get h h' hw i hi k nc hnc hfe hn
  have hwalk := walk_fresh_edge h h' i h.length k hg hn (Nat.ne_of_gt hi)
    (fun a => get_of_length_le h _ (le_refl _) a)
  have hfresh : ∀ p, walk h p ≠ some h.length := fun p hp =>
    absurd (walk_valid h hw p _ hp) (lt_irrefl _)
  refine ⟨by rw [hfe.len]; omega, ?_, ?_, ?_, ?_⟩
  · intro j
    by_cases hji : j = i
    · subst hji; rw [hfe.at_i]; exact hes.1
    · by_cases hjc : j = h.length
      · subst hjc; rw [hfe.at_c, hnc]; simp [sorted_keys]
      · rw [hfe.others j hji hjc]; exact hw.sorted j
  · intro j s hs
    rw [hfe.len]
    by_cases hji : j = i
    · subst hji
      rw [hfe.at_i] at hs
      rcases (hes.2 s).mp hs with h1 | h1
      · rw [h1]
        exact ⟨Nat.ne_of_gt hw.pos, by simp⟩
      · have := hw.child_valid j s h1
        exact ⟨this.1, by omega⟩
    · by_cases hjc : j = h.length
      · subst hjc; rw [hfe.at_c, hnc] at hs; cases hs
      · rw [hfe.others j hji hjc] at hs
        have := hw.child_valid j s hs
        exact ⟨this.1, by omega⟩
  · intro p q n hp hq
    rcases (hwalk p n).mp hp with h1 | ⟨h1, p', hp', hp'i⟩
    · rcases (hwalk q n).mp hq with h2 | ⟨h2, _⟩
      · exact hw.walk_inj p q n h1 h2
      · rw [h2] at h1; exact absurd h1 (hfresh p)
    · rcases (hwalk q n).mp hq with h2 | ⟨_, q', hq', hq'i⟩
      · rw [h1] at h2; exact absurd h2 (hfresh q)
      · rw [hp', hq', hw.walk_inj p' q' i hp'i hq'i]
  · by_cases h0 : m_root = i
    · rw [h0, hfe.at_i]
      simp only
      rw [← h0]; exact hw.root_payload
    · rw [hfe.others m_root h0 (Nat.ne_of_lt hw.pos)]
      exact hw.root_payload

end addkey

section promote

variable {K P : Type} [LinearOrder K]

theorem add_shim_new (h : Heap K P) (i : Nat) (hi : i < h.length) (k : K) (v : P)
    (hn : trie_node.get h i k = none) :
    FreshEdge h (trie_node.add_shim (h ++ [(⟨m_root, [], some v⟩ : trie_node K P)]) i
      ⟨k, h.length⟩) i k ⟨m_root, [], some v⟩ := by
  have hf := (get_none_iff_not_found h i k).mp hn
  have hni : Heap.node (h ++ [(⟨m_root, [], some v⟩ : trie_node K P)]) i = h.node i := by
    rw [node_append, if_neg (Nat.ne_of_lt hi)]
  have hi' : i < (h ++ [(⟨m_root, [], some v⟩ : trie_node K P)]).length := by simp; omega
  unfold trie_node.add_shim
  simp only [hni, hf, Bool.not_false, if_true]
  refine ⟨by simp, ?_, ?_, ?_⟩
  · rw [node_set, if_pos ⟨rfl, hi'⟩]
  · rw [node_set, if_neg (fun hc => absurd hc.1 (Nat.ne_of_lt hi)), node_append, if_pos rfl]
  · intro j hji hjc
    rw [node_set, if_neg (fun hc => hji hc.1.symm), node_append, if_neg hjc]

theorem add_shim_promote (h : Heap K P) (i : Nat) (hi : i < h.length) (k : K) (v : P)
    (o : Nat) (ho : o < h.length) (hoi : o ≠ i) (hg : trie_node.get h i k = some o) :
    Promote h (trie_node.add_shim (h ++ [(⟨m_root, [], some v⟩ : trie_node K P)]) i
      ⟨k, h.length⟩) i k o v := by
  have hf : (find (h.node i).m_children k).2 = true := by
    by_contra hn
    rw [Bool.not_eq_true, ← get_none_iff_not_found, hg] at hn
    cases hn
  have hg' := hg
  unfold trie_node.get at hg'
  simp only [hf, if_true] at hg'
  have hni : Heap.node (h ++ [(⟨m_root, [], some v⟩ : trie_node K P)]) i = h.node i := by
    rw [node_append, if_neg (Nat.ne_of_lt hi)]
  have hno : Heap.node (h ++ [(⟨m_root, [], some v⟩ : trie_node K P)]) o = h.node o := by
    rw [node_append, if_neg (Nat.ne_of_lt ho)]
  have hnL : Heap.node (h ++ [(⟨m_root, [], some v⟩ : trie_node K P)]) h.length =
      ⟨m_root, [], some v⟩ := by
    rw [node_append, if_pos rfl]
  have hlen1 : (h ++ [(⟨m_root, [], some v⟩ : trie_node K P)]).length = h.length + 1 := by simp
  have hoL : o ≠ h.length := Nat.ne_of_lt ho
  have hiL : i ≠ h.length := Nat.ne_of_lt hi
  unfold trie_node.add_shim
  simp only [hni, hf, Bool.not_true, Bool.false_eq_true, if_false, hg', Option.getD_some]
  -- the two swaps
  have hsf : ∀ j, Heap.node (swap_fail (h ++ [(⟨m_root, [], some v⟩ : trie_node K P)]) o
      h.length) j =
      if j = h.length then ⟨(h.node o).m_fail, [], some v⟩
      else if j = o then { h.node o with m_fail := m_root }
      else h.node j := by
    intro j
    unfold swap_fail
    simp only [node_set, hno, hnL, List.length_set, hlen1]
    by_cases hjL : j = h.length
    · subst hjL
      simp [hoL]
    · by_cases hjo : j = o
      · subst hjo
        simp [hjL, Ne.symm hjL, Nat.lt_succ_of_lt ho]
      · simp [hjL, Ne.symm hjL, hjo, Ne.symm hjo, node_append]
  have hsflen : (swap_fail (h ++ [(⟨m_root, [], some v⟩ : trie_node K P)]) o
      h.length).length = h.length + 1 := by
    unfold swap_fail; simp
  have hsc : ∀ j, Heap.node (swap_children (swap_fail
      (h ++ [(⟨m_root, [], some v⟩ : trie_node K P)]) o h.length) o h.length) j =
      if j = h.length then ⟨(h.node o).m_fail, (h.node o).m_children, some v⟩
      else if j = o then ⟨m_root, [], (h.node o).m_payload⟩
      else h.node j := by
    intro j
    unfold swap_children
    simp only [node_set, hsf, List.length_set, hsflen]
    by_cases hjL : j = h.length
    · subst hjL
      simp [hoL]
    · by_cases hjo : j = o
      · subst hjo
        simp [hjL, Ne.symm hjL, Nat.lt_succ_of_lt ho]
      · simp [hjL, Ne.symm hjL, hjo, Ne.symm hjo]
  have hsclen : (swap_children (swap_fail
      (h ++ [(⟨m_root, [], some v⟩ : trie_node K P)]) o h.length) o h.length).length =
      h.length + 1 := by
    unfold swap_children; simp [hsflen]
  have hi2 : i < (swap_children (swap_fail
      (h ++ [(⟨m_root, [], some v⟩ : trie_node K P)]) o h.length) o h.length).length := by
    rw [hsclen]; omega
  refine ⟨by simp [hsclen], ?_, ?_, ?_, ?_⟩
  · rw [node_set, if_pos ⟨rfl, hi2⟩, hsc]
    simp [hiL, Ne.symm hoi]
  · rw [node_set, if_neg (fun hc => hiL hc.1), hsc, if_pos rfl]
  · rw [node_set, if_neg (fun hc => hoi hc.1.symm), hsc, if_neg hoL, if_pos rfl]
  · intro j hji hjL hjo
    rw [node_set, if_neg (fun hc => hji hc.1.symm), hsc, if_neg hjL, if_neg hjo]

end promote

section promote2

variable {K P : Type} [LinearOrder K]

theorem promote_get (h h' : Heap K P) (hw : WF h) (i : Nat) (k : K) (o : Nat) (v : P)
    (hoi : o ≠ i) (hiL : i ≠ h.length) (hoL : o ≠ h.length)
    (hpr : Promote h h' i k o v) (hg : trie_node.get h i k = some o) (j : Nat) (a : K) :
    trie_node.get h' j a =
      if j = h.length then trie_node.get h o a
      else if j = o then none
      else if j = i ∧ a = k then some h.length
      else trie_node.get h j a := by
  have hf : (find (h.node i).m_children k).2 = true := by
    by_contra hn
    rw [Bool.not_eq_true, ← get_none_iff_not_found, hg] at hn
    cases hn
  have hss := set_spec (h.node i).m_children (hw.sorted i) k h.length hf
  by_cases hjL : j = h.length
  · subst hjL
    rw [if_pos rfl, get_eq_child_of, hpr.at_c, get_eq_child_of]
  · rw [if_neg hjL]
    by_cases hjo : j = o
    · subst hjo
      rw [if_pos rfl, get_eq_child_of, hpr.at_o]
      rfl
    · rw [if_neg hjo]
      by_cases hji : j = i
      · subst hji
        rw [get_eq_child_of, hpr.at_i]
        simp only
        apply option_eq_of_iff
        intro x
        rw [child_of_iff_mem _ hss.1, hss.2]
        by_cases hak : a = k
        · subst hak
          simp only [true_and, if_true, Option.some.injEq, ne_eq, not_true_eq_false, and_false,
            or_false]
          constructor
          · intro hx; cases hx; rfl
          · intro hx; rw [hx]
        · simp only [hak, and_false, if_false]
          rw [get_some_iff h hw]
          constructor
          · rintro (hx | hx)
            · cases hx; exact absurd rfl hak
            · exact hx.1
          · intro hx
            exact Or.inr ⟨hx, hak⟩
      · simp only [hji, false_and, if_false]
        rw [get_eq_child_of, hpr.others j hji hjL hjo, get_eq_child_of]

theorem walk_promote (h h' : Heap K P) (hw : WF h) (i : Nat) (k : K) (o : Nat) (v : P)
    (hpr : Promote h h' i k o v) (hg : trie_node.get h i k = some o)
    (p0 : List K) (hp0 : walk h p0 = some i) (p : List K) :
    walk h' p = (walk h p).map (promote_map o h.length) := by
  have hiL : i ≠ h.length := Nat.ne_of_lt (walk_valid h hw p0 i hp0)
  have hov := get_valid h hw i k o hg
  have hoL : o ≠ h.length := Nat.ne_of_lt hov.2
  have hpo : walk h (p0 ++ [k]) = some o := (walk_snoc_some h p0 k o).mpr ⟨i, hp0, hg⟩
  have hoi : o ≠ i := by
    intro hc
    rw [hc] at hpo
    have := hw.walk_inj _ _ _ hpo hp0
    simp at this
  have hget := promote_get h h' hw i k o v hoi hiL hoL hpr hg
  induction p using List.reverseRecOn with
  | nil =>
    simp only [walk_nil, Option.map_some', promote_map]
    rw [if_neg (Ne.symm hov.1)]
  | append_singleton q a ih =>
    rw [walk_snoc, walk_snoc, ih]
    cases hq : walk h q with
    | none => rfl
    | some y =>
      simp only [Option.map_some', Option.some_bind]
      have hyL : y ≠ h.length := Nat.ne_of_lt (walk_valid h hw q y hq)
      by_cases hyo : y = o
      · subst hyo
        simp only [promote_map, if_true]
        rw [hget, if_pos rfl]
        cases hz : trie_node.get h y a with
        | none => rfl
        | some z =>
          simp only [Option.map_some']
          have hqz : walk h (q ++ [a]) = some z := (walk_snoc_some h q a z).mpr ⟨y, hq, hz⟩
          have hzo : z ≠ y := by
            intro hc
            rw [hc] at hqz
            have := hw.walk_inj _ _ _ hqz hq
            simp at this
          simp [promote_map, hzo]
      · have : promote_map o h.length y = y := by simp [promote_map, hyo]
        rw [this, hget, if_neg hyL, if_neg hyo]
        by_cases hcase : y = i ∧ a = k
        · rw [if_pos hcase, hcase.1, hcase.2, hg]
          simp [promote_map]
        · rw [if_neg hcase]
          cases hz : trie_node.get h y a with
          | none => rfl
          | some z =>
            simp only [Option.map_some', promote_map]
            have hqz : walk h (q ++ [a]) = some z := (walk_snoc_some h q a z).mpr ⟨y, hq, hz⟩
            have hzo : z ≠ o := by
              intro hc
              rw [hc] at hqz
              have := hw.walk_inj _ _ _ hqz hpo
              obtain ⟨h1, h2⟩ := List.append_inj' this rfl
              simp only [List.cons.injEq, and_true] at h2
              apply hcase
              refine ⟨?_, h2⟩
              rw [h1, hp0] at hq
              cases hq; rfl
            rw [if_neg hzo]

theorem promote_wf (h h' : Heap K P) (hw : WF h) (i : Nat) (k : K) (o : Nat) (v : P)
    (hpr : Promote h h' i k o v) (hg : trie_node.get h i k = some o)
    (p0 : List K) (hp0 : walk h p0 = some i) : WF h' := by
  have hiL : i ≠ h.length := Nat.ne_of_lt (walk_valid h hw p0 i hp0)
  have hov := get_valid h hw i k o hg
  have hoL : o ≠ h.length := Nat.ne_of_lt hov.2
  have hf : (find (h.node i).m_children k).2 = true := by
    by_contra hn
    rw [Bool.not_eq_true, ← get_none_iff_not_found, hg] at hn
    cases hn
  have hss := set_spec (h.node i).m_children (hw.sorted i) k h.length hf
  have hwalk := walk_promote h h' hw i k o v hpr hg p0 hp0
  refine ⟨by rw [hpr.len]; omega, ?_, ?_, ?_, ?_⟩
  · intro j
    by_cases hjL : j = h.length
    · subst hjL; rw [hpr.at_c]; exact hw.sorted o
    · by_cases hjo : j = o
      · subst hjo; rw [hpr.at_o]; simp [sorted_keys]
      · by_cases hji : j = i
        · subst hji; rw [hpr.at_i]; exact hss.1
        · rw [hpr.others j hji hjL hjo]; exact hw.sorted j
  · intro j s hs
    rw [hpr.len]
    by_cases hjL : j = h.length
    · subst hjL
      rw [hpr.at_c] at hs
      have := hw.child_valid o s hs
      exact ⟨this.1, by omega⟩
    · by_cases hjo : j = o
      · subst hjo; rw [hpr.at_o] at hs; cases hs
      · by_cases hji : j = i
        · subst hji
          rw [hpr.at_i] at hs
          rcases (hss.2 s).mp hs with h1 | h1
          · rw [h1]; exact ⟨Nat.ne_of_gt hw.pos, by simp⟩
          · have := hw.child_valid j s h1.1
            exact ⟨this.1, by omega⟩
        · rw [hpr.others j hji hjL hjo] at hs
          have := hw.child_valid j s hs
          exact ⟨this.1, by omega⟩
  · intro p q n hp hq
    rw [hwalk] at hp hq
    cases hp' : walk h p with
    | none => rw [hp'] at hp; cases hp
    | some y =>
      cases hq' : walk h q with
      | none => rw [hq'] at hq; cases hq
      | some y' =>
        rw [hp'] at hp; rw [hq'] at hq
        simp only [Option.map_some', Option.some.injEq, promote_map] at hp hq
        have hy := walk_valid h hw p y hp'
        have hy' := walk_valid h hw q y' hq'
        have : y = y' := by
          split_ifs at hp hq with h1 h2 h2
          · rw [h1, h2]
          · omega
          · omega
          · omega
        rw [this] at hp'
        exact hw.walk_inj p q y' hp' hq'
  · have h0L : m_root ≠ h.length := Nat.ne_of_lt hw.pos
    have h0o : m_root ≠ o := Ne.symm hov.1
    by_cases h0 : m_root = i
    · rw [h0, hpr.at_i]
      simp only
      rw [← h0]; exact hw.root_payload
    · rw [hpr.others m_root h0 h0L h0o]
      exact hw.root_payload

end promote2

section descend

variable {K P : Type} [LinearOrder K]

theorem walk_prefix_some (h : Heap K P) (p q : List K) (x : Nat)
    (hx : walk h (p ++ q) = some x) : ∃ y, walk h p = some y := by
  unfold walk at hx ⊢
  rw [walk_from_append] at hx
  cases hp : walk_from h m_root p with
  | none => rw [hp] at hx; cases hx
  | some y => exact ⟨y, rfl⟩

theorem walk_of_prefix (h : Heap K P) (p w : List K) (x : Nat) (hp : p <+: w)
    (hx : walk h w = some x) : ∃ y, walk h p = some y := by
  obtain ⟨q, rfl⟩ := hp
  exact walk_prefix_some h p q x hx

theorem descend_existing (h : Heap K P) (s : Nat) (ks : List K) (x : Nat)
    (hx : walk_from h s ks = some x) : ac_trie.add_descend h s ks = (h, x) := by
  induction ks generalizing s with
  | nil =>
    simp only [walk_from, Option.some.injEq] at hx
    simp [ac_trie.add_descend, hx]
  | cons a rest ih =>
    simp only [walk_from] at hx
    cases hg : trie_node.get h s a with
    | none => rw [hg] at hx; cases hx
    | some c =>
      rw [hg] at hx
      simp only [Option.some_bind] at hx
      simp only [ac_trie.add_descend, add_found h s a m_root c hg]
      exact ih c hx

theorem descend_spec (ks : List K) : ∀ (h : Heap K P) (s : Nat) (p0 : List K), WF h →
    walk h p0 = some s →
    WF (ac_trie.add_descend h s ks).1 ∧
    walk (ac_trie.add_descend h s ks).1 (p0 ++ ks) = some (ac_trie.add_descend h s ks).2 ∧
    h.length ≤ (ac_trie.add_descend h s ks).1.length ∧
    (∀ p x, walk h p = some x → walk (ac_trie.add_descend h s ks).1 p = some x) ∧
    (∀ p x, walk (ac_trie.add_descend h s ks).1 p = some x →
      walk h p = some x ∨ (h.length ≤ x ∧ p <+: p0 ++ ks)) ∧
    (∀ j, ((ac_trie.add_descend h s ks).1.node j).m_payload = (h.node j).m_payload ∧
      ((ac_trie.add_descend h s ks).1.node j).m_fail = (h.node j).m_fail) := by
  induction ks with
  | nil =>
    intro h s p0 hw hs
    simp only [ac_trie.add_descend, List.append_nil]
    exact ⟨hw, hs, le_refl _, fun _ _ hp => hp, fun _ _ hp => Or.inl hp, by simp⟩
  | cons a rest ih =>
    intro h s p0 hw hs
    have hsv := walk_valid h hw p0 s hs
    simp only [ac_trie.add_descend]
    have happ : p0 ++ a :: rest = (p0 ++ [a]) ++ rest := by simp
    cases hg : trie_node.get h s a with
    | some c =>
      rw [add_found h s a m_root c hg]
      simp only
      have hc : walk h (p0 ++ [a]) = some c := (walk_snoc_some h p0 a c).mpr ⟨s, hs, hg⟩
      have := ih h c (p0 ++ [a]) hw hc
      rw [happ]
      exact this
    | none =>
      have hfe := add_new_fresh_edge h s hsv a m_root hg
      have hsnd := add_new_snd h s a m_root hg
      have hw1 := fresh_edge_wf h _ hw s hsv a _ rfl hfe hg
      have hg1 := fresh_edge_get h _ hw s hsv a _ rfl hfe hg
      have hwalk := walk_fresh_edge h _ s h.length a hg1 hg (Nat.ne_of_gt hsv)
        (fun b => get_of_length_le h _ (le_refl _) b)
      have hc : walk (trie_node.add h s a m_root).1 (p0 ++ [a]) =
          some (trie_node.add h s a m_root).2 := by
        rw [hsnd, hwalk]
        exact Or.inr ⟨rfl, p0, rfl, hs⟩
      obtain ⟨i1, i2, i3, i4, i5, i6⟩ := ih _ _ (p0 ++ [a]) hw1 hc
      rw [happ]
      refine ⟨i1, i2, ?_, ?_, ?_, ?_⟩
      · have := hfe.len; omega
      · intro p x hp
        exact i4 p x ((hwalk p x).mpr (Or.inl hp))
      · intro p x hp
        rcases i5 p x hp with h1 | ⟨h1, h2⟩
        · rcases (hwalk p x).mp h1 with h3 | ⟨h3, q, hq, hqs⟩
          · exact Or.inl h3
          · right
            refine ⟨by omega, ?_⟩
            rw [hq, hw.walk_inj q p0 s hqs hs]
            exact List.prefix_append _ _
        · right
          have := hfe.len
          exact ⟨by omega, h2⟩
      · intro j
        obtain ⟨j1, j2⟩ := i6 j
        rw [j1, j2]
        by_cases hjs : j = s
        · subst hjs
          rw [hfe.at_i]
          exact ⟨rfl, rfl⟩
        · by_cases hjL : j = h.length
          · subst hjL
            rw [hfe.at_c, node_of_length_le h _ (le_refl _)]
            exact ⟨rfl, rfl⟩
          · rw [hfe.others j hjs hjL]
            exact ⟨rfl, rfl⟩

theorem add_nil (h : Heap K P) (v : P) : ac_trie.add h [] v = h := rfl

theorem add_snoc (h : Heap K P) (ks : List K) (last : K) (v : P) :
    ac_trie.add h (ks ++ [last]) v =
      trie_node.add_shim
        ((ac_trie.add_descend h m_root ks).1 ++ [(⟨m_root, [], some v⟩ : trie_node K P)])
        (ac_trie.add_descend h m_root ks).2
        ⟨last, (ac_trie.add_descend h m_root ks).1.length⟩ := by
  unfold ac_trie.add
  simp

end descend

section addspec

variable {K P : Type} [LinearOrder K]

theorem payload_at_some (h : Heap K P) (p : List K) (x : Nat) (hx : walk h p = some x) :
    payload_at h p = (h.node x).m_payload := by
  simp [payload_at, hx]

theorem payload_at_none (h : Heap K P) (p : List K) (hx : walk h p = none) :
    payload_at h p = none := by
  simp [payload_at, hx]

/-- The last step of `ac_trie::add`: the new Match object is attached below `parent`. -/
theorem add_shim_spec (h : Heap K P) (hw : WF h) (ks : List K) (last : K) (v : P)
    (parent : Nat) (hpar : walk h ks = some parent) :
    WF (trie_node.add_shim (h ++ [(⟨m_root, [], some v⟩ : trie_node K P)]) parent
      ⟨last, h.length⟩) ∧
    (∀ p, (walk (trie_node.add_shim (h ++ [(⟨m_root, [], some v⟩ : trie_node K P)]) parent
      ⟨last, h.length⟩) p).isSome ↔ (walk h p).isSome ∨ p = ks ++ [last]) ∧
    (∀ p, payload_at (trie_node.add_shim (h ++ [(⟨m_root, [], some v⟩ : trie_node K P)]) parent
      ⟨last, h.length⟩) p = if p = ks ++ [last] then some v else payload_at h p) ∧
    (∀ p x, walk (trie_node.add_shim (h ++ [(⟨m_root, [], some v⟩ : trie_node K P)]) parent
      ⟨last, h.length⟩) p = some x →
      fail_of (trie_node.add_shim (h ++ [(⟨m_root, [], some v⟩ : trie_node K P)]) parent
        ⟨last, h.length⟩) x =
      match walk h p with
      | some y => fail_of h y
      | none => m_root) := by
  have hpv := walk_valid h hw ks parent hpar
  cases hg : trie_node.get h parent last with
  | none =>
    have hfe := add_shim_new h parent hpv last v hg
    generalize trie_node.add_shim (h ++ [(⟨m_root, [], some v⟩ : trie_node K P)]) parent
      ⟨last, h.length⟩ = h' at hfe ⊢
    have hw' := fresh_edge_wf h h' hw parent hpv last _ rfl hfe hg
    have hg' := fresh_edge_get h h' hw parent hpv last _ rfl hfe hg
    have hwalk := walk_fresh_edge h h' parent h.length last hg' hg (Nat.ne_of_gt hpv)
      (fun b => get_of_length_le h _ (le_refl _) b)
    have hnew : walk h' (ks ++ [last]) = some h.length :=
      (hwalk _ _).mpr (Or.inr ⟨rfl, ks, rfl, hpar⟩)
    have hold : ∀ p x, walk h p = some x → walk h' p = some x ∧
        (h'.node x).m_payload = (h.node x).m_payload ∧
        (h'.node x).m_fail = (h.node x).m_fail := by
      intro p x hx
      refine ⟨(hwalk p x).mpr (Or.inl hx), ?_⟩
      have hxv := walk_valid h hw p x hx
      by_cases hxp : x = parent
      · subst hxp; rw [hfe.at_i]; exact ⟨rfl, rfl⟩
      · rw [hfe.others x hxp (Nat.ne_of_lt hxv)]; exact ⟨rfl, rfl⟩
    have hnone : ∀ p, p ≠ ks ++ [last] → walk h p = none → walk h' p = none := by
      intro p hp hn
      cases hx : walk h' p with
      | none => rfl
      | some x =>
        rcases (hwalk p x).mp hx with h1 | ⟨_, q, hq, hqs⟩
        · rw [hn] at h1; cases h1
        · rw [hw.walk_inj q ks parent hqs hpar] at hq
          exact absurd hq hp
    refine ⟨hw', ?_, ?_, ?_⟩
    · intro p
      constructor
      · intro hs
        by_cases hp : p = ks ++ [last]
        · exact Or.inr hp
        · left
          cases hx : walk h p with
          | some x => rfl
          | none => rw [hnone p hp hx] at hs; cases hs
      · rintro (hs | hs)
        · obtain ⟨x, hx⟩ := Option.isSome_iff_exists.mp hs
          rw [(hold p x hx).1]; rfl
        · rw [hs, hnew]; rfl
    · intro p
      by_cases hp : p = ks ++ [last]
      · rw [if_pos hp, hp, payload_at_some h' _ _ hnew, hfe.at_c]
      · rw [if_neg hp]
        cases hx : walk h p with
        | some x =>
          rw [payload_at_some h p x hx, payload_at_some h' p x (hold p x hx).1, (hold p x hx).2.1]
        | none =>
          rw [payload_at_none h p hx, payload_at_none h' p (hnone p hp hx)]
    · intro p x hx
      rcases (hwalk p x).mp hx with h1 | ⟨h1, q, hq, hqs⟩
      · rw [h1]
        exact (hold p x h1).2.2
      · cases hy : walk h p with
        | some y =>
          have := (hold p y hy).1
          rw [hx] at this
          cases this
          exact absurd (walk_valid h hw p _ hy) (by rw [h1]; exact lt_irrefl _)
        | none =>
          simp only [fail_of]
          rw [h1, hfe.at_c]
  | some o =>
    have hov := get_valid h hw parent last o hg
    have hpo : walk h (ks ++ [last]) = some o := (walk_snoc_some h ks last o).mpr ⟨parent, hpar, hg⟩
    have hoi : o ≠ parent := by
      intro hc
      rw [hc] at hpo
      have := hw.walk_inj _ _ _ hpo hpar
      simp at this
    have hpr := add_shim_promote h parent hpv last v o hov.2 hoi hg
    generalize trie_node.add_shim (h ++ [(⟨m_root, [], some v⟩ : trie_node K P)]) parent
      ⟨last, h.length⟩ = h' at hpr ⊢
    have hw' := promote_wf h h' hw parent last o v hpr hg ks hpar
    have hwalk := walk_promote h h' hw parent last o v hpr hg ks hpar
    have hnew : walk h' (ks ++ [last]) = some h.length := by
      rw [hwalk, hpo]; simp [promote_map]
    have hold : ∀ p x, p ≠ ks ++ [last] → walk h p = some x → walk h' p = some x ∧
        (h'.node x).m_payload = (h.node x).m_payload ∧
        (h'.node x).m_fail = (h.node x).m_fail := by
      intro p x hp hx
      have hxo : x ≠ o := by
        intro hc
        rw [hc] at hx
        exact hp (hw.walk_inj _ _ _ hx hpo)
      have hxv := walk_valid h hw p x hx
      refine ⟨by rw [hwalk, hx]; simp [promote_map, hxo], ?_⟩
      by_cases hxp : x = parent
      · subst hxp; rw [hpr.at_i]; exact ⟨rfl, rfl⟩
      · rw [hpr.others x hxp (Nat.ne_of_lt hxv) hxo]; exact ⟨rfl, rfl⟩
    refine ⟨hw', ?_, ?_, ?_⟩
    · intro p
      rw [hwalk, Option.isSome_map']
      constructor
      · exact Or.inl
      · rintro (hs | hs)
        · exact hs
        · rw [hs, hpo]; rfl
    · intro p
      by_cases hp : p = ks ++ [last]
      · rw [if_pos hp, hp, payload_at_some h' _ _ hnew, hpr.at_c]
      · rw [if_neg hp]
        cases hx : walk h p with
        | some x =>
          rw [payload_at_some h p x hx, payload_at_some h' p x (hold p x hp hx).1,
            (hold p x hp hx).2.1]
        | none =>
          rw [payload_at_none h p hx, payload_at_none h' p (by rw [hwalk, hx]; rfl)]
    · intro p x hx
      by_cases hp : p = ks ++ [last]
      · rw [hp, hnew] at hx
        cases hx
        rw [hp, hpo]
        simp only [fail_of]
        rw [hpr.at_c]
      · cases hy : walk h p with
        | some y =>
          have := hold p y hp hy
          rw [this.1] at hx
          cases hx
          exact this.2.2
        | none =>
          rw [hwalk, hy] at hx
          cases hx

end addspec

section addall

variable {K P : Type} [LinearOrder K]

theorem add_spec (h : Heap K P) (hw : WF h) (w : List K) (v : P) (hne : w ≠ []) :
    WF (ac_trie.add h w v) ∧
    (∀ p, (walk (ac_trie.add h w v) p).isSome ↔ (walk h p).isSome ∨ p <+: w) ∧
    (∀ p, payload_at (ac_trie.add h w v) p = if p = w then some v else payload_at h p) ∧
    (∀ p x, walk (ac_trie.add h w v) p = some x →
      fail_of (ac_trie.add h w v) x =
      match walk h p with
      | some y => fail_of h y
      | none => m_root) := by
  obtain ⟨ks, last, rfl⟩ : ∃ ks last, w = ks ++ [last] :=
    ⟨w.dropLast, w.getLast hne, (List.dropLast_append_getLast hne).symm⟩
  rw [add_snoc]
  obtain ⟨d1, d2, d3, d4, d5, d6⟩ := descend_spec ks h m_root [] hw (walk_nil h)
  simp only [List.nil_append] at d2 d5
  generalize (ac_trie.add_descend h m_root ks).1 = h1 at d1 d2 d3 d4 d5 d6 ⊢
  generalize (ac_trie.add_descend h m_root ks).2 = parent at d2 ⊢
  obtain ⟨s1, s2, s3, s4⟩ := add_shim_spec h1 d1 ks last v parent d2
  generalize trie_node.add_shim (h1 ++ [(⟨m_root, [], some v⟩ : trie_node K P)]) parent
      ⟨last, h1.length⟩ = h' at s1 s2 s3 s4 ⊢
  have hsome1 : ∀ p, (walk h1 p).isSome ↔ (walk h p).isSome ∨ p <+: ks := by
    intro p
    constructor
    · intro hs
      obtain ⟨x, hx⟩ := Option.isSome_iff_exists.mp hs
      rcases d5 p x hx with h1' | ⟨_, h2⟩
      · left; rw [h1']; rfl
      · exact Or.inr h2
    · rintro (hs | hs)
      · obtain ⟨x, hx⟩ := Option.isSome_iff_exists.mp hs
        rw [d4 p x hx]; rfl
      · obtain ⟨y, hy⟩ := walk_of_prefix h1 p ks parent hs d2
        rw [hy]; rfl
  have hold : ∀ p x, walk h1 p = some x → walk h p = none → h.length ≤ x := by
    intro p x hx hn
    rcases d5 p x hx with h1' | ⟨h1', _⟩
    · rw [hn] at h1'; cases h1'
    · exact h1'
  refine ⟨s1, ?_, ?_, ?_⟩
  · intro p
    rw [s2, hsome1]
    constructor
    · rintro ((hs | hs) | hs)
      · exact Or.inl hs
      · exact Or.inr (hs.trans (List.prefix_append _ _))
      · right; rw [hs]
    · rintro (hs | hs)
      · exact Or.inl (Or.inl hs)
      · rcases List.prefix_concat_iff.mp hs with h1' | h1'
        · exact Or.inr h1'
        · exact Or.inl (Or.inr h1')
  · intro p
    rw [s3]
    by_cases hp : p = ks ++ [last]
    · rw [if_pos hp, if_pos hp]
    · rw [if_neg hp, if_neg hp]
      cases hx : walk h1 p with
      | none =>
        rw [payload_at_none h1 p hx]
        cases hy : walk h p with
        | none => rw [payload_at_none h p hy]
        | some y => rw [d4 p y hy] at hx; cases hx
      | some x =>
        rw [payload_at_some h1 p x hx, (d6 x).1]
        cases hy : walk h p with
        | none =>
          rw [payload_at_none h p hy, node_of_length_le h x (hold p x hx hy)]
        | some y =>
          have e : y = x := by
            have := d4 p y hy
            rw [hx] at this
            exact (Option.some.inj this).symm
          rw [payload_at_some h p y hy, e]
  · intro p x hx
    rw [s4 p x hx]
    cases hx1 : walk h1 p with
    | none =>
      cases hy : walk h p with
      | none => rfl
      | some y => rw [d4 p y hy] at hx1; cases hx1
    | some x1 =>
      simp only [fail_of]
      rw [(d6 x1).2]
      cases hy : walk h p with
      | none =>
        simp only
        rw [node_of_length_le h x1 (hold p x1 hx1 hy)]
      | some y =>
        have e : y = x1 := by
          have := d4 p y hy
          rw [hx1] at this
          exact (Option.some.inj this).symm
        rw [e]

theorem add_all_spec (pats : List (List K × P)) : ∀ (h : Heap K P), WF h →
    WF (ac_trie.add_all h pats) ∧
    (∀ p, (walk (ac_trie.add_all h pats) p).isSome ↔
      (walk h p).isSome ∨ ∃ e ∈ pats, p <+: e.1 ∧ e.1 ≠ []) ∧
    (∀ p, payload_at (ac_trie.add_all h pats) p = pattern_payload pats p (payload_at h p)) ∧
    (AllRoot h → AllRoot (ac_trie.add_all h pats)) := by
  induction pats with
  | nil =>
    intro h hw
    simp only [ac_trie.add_all, pattern_payload]
    refine ⟨hw, ?_, ?_, fun ha => ha⟩ <;> simp
  | cons e rest ih =>
    intro h hw
    obtain ⟨w, v⟩ := e
    simp only [ac_trie.add_all, pattern_payload]
    by_cases hne : w = []
    · subst hne
      rw [add_nil]
      obtain ⟨i1, i2, i3, i4⟩ := ih h hw
      refine ⟨i1, ?_, ?_, i4⟩
      · intro p
        rw [i2]
        simp
      · intro p
        rw [i3]
        simp
    · obtain ⟨a1, a2, a3, a4⟩ := add_spec h hw w v hne
      obtain ⟨i1, i2, i3, i4⟩ := ih (ac_trie.add h w v) a1
      refine ⟨i1, ?_, ?_, ?_⟩
      · intro p
        rw [i2, a2]
        simp only [List.mem_cons, exists_eq_or_imp]
        simp only [hne, ne_eq, not_false_eq_true, and_true]
        tauto
      · intro p
        rw [i3, a3]
        simp only [hne, ne_eq, not_false_eq_true, and_true]
      · intro ha
        apply i4
        intro p x hx
        rw [a4 p x hx]
        cases hy : walk h p with
        | none => rfl
        | some y => exact ha p y hy

theorem new_wf : WF (ac_trie.new : Heap K P) := by
  have hnode : ∀ j, (ac_trie.new : Heap K P).node j = ⟨m_root, [], none⟩ := by
    intro j
    unfold Heap.node ac_trie.new
    cases j with
    | zero => rfl
    | succ n => rfl
  have hget : ∀ j (a : K), trie_node.get (ac_trie.new : Heap K P) j a = none := by
    intro j a
    rw [get_eq_child_of, hnode]
    rfl
  have hwalk : ∀ (p : List K) x, walk (ac_trie.new : Heap K P) p = some x → p = [] := by
    intro p x hp
    induction p using List.reverseRecOn with
    | nil => rfl
    | append_singleton q a _ =>
      obtain ⟨y, _, hy⟩ := (walk_snoc_some _ q a x).mp hp
      rw [hget] at hy
      cases hy
  refine ⟨by simp [ac_trie.new], ?_, ?_, ?_, ?_⟩
  · intro j; rw [hnode]; simp [sorted_keys]
  · intro j s hs; rw [hnode] at hs; cases hs
  · intro p q n hp hq
    rw [hwalk p n hp, hwalk q n hq]
  · rw [hnode]

theorem new_walk (p : List K) :
    (walk (ac_trie.new : Heap K P) p).isSome ↔ p = [] := by
  constructor
  · intro hs
    obtain ⟨x, hx⟩ := Option.isSome_iff_exists.mp hs
    exact new_wf.walk_inj p [] x hx (by
      have hget : ∀ j (a : K), trie_node.get (ac_trie.new : Heap K P) j a = none := by
        intro j a
        rw [get_eq_child_of]
        unfold Heap.node ac_trie.new
        cases j <;> rfl
      induction p using List.reverseRecOn with
      | nil => exact hx
      | append_singleton q a _ =>
        obtain ⟨y, _, hy⟩ := (walk_snoc_some _ q a x).mp hx
        rw [hget] at hy
        cases hy)
  · intro hp
    rw [hp]; rfl

theorem new_payload_at (p : List K) : payload_at (ac_trie.new : Heap K P) p = none := by
  cases hx : walk (ac_trie.new : Heap K P) p with
  | none => exact payload_at_none _ p hx
  | some x =>
    have hp := (new_walk (P := P) p).mp (by rw [hx]; rfl)
    subst hp
    rw [payload_at_some _ _ x hx]
    simp only [walk_nil, Option.some.injEq] at hx
    rw [← hx]
    exact new_wf.root_payload

theorem new_all_root : AllRoot (ac_trie.new : Heap K P) := by
  intro p x hx
  have hp := (new_walk (P := P) p).mp (by rw [hx]; rfl)
  subst hp
  simp only [walk_nil, Option.some.injEq] at hx
  rw [← hx]
  rfl

end addall

section c6

variable {K P : Type} [LinearOrder K]

theorem pattern_payload_spec (pats : List (List K × P)) (p : List K) (v : P) :
    ∀ (acc : Option P), (pats.map Prod.fst).Nodup →
      (pattern_payload pats p acc = some v ↔
        (p ≠ [] ∧ (p, v) ∈ pats) ∨ (acc = some v ∧ (p = [] ∨ p ∉ pats.map Prod.fst))) := by
  induction pats with
  | nil =>
    intro acc _
    simp [pattern_payload]
  | cons e rest ih =>
    intro acc hnd
    obtain ⟨w, u⟩ := e
    simp only [List.map_cons, List.nodup_cons] at hnd
    simp only [pattern_payload]
    rw [ih _ hnd.2]
    have hw : ∀ x, (w, x) ∉ rest := fun x hx => hnd.1 (List.mem_map_of_mem Prod.fst hx)
    by_cases hc : p = w ∧ w ≠ []
    · obtain ⟨hpw, hwne⟩ := hc
      subst hpw
      simp only [hwne, ne_eq, not_false_eq_true, and_self, if_true, Option.some.injEq,
        List.mem_cons, Prod.mk.injEq, true_and, List.map_cons, false_or, hw, or_false,
        hnd.1, not_true_eq_false, false_and, and_false, and_true]
      exact eq_comm
    · rw [if_neg hc]
      by_cases hp : p = []
      · subst hp
        simp
      · have hpw : p ≠ w := fun h => hc ⟨h, h ▸ hp⟩
        simp only [ne_eq, hp, not_false_eq_true, true_and, false_or, List.mem_cons,
          Prod.mk.injEq, hpw, false_and, List.map_cons]

/-- C6: after any sequence of `add` calls with pairwise-distinct patterns on a fresh builder,
the direct edges from the root along `w` end on a Match node with payload `v` if and only if
`w` is a non-empty pattern that was added with payload `v`; and an object is the end of at
most one path, so a Match node marks exactly one added pattern. -/
theorem add_all_match_iff_pattern (pats : List (List K × P))
    (hnd : (pats.map Prod.fst).Nodup) :
    (∀ (w : List K) (v : P),
      (∃ n, walk (ac_trie.add_all ac_trie.new pats) w = some n ∧
        ((ac_trie.add_all ac_trie.new pats).node n).m_payload = some v) ↔
      (w ≠ [] ∧ (w, v) ∈ pats)) ∧
    (∀ (w w' : List K) (n : Nat), walk (ac_trie.add_all ac_trie.new pats) w = some n →
      walk (ac_trie.add_all ac_trie.new pats) w' = some n → w = w') := by
  obtain ⟨hw, _, hpay, _⟩ := add_all_spec pats (ac_trie.new : Heap K P) new_wf
  refine ⟨?_, hw.walk_inj⟩
  intro w v
  have h1 : (∃ n, walk (ac_trie.add_all ac_trie.new pats) w = some n ∧
      ((ac_trie.add_all ac_trie.new pats).node n).m_payload = some v) ↔
      payload_at (ac_trie.add_all ac_trie.new pats) w = some v := by
    unfold payload_at
    cases walk (ac_trie.add_all ac_trie.new pats) w <;> simp
  rw [h1, hpay, new_payload_at, pattern_payload_spec pats w v none hnd]
  simp

theorem add_all_match_iff_pattern_witness :
    (([([1, 2], 7), ([1], 8)] : List (List Nat × Nat)).map Prod.fst).Nodup ∧
    ((∃ n, walk (ac_trie.add_all ac_trie.new [([1, 2], 7), ([1], 8)]) [1] = some n ∧
      ((ac_trie.add_all ac_trie.new [([1, 2], 7), ([1], 8)]).node n).m_payload = some 8) ↔
    (([1] : List Nat) ≠ [] ∧ (([1] : List Nat), 8) ∈ [([1, 2], 7), ([1], 8)])) :=
  ⟨by decide, (add_all_match_iff_pattern [([1, 2], 7), ([1], 8)] (by decide)).1 [1] 8⟩

end c6

section skel

variable {K P : Type} [LinearOrder K]

theorem skel_refl (h : Heap K P) : Skel h h := ⟨rfl, fun _ => ⟨rfl, rfl⟩⟩

theorem skel_trans (h1 h2 h3 : Heap K P) (h12 : Skel h1 h2) (h23 : Skel h2 h3) :
    Skel h1 h3 :=
  ⟨h23.1.trans h12.1, fun j =>
    ⟨(h23.2 j).1.trans (h12.2 j).1, (h23.2 j).2.trans (h12.2 j).2⟩⟩

theorem skel_set_fail (h : Heap K P) (c f : Nat) :
    Skel h (h.set c { h.node c with m_fail := f }) := by
  refine ⟨by simp, fun j => ?_⟩
  rw [node_set]
  split_ifs with hc
  · rw [← hc.1]; exact ⟨rfl, rfl⟩
  · exact ⟨rfl, rfl⟩

theorem visit_skel (m_fail : Nat) (s s' : Heap K P × List (trie_node_shim K))
    (child : trie_node_shim K) (hv : compile_visitor.visit m_fail s child = some s') :
    Skel s.1 s'.1 := by
  unfold compile_visitor.visit at hv
  cases hl : compile_visitor.loop s.1 child.key (s.1.length + 2) m_fail m_root with
  | none => rw [hl] at hv; cases hv
  | some f =>
    rw [hl] at hv
    simp only [Option.some.injEq] at hv
    rw [← hv]
    exact skel_set_fail s.1 child.node f

theorem node_visit_skel (m_fail : Nat) (l : List (trie_node_shim K)) :
    ∀ (s s' : Heap K P × List (trie_node_shim K)),
      trie_node.visit m_fail s l = some s' → Skel s.1 s'.1 := by
  induction l with
  | nil =>
    intro s s' hv
    simp only [trie_node.visit, Option.some.injEq] at hv
    rw [← hv]; exact skel_refl _
  | cons child rest ih =>
    intro s s' hv
    simp only [trie_node.visit] at hv
    cases h1 : compile_visitor.visit m_fail s child with
    | none => rw [h1] at hv; cases hv
    | some s1 =>
      rw [h1] at hv
      exact skel_trans _ _ _ (visit_skel m_fail s s1 child h1) (ih s1 s' hv)

theorem compile_loop_skel (fuel : Nat) :
    ∀ (h h' : Heap K P) (queue : List (trie_node_shim K)),
      ac_trie.compile_loop fuel h queue = some h' → Skel h h' := by
  induction fuel with
  | zero =>
    intro h h' queue hc
    cases queue with
    | nil =>
      simp only [ac_trie.compile_loop, Option.some.injEq] at hc
      rw [← hc]; exact skel_refl _
    | cons a rest => simp [ac_trie.compile_loop] at hc
  | succ n ih =>
    intro h h' queue hc
    cases queue with
    | nil =>
      simp only [ac_trie.compile_loop, Option.some.injEq] at hc
      rw [← hc]; exact skel_refl _
    | cons shim rest =>
      simp only [ac_trie.compile_loop] at hc
      cases hv : trie_node.visit (h.node shim.node).m_fail (h, rest)
          (h.node shim.node).m_children with
      | none => rw [hv] at hc; cases hc
      | some s =>
        rw [hv] at hc
        exact skel_trans _ _ _ (node_visit_skel _ _ _ _ hv) (ih _ _ _ hc)

theorem compile_skel (h h' : Heap K P) (hc : ac_trie.compile h = some h') : Skel h h' :=
  compile_loop_skel _ _ _ _ hc

theorem skel_get (h h' : Heap K P) (hs : Skel h h') (j : Nat) (a : K) :
    trie_node.get h' j a = trie_node.get h j a := by
  rw [get_eq_child_of, get_eq_child_of, (hs.2 j).1]

theorem skel_walk (h h' : Heap K P) (hs : Skel h h') (p : List K) : walk h' p = walk h p :=
  walk_congr h h' (skel_get h h' hs) p

theorem skel_payload_at (h h' : Heap K P) (hs : Skel h h') (p : List K) :
    payload_at h' p = payload_at h p := by
  unfold payload_at
  rw [skel_walk h h' hs]
  cases walk h p with
  | none => rfl
  | some x => simp [(hs.2 x).2]

theorem skel_wf (h h' : Heap K P) (hs : Skel h h') (hw : WF h) : WF h' := by
  refine ⟨by rw [hs.1]; exact hw.pos, ?_, ?_, ?_, ?_⟩
  · intro j; rw [(hs.2 j).1]; exact hw.sorted j
  · intro j s hsm
    rw [(hs.2 j).1] at hsm
    rw [hs.1]
    exact hw.child_valid j s hsm
  · intro p q n hp hq
    rw [skel_walk h h' hs] at hp hq
    exact hw.walk_inj p q n hp hq
  · rw [(hs.2 m_root).2]; exact hw.root_payload

theorem builder_wf (h : Heap K P) (hb : Builder h) : WF h := by
  induction hb with
  | new => exact new_wf
  | add h word value _ ih =>
    by_cases hne : word = []
    · subst hne; rw [add_nil]; exact ih
    · exact (add_spec h ih word value hne).1
  | compile h h' _ hc ih => exact skel_wf h h' (compile_skel h h' hc) ih

/-- C7: promotion preserves longer patterns.  In every builder state where the path of `q`
ends on a Match node with payload `w` and `p` is a non-empty proper prefix of `q`, after
`add(p, v)` the node at `p` is a Match node with payload `v` that has the edge list and the
failure-link of the node that was at `p`, the path of `q` ends on the same object as before,
still with payload `w`, and every object strictly below `p` is unchanged. -/
theorem promotion_keeps_longer_patterns (h : Heap K P) (hb : Builder h) (p q : List K)
    (v w : P) (nq : Nat) (hp : p ≠ []) (hpq : p <+: q) (hne : p ≠ q)
    (hq : walk h q = some nq) (hqw : (h.node nq).m_payload = some w) :
    ∃ np np', walk h p = some np ∧ walk (ac_trie.add h p v) p = some np' ∧
      ((ac_trie.add h p v).node np').m_payload = some v ∧
      ((ac_trie.add h p v).node np').m_children = (h.node np).m_children ∧
      ((ac_trie.add h p v).node np').m_fail = (h.node np).m_fail ∧
      walk (ac_trie.add h p v) q = some nq ∧
      ((ac_trie.add h p v).node nq).m_payload = some w ∧
      (∀ r x, p <+: r → r ≠ p → walk h r = some x →
        walk (ac_trie.add h p v) r = some x ∧ (ac_trie.add h p v).node x = h.node x) := by
  have hw := builder_wf h hb
  obtain ⟨ks, last, rfl⟩ : ∃ ks last, p = ks ++ [last] :=
    ⟨p.dropLast, p.getLast hp, (List.dropLast_append_getLast hp).symm⟩
  obtain ⟨o, ho⟩ := walk_of_prefix h _ q nq hpq hq
  obtain ⟨parent, hpar, hg⟩ := (walk_snoc_some h ks last o).mp ho
  have hpv := walk_valid h hw ks parent hpar
  have hov := get_valid h hw parent last o hg
  have hoi : o ≠ parent := by
    intro hc
    rw [hc] at ho
    have := hw.walk_inj _ _ _ ho hpar
    simp at this
  have hd : ac_trie.add_descend h m_root ks = (h, parent) := descend_existing h m_root ks parent hpar
  have hpr := add_shim_promote h parent hpv last v o hov.2 hoi hg
  rw [add_snoc, hd]
  simp only
  generalize trie_node.add_shim (h ++ [(⟨m_root, [], some v⟩ : trie_node K P)]) parent
      ⟨last, h.length⟩ = h' at hpr ⊢
  have hwalk := walk_promote h h' hw parent last o v hpr hg ks hpar
  have hbelow : ∀ r x, ks ++ [last] <+: r → r ≠ ks ++ [last] → walk h r = some x →
      walk h' r = some x ∧ h'.node x = h.node x := by
    intro r x hpr' hrne hx
    have hxo : x ≠ o := by
      intro hc
      rw [hc] at hx
      exact hrne (hw.walk_inj _ _ _ hx ho)
    have hxp : x ≠ parent := by
      intro hc
      rw [hc] at hx
      have e := hw.walk_inj _ _ _ hx hpar
      rw [e] at hpr'
      have := hpr'.length_le
      simp at this
    have hxv := walk_valid h hw r x hx
    refine ⟨by rw [hwalk, hx]; simp [promote_map, hxo], ?_⟩
    exact hpr.others x hxp (Nat.ne_of_lt hxv) hxo
  refine ⟨o, h.length, ho, ?_, ?_, ?_, ?_, ?_, ?_, hbelow⟩
  · rw [hwalk, ho]; simp [promote_map]
  · rw [hpr.at_c]
  · rw [hpr.at_c]
  · rw [hpr.at_c]
  · exact (hbelow q nq hpq (Ne.symm hne) hq).1
  · rw [(hbelow q nq hpq (Ne.symm hne) hq).2]; exact hqw

theorem promotion_keeps_longer_patterns_witness :
    (([1] : List Nat) ≠ [] ∧ ([1] : List Nat) <+: [1, 2] ∧ ([1] : List Nat) ≠ [1, 2] ∧
      walk (ac_trie.add (ac_trie.new : Heap Nat Nat) [1, 2] 7) [1, 2] = some 2 ∧
      ((ac_trie.add (ac_trie.new : Heap Nat Nat) [1, 2] 7).node 2).m_payload = some 7) ∧
    ∃ np np', walk (ac_trie.add (ac_trie.new : Heap Nat Nat) [1, 2] 7) [1] = some np ∧
      walk (ac_trie.add (ac_trie.add (ac_trie.new : Heap Nat Nat) [1, 2] 7) [1] 8) [1] =
        some np' ∧
      ((ac_trie.add (ac_trie.add (ac_trie.new : Heap Nat Nat) [1, 2] 7) [1] 8).node
        np').m_payload = some 8 ∧
      ((ac_trie.add (ac_trie.add (ac_trie.new : Heap Nat Nat) [1, 2] 7) [1] 8).node
        np').m_children = ((ac_trie.add (ac_trie.new : Heap Nat Nat) [1, 2] 7).node
        np).m_children ∧
      ((ac_trie.add (ac_trie.add (ac_trie.new : Heap Nat Nat) [1, 2] 7) [1] 8).node
        np').m_fail = ((ac_trie.add (ac_trie.new : Heap Nat Nat) [1, 2] 7).node np).m_fail ∧
      walk (ac_trie.add (ac_trie.add (ac_trie.new : Heap Nat Nat) [1, 2] 7) [1] 8) [1, 2] =
        some 2 ∧
      ((ac_trie.add (ac_trie.add (ac_trie.new : Heap Nat Nat) [1, 2] 7) [1] 8).node
        2).m_payload = some 7 ∧
      (∀ r x, [1] <+: r → r ≠ [1] →
        walk (ac_trie.add (ac_trie.new : Heap Nat Nat) [1, 2] 7) r = some x →
        walk (ac_trie.add (ac_trie.add (ac_trie.new : Heap Nat Nat) [1, 2] 7) [1] 8) r =
          some x ∧
        (ac_trie.add (ac_trie.add (ac_trie.new : Heap Nat Nat) [1, 2] 7) [1] 8).node x =
          (ac_trie.add (ac_trie.new : Heap Nat Nat) [1, 2] 7).node x) :=
  ⟨⟨by decide, by decide, by decide, by decide, by decide⟩,
    promotion_keeps_longer_patterns (ac_trie.add (ac_trie.new : Heap Nat Nat) [1, 2] 7)
      (Builder.add _ _ _ Builder.new) [1] [1, 2] 8 7 2 (by decide) (by decide) (by decide)
      (by decide) (by decide)⟩

end skel

section chain

variable {K P : Type} [LinearOrder K]

theorem fail_chain_zero (h : Heap K P) (s : Nat) : fail_chain h s 0 = s := rfl

theorem fail_chain_succ (h : Heap K P) (s n : Nat) :
    fail_chain h s (n + 1) = fail_chain h (fail_of h s) n := by
  simp only [fail_chain, Function.iterate_succ, Function.comp]

theorem fail_chain_succ' (h : Heap K P) (s n : Nat) :
    fail_chain h s (n + 1) = fail_of h (fail_chain h s n) := by
  simp only [fail_chain, Function.iterate_succ_apply']

theorem chain_root_bound (h : Heap K P) (s : Nat) (hex : ∃ m, fail_chain h s m = m_root) :
    ∃ m, fail_chain h s m = m_root ∧ m ≤ h.length + 1 := by
  classical
  refine ⟨Nat.find hex, Nat.find_spec hex, ?_⟩
  apply iterate_chain_bound (fail_of h) h.length (fun x => x = m_root) s (Nat.find hex)
  · intro x hx
    simp [fail_of, node_of_length_le h x hx]
  · intro j hj
    exact Nat.find_min hex hj
  · exact Nat.find_spec hex

theorem chain_path (h : Heap K P) (hsf : SuffixFail h) (hrf : fail_of h m_root = m_root)
    (ps : List K) (s : Nat) (hs : walk h ps = some s) (n : Nat) :
    ∃ q, q.length ≤ ps.length ∧ q <:+ ps ∧ walk h q = some (fail_chain h s n) := by
  induction n with
  | zero => exact ⟨ps, le_refl _, List.suffix_refl _, hs⟩
  | succ n ih =>
    obtain ⟨q, hq1, hq2, hq3⟩ := ih
    rw [fail_chain_succ']
    by_cases hq : q = []
    · subst hq
      simp only [walk_nil, Option.some.injEq] at hq3
      rw [← hq3, hrf]
      exact ⟨[], by simp, List.nil_suffix, walk_nil h⟩
    · obtain ⟨q', h1, h2, h3⟩ := hsf q _ hq hq3
      exact ⟨q', by omega, h2.trans hq2, h3⟩

theorem chain_reaches_root (h : Heap K P) (hsf : SuffixFail h) :
    ∀ (n : Nat) (ps : List K) (s : Nat), ps.length ≤ n → walk h ps = some s →
      ∃ m, fail_chain h s m = m_root := by
  intro n
  induction n with
  | zero =>
    intro ps s hl hs
    have : ps = [] := List.length_eq_zero.mp (Nat.le_zero.mp hl)
    subst this
    simp only [walk_nil, Option.some.injEq] at hs
    exact ⟨0, hs.symm⟩
  | succ n ih =>
    intro ps s hl hs
    by_cases hp : ps = []
    · subst hp
      simp only [walk_nil, Option.some.injEq] at hs
      exact ⟨0, hs.symm⟩
    · obtain ⟨q, h1, _, h3⟩ := hsf ps s hp hs
      obtain ⟨m, hm⟩ := ih q _ (by omega) h3
      exact ⟨m + 1, by rw [fail_chain_succ]; exact hm⟩

theorem chain_avoid (h : Heap K P) (hw : WF h) (hsf : SuffixFail h)
    (hrf : fail_of h m_root = m_root) (ps pc : List K) (s c : Nat)
    (hs : walk h ps = some s) (hc : walk h pc = some c) (hlt : ps.length < pc.length)
    (n : Nat) : fail_chain h s n ≠ c := by
  intro heq
  obtain ⟨q, hq1, _, hq3⟩ := chain_path h hsf hrf ps s hs n
  rw [heq] at hq3
  have := hw.walk_inj q pc c hq3 hc
  rw [this] at hq1
  omega

theorem loop_terminates (h : Heap K P) (k : K) (hrf : fail_of h m_root = m_root) (m : Nat) :
    ∀ (fuel s fl : Nat), fail_chain h s m = m_root → m + 1 ≤ fuel →
      ∃ r, compile_visitor.loop h k fuel s fl = some r ∧
        (r = fl ∨ r = m_root ∨ ∃ j, trie_node.get h (fail_chain h s j) k = some r) := by
  induction m with
  | zero =>
    intro fuel s fl hs hf
    obtain ⟨f, rfl⟩ : ∃ f, fuel = f + 1 := ⟨fuel - 1, by omega⟩
    simp only [fail_chain_zero] at hs
    subst hs
    simp only [compile_visitor.loop]
    by_cases hfl : fl = m_root
    · have h1 : (h.node m_root).m_fail = m_root := hrf
      simp only [hfl, if_true, h1]
      refine ⟨_, rfl, ?_⟩
      unfold trie_node.get_def
      cases hg : trie_node.get h m_root k with
      | none => right; left; rfl
      | some c => right; right; exact ⟨0, hg⟩
    · simp only [hfl, if_false]
      exact ⟨fl, rfl, Or.inl rfl⟩
  | succ m ih =>
    intro fuel s fl hs hf
    obtain ⟨f, rfl⟩ : ∃ f, fuel = f + 1 := ⟨fuel - 1, by omega⟩
    simp only [compile_visitor.loop]
    by_cases hfl : fl = m_root
    · simp only [hfl, if_true]
      have hres : trie_node.get_def h s k m_root = m_root ∨
          trie_node.get h (fail_chain h s 0) k = some (trie_node.get_def h s k m_root) := by
        unfold trie_node.get_def
        cases hg : trie_node.get h s k with
        | none => left; rfl
        | some c => right; exact hg
      by_cases hs1 : (h.node s).m_fail = m_root
      · simp only [hs1, if_true]
        refine ⟨_, rfl, ?_⟩
        rcases hres with h1 | h1
        · right; left; exact h1
        · right; right; exact ⟨0, h1⟩
      · simp only [hs1, if_false]
        rw [fail_chain_succ] at hs
        obtain ⟨r, hr, hcase⟩ := ih f (fail_of h s) (trie_node.get_def h s k m_root) hs (by omega)
        refine ⟨r, hr, ?_⟩
        rcases hcase with h1 | h1 | ⟨j, hj⟩
        · rcases hres with h2 | h2
          · right; left; rw [h1, h2]
          · right; right; exact ⟨0, by rw [h1]; exact h2⟩
        · right; left; exact h1
        · right; right
          exact ⟨j + 1, by rw [fail_chain_succ]; exact hj⟩
    · simp only [hfl, if_false]
      exact ⟨fl, rfl, Or.inl rfl⟩

theorem loop_frame (h h' : Heap K P) (k : K) (c : Nat) (hsk : Skel h h')
    (hfail : ∀ j, j ≠ c → fail_of h' j = fail_of h j) :
    ∀ (fuel s fl : Nat), (∀ n, fail_chain h s n ≠ c) →
      compile_visitor.loop h' k fuel s fl = compile_visitor.loop h k fuel s fl := by
  intro fuel
  induction fuel with
  | zero => intro s fl _; rfl
  | succ f ih =>
    intro s fl hav
    have hs : s ≠ c := hav 0
    have hfs : (h'.node s).m_fail = (h.node s).m_fail := hfail s hs
    have hgd : trie_node.get_def h' s k m_root = trie_node.get_def h s k m_root := by
      unfold trie_node.get_def
      rw [skel_get h h' hsk]
    simp only [compile_visitor.loop, hfs, hgd]
    by_cases hfl : fl = m_root
    · simp only [hfl, if_true]
      by_cases hs1 : (h.node s).m_fail = m_root
      · simp only [hs1, if_true]
      · simp only [hs1, if_false]
        apply ih
        intro n
        have := hav (n + 1)
        rw [fail_chain_succ] at this
        exact this
    · simp only [hfl, if_false]

end chain

section vstep

variable {K P : Type} [LinearOrder K]

theorem heap_set_self (h : Heap K P) (c : Nat) : h.set c (h.node c) = h := by
  apply List.ext_getElem?
  intro j
  rw [List.getElem?_set]
  split_ifs with h1 h2
  · subst h1
    unfold Heap.node
    rw [List.getD_eq_getElem?_getD]
    rw [List.getElem?_eq_getElem h2]
    rfl
  · subst h1
    rw [List.getElem?_eq_none (not_lt.mp h2)]
  · rfl

theorem suffix_snoc (q p : List K) (k : K) (hq : q <:+ p) : q ++ [k] <:+ p ++ [k] := by
  obtain ⟨t, ht⟩ := hq
  exact ⟨t, by rw [← ht, List.append_assoc]⟩

/-- One call of `compile_visitor::visit` for the child `c` along `k` of the object `x`. -/
theorem visit_step (h0 h : Heap K P) (hw0 : WF h0) (hsk : Skel h0 h)
    (hrf : fail_of h m_root = m_root) (hsf : SuffixFail h)
    (px : List K) (x : Nat) (k : K) (c : Nat) (hpx : px ≠ [])
    (hx : walk h0 px = some x) (hc : trie_node.get h0 x k = some c)
    (queue : List (trie_node_shim K)) :
    ∃ h', compile_visitor.visit (fail_of h x) (h, queue) ⟨k, c⟩ = some (h', queue ++ [⟨k, c⟩]) ∧
      Skel h0 h' ∧ fail_of h' m_root = m_root ∧ SuffixFail h' ∧ fail_of h' x = fail_of h x ∧
      (∀ E : List K → K → Prop,
        (∀ p k', E p k' → p ≠ [] ∧ p.length ≤ px.length ∧ ¬ (p = px ∧ k' = k)) →
        StableOn h E → StableOn h' fun p k' => E p k' ∨ (p = px ∧ k' = k)) ∧
      (Stable h0 → h = h0 → h' = h0) := by
  have hw : WF h := skel_wf h0 h hsk hw0
  have hwalk : ∀ p, walk h p = walk h0 p := skel_walk h0 h hsk
  have hget : ∀ j a, trie_node.get h j a = trie_node.get h0 j a := skel_get h0 h hsk
  have hx' : walk h px = some x := by rw [hwalk]; exact hx
  have hc' : trie_node.get h x k = some c := by rw [hget]; exact hc
  have hpc : walk h (px ++ [k]) = some c := (walk_snoc_some h px k c).mpr ⟨x, hx', hc'⟩
  have hcv := get_valid h hw x k c hc'
  obtain ⟨pf, hpf1, hpf2, hpf3⟩ := hsf px x hpx hx'
  obtain ⟨m0, hm0⟩ := chain_reaches_root h hsf pf.length pf _ (le_refl _) hpf3
  obtain ⟨m, hm, hmb⟩ := chain_root_bound h _ ⟨m0, hm0⟩
  obtain ⟨r, hr, hrcase⟩ := loop_terminates h k hrf m (h.length + 2) (fail_of h x) m_root hm
    (by omega)
  have hxc : x ≠ c := by
    intro hxc
    rw [← hxc] at hpc
    have := hw.walk_inj _ _ _ hpc hx'
    simp at this
  have h0c : m_root ≠ c := Ne.symm hcv.1
  have hsk' : Skel h (h.set c { h.node c with m_fail := r }) := skel_set_fail h c r
  have hfo : ∀ j, j ≠ c → fail_of (h.set c { h.node c with m_fail := r }) j = fail_of h j := by
    intro j hj
    simp only [fail_of]
    rw [node_set, if_neg (fun hcj => hj hcj.1.symm)]
  have hfc : fail_of (h.set c { h.node c with m_fail := r }) c = r := by
    simp only [fail_of]
    rw [node_set, if_pos ⟨rfl, hcv.2⟩]
  refine ⟨h.set c { h.node c with m_fail := r }, ?_, skel_trans _ _ _ hsk hsk', ?_, ?_, ?_, ?_, ?_⟩
  · simp only [compile_visitor.visit, hr]
  · rw [hfo _ h0c]; exact hrf
  · intro p y hp hy
    rw [skel_walk h _ hsk'] at hy
    by_cases hyc : y = c
    · subst hyc
      have hpe := hw.walk_inj _ _ _ hy hpc
      subst hpe
      rw [hfc]
      have hroot : ∃ q : List K, q.length < (px ++ [k]).length ∧ q <:+ px ++ [k] ∧
          walk (h.set y { h.node y with m_fail := m_root }) q = some m_root :=
        ⟨[], by simp, List.nil_suffix, rfl⟩
      rcases hrcase with h1 | h1 | ⟨j, hj⟩
      · rw [h1]; exact hroot
      · rw [h1]; exact hroot
      · obtain ⟨qj, hq1, hq2, hq3⟩ := chain_path h hsf hrf pf _ hpf3 j
        refine ⟨qj ++ [k], ?_, suffix_snoc _ _ k (hq2.trans hpf2), ?_⟩
        · simp only [List.length_append, List.length_singleton]
          omega
        · rw [skel_walk h _ hsk']
          exact (walk_snoc_some h qj k r).mpr ⟨_, hq3, hj⟩
    · rw [hfo y hyc]
      obtain ⟨q, hq1, hq2, hq3⟩ := hsf p y hp hy
      exact ⟨q, hq1, hq2, by rw [skel_walk h _ hsk']; exact hq3⟩
  · exact hfo x hxc
  · intro E hE hst p k' n c' hEpk hn hc2
    rw [skel_walk h _ hsk'] at hn
    rw [skel_get h _ hsk'] at hc2
    have hlen : (h.set c { h.node c with m_fail := r }).length = h.length := hsk'.1
    rw [hlen]
    have hpc2 : walk h (p ++ [k']) = some c' := (walk_snoc_some h p k' c').mpr ⟨n, hn, hc2⟩
    have hframe : ∀ (ps : List K) (s : Nat), walk h ps = some s → ps.length ≤ px.length →
        ∀ k2 fuel fl, compile_visitor.loop (h.set c { h.node c with m_fail := r }) k2 fuel s fl =
          compile_visitor.loop h k2 fuel s fl := by
      intro ps s hs hl k2 fuel fl
      apply loop_frame h _ k2 c hsk' hfo
      exact chain_avoid h hw hsf hrf ps (px ++ [k]) s c hs hpc (by simp; omega)
    rcases hEpk with hE1 | ⟨hp1, hk1⟩
    · obtain ⟨e1, e2, e3⟩ := hE p k' hE1
      have hnc : n ≠ c := by
        intro hnc
        rw [hnc] at hn
        have := hw.walk_inj _ _ _ hn hpc
        rw [this] at e2
        simp at e2
      have hcc : c' ≠ c := by
        intro hcc
        rw [hcc] at hpc2
        have := hw.walk_inj _ _ _ hpc2 hpc
        obtain ⟨a1, a2⟩ := List.append_inj' this rfl
        simp only [List.cons.injEq, and_true] at a2
        exact e3 ⟨a1, a2⟩
      rw [hfo n hnc, hfo c' hcc]
      obtain ⟨pn, hpn1, _, hpn3⟩ := hsf p n e1 hn
      rw [hframe pn _ hpn3 (by omega)]
      exact hst p k' n c' hE1 hn hc2
    · subst hp1 hk1
      have hnx : n = x := by rw [hx'] at hn; exact (Option.some.inj hn).symm
      subst hnx
      have hcc : c' = c := by rw [hc'] at hc2; exact (Option.some.inj hc2).symm
      subst hcc
      rw [hfo n hxc, hfc, hframe pf _ hpf3 (by omega)]
      exact hr
  · intro hst hh
    subst hh
    have := hst px k x c hpx hx' hc'
    rw [hr] at this
    have hrc : r = fail_of h c := Option.some.inj this
    rw [hrc]
    exact heap_set_self h c

end vstep

section inner

variable {K P : Type} [LinearOrder K]

theorem stable_on_mono (h : Heap K P) (E E' : List K → K → Prop)
    (hsub : ∀ p k, E' p k → E p k) (hst : StableOn h E) : StableOn h E' :=
  fun p k n c hE hn hc => hst p k n c (hsub p k hE) hn hc

/-- The call `node->visit(compile_visitor(...))` of `ac_trie::compile` on the object `x`. -/
theorem node_visit_inv (h0 : Heap K P) (hw0 : WF h0) (px : List K) (x : Nat) (hpx : px ≠ [])
    (hx : walk h0 px = some x) (f : Nat) :
    ∀ (todo : List (trie_node_shim K)) (h : Heap K P) (queue : List (trie_node_shim K))
      (E : List K → K → Prop),
      (∀ s ∈ todo, trie_node.get h0 x s.key = some s.node) →
      (todo.map trie_node_shim.key).Nodup →
      (∀ p k', E p k' → p ≠ [] ∧ p.length ≤ px.length ∧
        ¬ (p = px ∧ k' ∈ todo.map trie_node_shim.key)) →
      Skel h0 h → fail_of h m_root = m_root → SuffixFail h → fail_of h x = f →
      StableOn h E → (Stable h0 → h = h0) →
      ∃ h', trie_node.visit f (h, queue) todo = some (h', queue ++ todo) ∧
        Skel h0 h' ∧ fail_of h' m_root = m_root ∧ SuffixFail h' ∧
        StableOn h' (fun p k' => E p k' ∨ (p = px ∧ k' ∈ todo.map trie_node_shim.key)) ∧
        (Stable h0 → h' = h0) := by
  intro todo
  induction todo with
  | nil =>
    intro h queue E _ _ _ hsk hrf hsf _ hst hsame
    refine ⟨h, by simp [trie_node.visit], hsk, hrf, hsf, ?_, hsame⟩
    apply stable_on_mono h E _ _ hst
    intro p k hE
    simpa using hE
  | cons s rest ih =>
    intro h queue E hch hnd hE hsk hrf hsf hfx hst hsame
    obtain ⟨k, c⟩ := s
    simp only [List.map_cons, List.nodup_cons] at hnd
    have hc : trie_node.get h0 x k = some c := hch ⟨k, c⟩ (List.mem_cons_self _ _)
    obtain ⟨h1, hv, hsk1, hrf1, hsf1, hfx1, hst1, hsame1⟩ :=
      visit_step h0 h hw0 hsk hrf hsf px x k c hpx hx hc queue
    rw [hfx] at hv hfx1
    have hE1 : ∀ p k', (E p k' ∨ (p = px ∧ k' = k)) → p ≠ [] ∧ p.length ≤ px.length ∧
        ¬ (p = px ∧ k' ∈ rest.map trie_node_shim.key) := by
      intro p k' hcase
      rcases hcase with h1' | ⟨h1', h2'⟩
      · obtain ⟨e1, e2, e3⟩ := hE p k' h1'
        refine ⟨e1, e2, fun hc' => e3 ⟨hc'.1, ?_⟩⟩
        simp only [List.map_cons, List.mem_cons]
        exact Or.inr hc'.2
      · subst h1' h2'
        exact ⟨hpx, le_refl _, fun hc' => hnd.1 hc'.2⟩
    have hstE : StableOn h1 fun p k' => E p k' ∨ (p = px ∧ k' = k) := by
      apply hst1 E _ hst
      intro p k' hEp
      obtain ⟨e1, e2, e3⟩ := hE p k' hEp
      refine ⟨e1, e2, fun hc' => e3 ⟨hc'.1, ?_⟩⟩
      simp only [List.map_cons, List.mem_cons]
      exact Or.inl hc'.2
    obtain ⟨h2, hv2, hsk2, hrf2, hsf2, hst2, hsame2⟩ :=
      ih h1 (queue ++ [⟨k, c⟩]) (fun p k' => E p k' ∨ (p = px ∧ k' = k))
        (fun s hs => hch s (List.mem_cons_of_mem _ hs)) hnd.2 hE1 hsk1 hrf1 hsf1 hfx1 hstE
        (fun hS => hsame1 hS (hsame hS))
    refine ⟨h2, ?_, hsk2, hrf2, hsf2, ?_, hsame2⟩
    · simp only [trie_node.visit, hv, hv2]
      simp
    · apply stable_on_mono h2 _ _ _ hst2
      intro p k' hcase
      simp only [List.map_cons, List.mem_cons] at hcase
      tauto

end inner

section paths

variable {K P : Type} [LinearOrder K]

theorem mem_child_paths (px : List K) (l : List (trie_node_shim K)) (p : List K) :
    p ∈ child_paths px l ↔ ∃ s ∈ l, p = px ++ [s.key] := by
  simp only [child_paths, List.mem_map]
  constructor
  · rintro ⟨s, hs, rfl⟩; exact ⟨s, hs, rfl⟩
  · rintro ⟨s, hs, rfl⟩; exact ⟨s, hs, rfl⟩

theorem child_paths_nodup (px : List K) (l : List (trie_node_shim K)) (hl : sorted_keys l) :
    (child_paths px l).Nodup := by
  have h1 : (l.map trie_node_shim.key).Nodup := by
    unfold sorted_keys List.Sorted at hl
    exact hl.imp (fun hab => ne_of_lt hab)
  have h2 : child_paths px l = (l.map trie_node_shim.key).map fun k => px ++ [k] := by
    simp [child_paths]
  rw [h2]
  apply List.Nodup.map _ h1
  intro a b hab
  simpa using hab

theorem walk_child_iff (h0 : Heap K P) (hw0 : WF h0) (px : List K) (x : Nat)
    (hx : walk h0 px = some x) (a : K) :
    (walk h0 (px ++ [a])).isSome ↔ px ++ [a] ∈ child_paths px (h0.node x).m_children := by
  rw [mem_child_paths]
  constructor
  · intro hs
    obtain ⟨c, hc⟩ := Option.isSome_iff_exists.mp hs
    obtain ⟨y, hy, hya⟩ := (walk_snoc_some h0 px a c).mp hc
    rw [hx] at hy
    cases hy
    exact ⟨⟨a, c⟩, (get_some_iff h0 hw0 x a c).mp hya, rfl⟩
  · rintro ⟨s, hs, he⟩
    obtain ⟨_, h2⟩ := List.append_inj' he rfl
    simp only [List.cons.injEq, and_true] at h2
    have : walk h0 (px ++ [a]) = some s.node := by
      rw [walk_snoc_some]
      refine ⟨x, hx, ?_⟩
      rw [get_some_iff h0 hw0, h2]
      exact hs
    rw [this]; rfl

theorem pinv_init (h0 : Heap K P) (hw0 : WF h0) :
    PInv h0 [] (child_paths [] (h0.node m_root).m_children) := by
  have hmem := mem_child_paths ([] : List K) (h0.node m_root).m_children
  have hlen : ∀ p ∈ child_paths ([] : List K) (h0.node m_root).m_children, p.length = 1 := by
    intro p hp
    obtain ⟨s, _, rfl⟩ := (hmem p).mp hp
    simp
  refine ⟨?_, ?_, ?_, ?_, ?_, ?_, ?_, ?_⟩
  · simpa using child_paths_nodup [] _ (hw0.sorted m_root)
  · intro p hp
    simp only [List.nil_append] at hp
    obtain ⟨s, hs, rfl⟩ := (hmem p).mp hp
    refine ⟨by simp, ?_⟩
    exact (walk_child_iff h0 hw0 [] m_root (walk_nil h0) s.key).mpr
      ((hmem _).mpr ⟨s, hs, rfl⟩)
  · intro p hp h2
    simp only [List.nil_append] at hp
    have := hlen p hp
    omega
  · intro d hd; cases hd
  · rw [List.pairwise_iff_forall_sublist]
    intro a b hab
    have ha := hlen a (hab.subset (by simp))
    have hb := hlen b (hab.subset (by simp))
    omega
  · intro q hq q' hq'
    rw [hlen q hq, hlen q' hq']
    omega
  · intro p hp; cases hp
  · intro a ha
    simp only [List.nil_append]
    exact (walk_child_iff h0 hw0 [] m_root (walk_nil h0) a).mp ha

theorem pinv_step (h0 : Heap K P) (hw0 : WF h0) (Dp Qrest : List (List K)) (px : List K)
    (x : Nat) (hx : walk h0 px = some x) (hpi : PInv h0 Dp (px :: Qrest)) :
    PInv h0 (Dp ++ [px]) (Qrest ++ child_paths px (h0.node x).m_children) := by
  have hmem := mem_child_paths px (h0.node x).m_children
  have hpxQ : px ∈ Dp ++ px :: Qrest := by simp
  have hpx : px ≠ [] := (hpi.valid px hpxQ).1
  have hlen : ∀ p ∈ child_paths px (h0.node x).m_children, p.length = px.length + 1 := by
    intro p hp
    obtain ⟨s, _, rfl⟩ := (hmem p).mp hp
    simp
  have hdrop : ∀ p ∈ child_paths px (h0.node x).m_children, p.dropLast = px := by
    intro p hp
    obtain ⟨s, _, rfl⟩ := (hmem p).mp hp
    simp
  have hassoc : (Dp ++ [px]) ++ (Qrest ++ child_paths px (h0.node x).m_children) =
      (Dp ++ px :: Qrest) ++ child_paths px (h0.node x).m_children := by simp
  have hpxD : px ∉ Dp := by
    intro hd
    have := hpi.nodup
    rw [List.nodup_append] at this
    exact this.2.2 hd (List.mem_cons_self _ _)
  have hnew : ∀ p ∈ child_paths px (h0.node x).m_children, p ∉ Dp ++ px :: Qrest := by
    intro p hp hold
    have h2 : 2 ≤ p.length := by
      rw [hlen p hp]
      have := List.length_pos.mpr hpx
      omega
    have := hpi.parent p hold h2
    rw [hdrop p hp] at this
    exact hpxD this
  have hpxle : ∀ q ∈ Qrest, px.length ≤ q.length := by
    intro q hq
    have := hpi.sorted
    rw [List.pairwise_cons] at this
    exact this.1 q hq
  refine ⟨?_, ?_, ?_, ?_, ?_, ?_, ?_, ?_⟩
  · rw [hassoc, List.nodup_append]
    refine ⟨hpi.nodup, child_paths_nodup px _ (hw0.sorted x), ?_⟩
    intro p hp1 hp2
    exact hnew p hp2 hp1
  · intro p hp
    rw [hassoc, List.mem_append] at hp
    rcases hp with hp | hp
    · exact hpi.valid p hp
    · obtain ⟨s, hs, rfl⟩ := (hmem p).mp hp
      refine ⟨by simp, ?_⟩
      exact (walk_child_iff h0 hw0 px x hx s.key).mpr ((hmem _).mpr ⟨s, hs, rfl⟩)
  · intro p hp h2
    rw [hassoc, List.mem_append] at hp
    rcases hp with hp | hp
    · exact List.mem_append_left _ (hpi.parent p hp h2)
    · rw [hdrop p hp]; simp
  · intro d hd q hq
    rw [List.mem_append] at hd hq
    have hdle : d.length ≤ px.length := by
      rcases hd with hd | hd
      · exact hpi.le_queue d hd px (List.mem_cons_self _ _)
      · simp only [List.mem_singleton] at hd
        rw [hd]
    rcases hq with hq | hq
    · rcases hd with hd | hd
      · exact hpi.le_queue d hd q (List.mem_cons_of_mem _ hq)
      · simp only [List.mem_singleton] at hd
        rw [hd]; exact hpxle q hq
    · rw [hlen q hq]; omega
  · rw [List.pairwise_append]
    refine ⟨(List.pairwise_cons.mp hpi.sorted).2, ?_, ?_⟩
    · rw [List.pairwise_iff_forall_sublist]
      intro a b hab
      have ha := hlen a (hab.subset (by simp))
      have hb := hlen b (hab.subset (by simp))
      omega
    · intro a ha b hb
      rw [hlen b hb]
      exact hpi.near px (List.mem_cons_self _ _) a (List.mem_cons_of_mem _ ha)
  · intro q hq q' hq'
    rw [List.mem_append] at hq hq'
    rcases hq with hq | hq <;> rcases hq' with hq' | hq'
    · exact hpi.near q (List.mem_cons_of_mem _ hq) q' (List.mem_cons_of_mem _ hq')
    · rw [hlen q' hq']
      have := hpxle q hq
      omega
    · rw [hlen q hq]
      have := hpi.near px (List.mem_cons_self _ _) q' (List.mem_cons_of_mem _ hq')
      omega
    · rw [hlen q hq, hlen q' hq']; omega
  · intro p hp a ha
    rw [hassoc, List.mem_append]
    rw [List.mem_append] at hp
    rcases hp with hp | hp
    · exact Or.inl (hpi.children p hp a ha)
    · simp only [List.mem_singleton] at hp
      subst hp
      exact Or.inr ((walk_child_iff h0 hw0 p x hx a).mp ha)
  · intro a ha
    rw [hassoc, List.mem_append]
    exact Or.inl (hpi.first a ha)

theorem pinv_final (h0 : Heap K P) (Dp : List (List K)) (hpi : PInv h0 Dp []) :
    ∀ (n : Nat) (p : List K), p.length ≤ n → p ≠ [] → (walk h0 p).isSome → p ∈ Dp := by
  intro n
  induction n with
  | zero =>
    intro p hl hp _
    exact absurd (List.length_eq_zero.mp (Nat.le_zero.mp hl)) hp
  | succ n ih =>
    intro p hl hp hs
    obtain ⟨q, a, rfl⟩ : ∃ q a, p = q ++ [a] :=
      ⟨p.dropLast, p.getLast hp, (List.dropLast_append_getLast hp).symm⟩
    by_cases hq : q = []
    · subst hq
      simpa using hpi.first a hs
    · obtain ⟨y, hy⟩ := Option.isSome_iff_exists.mp hs
      obtain ⟨z, hz⟩ := walk_prefix_some h0 q [a] y hy
      have hqD := ih q (by simp at hl; omega) hq (by rw [hz]; rfl)
      simpa using hpi.children q hqD a hs

end paths

section outer

variable {K P : Type} [LinearOrder K]

theorem stable_on_weaken (h : Heap K P) (E E' : List K → K → Prop)
    (hsub : ∀ p k n c, E' p k → walk h p = some n → trie_node.get h n k = some c → E p k)
    (hst : StableOn h E) : StableOn h E' :=
  fun p k n c hE hn hc => hst p k n c (hsub p k n c hE hn hc) hn hc

theorem count_paths (h0 : Heap K P) (hw0 : WF h0) (l : List (List K)) (hnd : l.Nodup)
    (hv : ∀ p ∈ l, p ≠ [] ∧ (walk h0 p).isSome) : l.length + 1 ≤ h0.length := by
  have hinj : ∀ p ∈ l, ∀ q ∈ l, (walk h0 p).getD 0 = (walk h0 q).getD 0 → p = q := by
    intro p hp q hq he
    obtain ⟨x, hx⟩ := Option.isSome_iff_exists.mp (hv p hp).2
    obtain ⟨y, hy⟩ := Option.isSome_iff_exists.mp (hv q hq).2
    rw [hx, hy] at he
    simp only [Option.getD_some] at he
    rw [he] at hx
    exact hw0.walk_inj p q y hx hy
  have hnd2 : (l.map fun p => (walk h0 p).getD 0).Nodup := List.Nodup.map_on hinj hnd
  have hsub : (l.map fun p => (walk h0 p).getD 0).toFinset ⊆ Finset.Ico 1 h0.length := by
    intro y hy
    simp only [List.mem_toFinset, List.mem_map] at hy
    obtain ⟨p, hp, rfl⟩ := hy
    obtain ⟨x, hx⟩ := Option.isSome_iff_exists.mp (hv p hp).2
    rw [hx]
    simp only [Option.getD_some, Finset.mem_Ico]
    have h1 := walk_ne_root h0 hw0 p x hx (hv p hp).1
    have h2 := walk_valid h0 hw0 p x hx
    unfold m_root at h1
    omega
  have hcard := Finset.card_le_card hsub
  rw [List.toFinset_card_of_nodup hnd2] at hcard
  simp only [List.length_map, Nat.card_Ico] at hcard
  have := hw0.pos
  omega

theorem forall₂_child_paths (h0 : Heap K P) (px : List K) (l : List (trie_node_shim K))
    (hl : ∀ s ∈ l, walk h0 (px ++ [s.key]) = some s.node) :
    List.Forall₂ (fun p (s : trie_node_shim K) => walk h0 p = some s.node)
      (child_paths px l) l := by
  induction l with
  | nil => exact List.Forall₂.nil
  | cons s rest ih =>
    simp only [child_paths, List.map_cons]
    exact List.Forall₂.cons (hl s (List.mem_cons_self _ _))
      (ih fun t ht => hl t (List.mem_cons_of_mem _ ht))

/-- The `while(!queue.empty())` loop of `ac_trie::compile` ends and keeps the invariants. -/
theorem compile_loop_inv (h0 : Heap K P) (hw0 : WF h0) (fuel : Nat) :
    ∀ (h : Heap K P) (queue : List (trie_node_shim K)) (Dp Qp : List (List K)),
      PInv h0 Dp Qp →
      List.Forall₂ (fun p (s : trie_node_shim K) => walk h0 p = some s.node) Qp queue →
      Skel h0 h → fail_of h m_root = m_root → SuffixFail h →
      StableOn h (fun p _ => p ∈ Dp) → (Stable h0 → h = h0) →
      h0.length ≤ Dp.length + fuel →
      ∃ h', ac_trie.compile_loop fuel h queue = some h' ∧ Skel h0 h' ∧
        fail_of h' m_root = m_root ∧ SuffixFail h' ∧ Stable h' ∧ (Stable h0 → h' = h0) := by
  induction fuel with
  | zero =>
    intro h queue Dp Qp hpi hq hsk hrf hsf hst hsame hfuel
    rcases Qp with _ | ⟨px, Qrest⟩
    · rw [List.forall₂_nil_left_iff] at hq
      subst hq
      refine ⟨h, by simp [ac_trie.compile_loop], hsk, hrf, hsf, ?_, hsame⟩
      intro p k n c hp hn hc
      apply hst p k n c _ hn hc
      rw [skel_walk h0 h hsk] at hn
      exact pinv_final h0 Dp hpi p.length p (le_refl _) hp (by rw [hn]; rfl)
    · have hcount := count_paths h0 hw0 (Dp ++ [px])
        (by
          have := hpi.nodup
          rw [List.nodup_append] at this ⊢
          refine ⟨this.1, by simp, ?_⟩
          intro a ha hb
          simp only [List.mem_singleton] at hb
          subst hb
          exact this.2.2 ha (List.mem_cons_self _ _))
        (by
          intro p hp
          apply hpi.valid p
          simp only [List.mem_append, List.mem_singleton] at hp
          simp only [List.mem_append, List.mem_cons]
          tauto)
      simp only [List.length_append, List.length_singleton] at hcount
      omega
  | succ n ih =>
    intro h queue Dp Qp hpi hq hsk hrf hsf hst hsame hfuel
    rcases Qp with _ | ⟨px, Qrest⟩
    · rw [List.forall₂_nil_left_iff] at hq
      subst hq
      refine ⟨h, by simp [ac_trie.compile_loop], hsk, hrf, hsf, ?_, hsame⟩
      intro p k n c hp hn hc
      apply hst p k n c _ hn hc
      rw [skel_walk h0 h hsk] at hn
      exact pinv_final h0 Dp hpi p.length p (le_refl _) hp (by rw [hn]; rfl)
    · rcases queue with _ | ⟨shim, rest⟩
      · cases hq
      rw [List.forall₂_cons] at hq
      obtain ⟨hps, hrest⟩ := hq
      have hpxv := hpi.valid px (by simp)
      have hpxD : px ∉ Dp := by
        intro hd
        have := hpi.nodup
        rw [List.nodup_append] at this
        exact this.2.2 hd (List.mem_cons_self _ _)
      have hch : (h.node shim.node).m_children = (h0.node shim.node).m_children :=
        (hsk.2 shim.node).1
      obtain ⟨h1, hv, hsk1, hrf1, hsf1, hst1, hsame1⟩ :=
        node_visit_inv h0 hw0 px shim.node hpxv.1 hps (fail_of h shim.node)
          (h0.node shim.node).m_children h rest (fun p _ => p ∈ Dp)
          (fun s hs => (get_some_iff h0 hw0 shim.node s.key s.node).mpr hs)
          (by
            have := hw0.sorted shim.node
            unfold sorted_keys List.Sorted at this
            exact this.imp (fun hab => ne_of_lt hab))
          (fun p _ hp => ⟨(hpi.valid p (List.mem_append_left _ hp)).1,
            hpi.le_queue p hp px (List.mem_cons_self _ _),
            fun hc => hpxD (hc.1 ▸ hp)⟩)
          hsk hrf hsf rfl hst hsame
      have hpi1 := pinv_step h0 hw0 Dp Qrest px shim.node hps hpi
      have hq1 : List.Forall₂ (fun p (s : trie_node_shim K) => walk h0 p = some s.node)
          (Qrest ++ child_paths px (h0.node shim.node).m_children)
          (rest ++ (h0.node shim.node).m_children) := by
        apply List.rel_append hrest
        apply forall₂_child_paths
        intro s hs
        rw [walk_snoc_some]
        exact ⟨shim.node, hps, (get_some_iff h0 hw0 shim.node s.key s.node).mpr hs⟩
      have hst1' : StableOn h1 (fun p _ => p ∈ Dp ++ [px]) := by
        apply stable_on_weaken h1 _ _ _ hst1
        intro p k n c hp hn hc
        simp only [List.mem_append, List.mem_singleton] at hp
        rcases hp with hp | hp
        · exact Or.inl hp
        · right
          refine ⟨hp, ?_⟩
          subst hp
          rw [skel_walk h0 h1 hsk1, hps] at hn
          cases hn
          rw [skel_get h0 h1 hsk1, get_some_iff h0 hw0] at hc
          exact List.mem_map_of_mem trie_node_shim.key hc
      obtain ⟨h2, hc2, hsk2, hrf2, hsf2, hst2, hsame2⟩ :=
        ih h1 _ (Dp ++ [px]) _ hpi1 hq1 hsk1 hrf1 hsf1 hst1' hsame1
          (by simp only [List.length_append, List.length_singleton]; omega)
      refine ⟨h2, ?_, hsk2, hrf2, hsf2, hst2, hsame2⟩
      simp only [ac_trie.compile_loop, hch]
      have hv' : trie_node.visit (h.node shim.node).m_fail (h, rest)
          (h0.node shim.node).m_children = some (h1, rest ++ (h0.node shim.node).m_children) :=
        hv
      rw [hv']
      exact hc2

/-- On an arena whose failure-links lead to shorter suffixes, `compile` ends; it changes no
edge and no payload, the failure-links of the result again lead to shorter suffixes, and the
result is a fixed point of `compile`. -/
theorem compile_spec (h0 : Heap K P) (hw0 : WF h0) (hrf : fail_of h0 m_root = m_root)
    (hsf : SuffixFail h0) :
    ∃ h', ac_trie.compile h0 = some h' ∧ Skel h0 h' ∧ fail_of h' m_root = m_root ∧
      SuffixFail h' ∧ Stable h' ∧ (Stable h0 → h' = h0) := by
  unfold ac_trie.compile
  apply compile_loop_inv h0 hw0 h0.length h0 _ [] _ (pinv_init h0 hw0) _ (skel_refl h0) hrf hsf
  · intro p k n c hp
    cases hp
  · exact fun _ => rfl
  · simp
  · apply forall₂_child_paths
    intro s hs
    rw [walk_snoc_some]
    exact ⟨m_root, walk_nil h0, (get_some_iff h0 hw0 m_root s.key s.node).mpr hs⟩

theorem all_root_suffix_fail (h : Heap K P) (ha : AllRoot h) : SuffixFail h := by
  intro p x hp hx
  refine ⟨[], List.length_pos.mpr hp, List.nil_suffix, ?_⟩
  rw [ha p x hx]
  rfl

/-- The patterns added to a fresh builder and compiled: `compile` ends, and the result has the
paths and payloads of the added patterns. -/
theorem build_spec (pats : List (List K × P)) :
    ∃ h, ac_trie.build pats = some h ∧ WF h ∧ Skel (ac_trie.add_all ac_trie.new pats) h ∧
      fail_of h m_root = m_root ∧ SuffixFail h ∧ Stable h := by
  obtain ⟨a1, _, _, a4⟩ := add_all_spec pats (ac_trie.new : Heap K P) new_wf
  have har := a4 new_all_root
  obtain ⟨h, hc, hsk, hrf, hsf, hst, _⟩ := compile_spec _ a1 (har [] m_root (walk_nil _))
    (all_root_suffix_fail _ har)
  exact ⟨h, hc, skel_wf _ h hsk a1, hsk, hrf, hsf, hst⟩

/-- C5: `compile` is idempotent.  After any sequence of `add` calls on a fresh builder,
`compile` returns an arena on which a second `compile` returns the very same arena: no edge,
payload or failure-link of any object changes. -/
theorem compile_idempotent (pats : List (List K × P)) :
    ∃ h, ac_trie.compile (ac_trie.add_all ac_trie.new pats) = some h ∧
      ac_trie.compile h = some h := by
  obtain ⟨h, hb, hw, _, hrf, hsf, hst⟩ := build_spec pats
  obtain ⟨h2, hc2, _, _, _, _, hsame⟩ := compile_spec h hw hrf hsf
  refine ⟨h, hb, ?_⟩
  rw [hc2, hsame hst]

end outer

section c2

variable {K P : Type} [LinearOrder K]

theorem next_direct (h : Heap K P) (s : Nat) (a : K) (c : Nat)
    (hc : trie_node.get h s a = some c) : Automaton.next h s a = some c :=
  next_of_chain_edge h s a 0 c (fun j hj => absurd hj (Nat.not_lt_zero j)) hc

theorem run_append (h : Heap K P) (s : Nat) (u p : List K) :
    Automaton.run h s (u ++ p) = (Automaton.run h s u).bind fun t => Automaton.run h t p := by
  induction u generalizing s with
  | nil => simp [Automaton.run]
  | cons a rest ih =>
    simp only [List.cons_append, Automaton.run]
    cases Automaton.next h s a with
    | none => rfl
    | some t => exact ih t

theorem run_direct (h : Heap K P) (s : Nat) (p : List K) (n : Nat)
    (hp : walk_from h s p = some n) : Automaton.run h s p = some n := by
  induction p generalizing s with
  | nil => simpa [walk_from, Automaton.run] using hp
  | cons a rest ih =>
    simp only [walk_from] at hp
    cases hg : trie_node.get h s a with
    | none => rw [hg] at hp; cases hp
    | some c =>
      rw [hg] at hp
      simp only [Option.some_bind] at hp
      simp only [Automaton.run, next_direct h s a c hg]
      exact ih c hp

theorem visit_of_payload (h : Heap K P) (s : Nat) (v : P) (hs : s ≠ m_root)
    (hv : (h.node s).m_payload = some v) : Automaton.visit h s = .ok [v] := by
  simp [Automaton.visit, hs, trie_node.empty, trie_node.value, hv, Except.map]

/-- The payload of an added pattern is found at the end of its path after `compile`. -/
theorem build_pattern_node (pats : List (List K × P)) (hnd : (pats.map Prod.fst).Nodup)
    (h : Heap K P) (hsk : Skel (ac_trie.add_all ac_trie.new pats) h) (p : List K) (v : P)
    (hp : p ≠ []) (hmem : (p, v) ∈ pats) :
    ∃ n, walk h p = some n ∧ (h.node n).m_payload = some v := by
  obtain ⟨_, _, hpay, _⟩ := add_all_spec pats (ac_trie.new : Heap K P) new_wf
  have h1 : payload_at h p = some v := by
    rw [skel_payload_at _ h hsk, hpay, new_payload_at, pattern_payload_spec pats p v none hnd]
    exact Or.inl ⟨hp, hmem⟩
  unfold payload_at at h1
  cases hx : walk h p with
  | none => rw [hx] at h1; cases h1
  | some n =>
    rw [hx] at h1
    exact ⟨n, rfl, h1⟩

/-- C2, the claim as stated fails: with "he" and "she" added and compiled, after the text
"she" the pattern "he" ends at the current position, but `visit` hands the callback only
"she", the payload of the current node. -/
theorem visit_she_omits_he :
    ((ac_trie.build [text_pattern "he", text_pattern "she"]).bind fun h =>
      (Automaton.run h m_root "she".toList).map (Automaton.visit h)) = some (.ok ["she"]) ∧
    "he".toList <:+ "she".toList ∧ "he" ∉ ["she"] := by
  refine ⟨by rfl, by decide, by decide⟩

/-- C2 as amended: for pairwise-distinct patterns added to a fresh builder and compiled, an
added non-empty pattern `p` with payload `v`, and a text `u ++ p` whose part `u` leaves the
cursor on the root (as the empty `u` does): after the text, `visit` hands the callback exactly
the payload `v`. -/
theorem visit_reports_pattern_from_root (pats : List (List K × P))
    (hnd : (pats.map Prod.fst).Nodup) (p : List K) (v : P) (hp : p ≠ [])
    (hmem : (p, v) ∈ pats) :
    ∃ h, ac_trie.build pats = some h ∧
      ∀ u, Automaton.run h m_root u = some m_root →
        ∃ s, Automaton.run h m_root (u ++ p) = some s ∧ Automaton.visit h s = .ok [v] := by
  obtain ⟨h, hb, hw, hsk, _, _, _⟩ := build_spec pats
  refine ⟨h, hb, ?_⟩
  intro u hu
  obtain ⟨n, hn, hv⟩ := build_pattern_node pats hnd h hsk p v hp hmem
  refine ⟨n, ?_, visit_of_payload h n v (walk_ne_root h hw p n hn hp) hv⟩
  rw [run_append, hu]
  exact run_direct h m_root p n hn

theorem visit_reports_pattern_from_root_witness :
    ((([([1, 2], 7), ([1], 8)] : List (List Nat × Nat)).map Prod.fst).Nodup ∧
      ([1, 2] : List Nat) ≠ [] ∧ (([1, 2] : List Nat), 7) ∈ [([1, 2], 7), ([1], 8)]) ∧
    ∃ h, ac_trie.build [([1, 2], 7), ([1], 8)] = some h ∧
      ∀ u, Automaton.run h m_root u = some m_root →
        ∃ s, Automaton.run h m_root (u ++ [1, 2]) = some s ∧ Automaton.visit h s = .ok [7] :=
  ⟨⟨by decide, by decide, by decide⟩,
    visit_reports_pattern_from_root [([1, 2], 7), ([1], 8)] (by decide) [1, 2] 7 (by decide)
      (by decide)⟩

end c2

section twin

variable {K P : Type} [LinearOrder K]

theorem same_path_root (h h' : Heap K P) : SamePath h h' m_root m_root :=
  ⟨[], walk_nil h, walk_nil h'⟩

theorem twin_root (h h' : Heap K P) (ht : Twin h h') (s s' : Nat)
    (hs : SamePath h h' s s') : s = m_root ↔ s' = m_root := by
  obtain ⟨p, hp, hp'⟩ := hs
  constructor
  · intro he
    rw [he] at hp
    have := ht.wf.walk_inj p [] m_root hp (walk_nil h)
    subst this
    simpa [walk_nil] using hp'.symm
  · intro he
    rw [he] at hp'
    have := ht.wf'.walk_inj p [] m_root hp' (walk_nil h')
    subst this
    simpa [walk_nil] using hp.symm

theorem twin_get (h h' : Heap K P) (ht : Twin h h') (s s' : Nat)
    (hs : SamePath h h' s s') (a : K) :
    (trie_node.get h s a = none ∧ trie_node.get h' s' a = none) ∨
    ∃ c c', trie_node.get h s a = some c ∧ trie_node.get h' s' a = some c' ∧
      SamePath h h' c c' := by
  obtain ⟨p, hp, hp'⟩ := hs
  have h1 : walk h (p ++ [a]) = trie_node.get h s a := by rw [walk_snoc, hp]; rfl
  have h2 : walk h' (p ++ [a]) = trie_node.get h' s' a := by rw [walk_snoc, hp']; rfl
  have h3 := ht.path (p ++ [a])
  rw [h1, h2] at h3
  cases hg : trie_node.get h s a with
  | none =>
    cases hg' : trie_node.get h' s' a with
    | none => exact Or.inl ⟨rfl, rfl⟩
    | some c' => rw [hg, hg'] at h3; simp at h3
  | some c =>
    cases hg' : trie_node.get h' s' a with
    | none => rw [hg, hg'] at h3; simp at h3
    | some c' =>
      right
      exact ⟨c, c', rfl, rfl, p ++ [a], by rw [h1, hg], by rw [h2, hg']⟩

theorem twin_get_def (h h' : Heap K P) (ht : Twin h h') (s s' : Nat)
    (hs : SamePath h h' s s') (a : K) :
    SamePath h h' (trie_node.get_def h s a m_root) (trie_node.get_def h' s' a m_root) := by
  unfold trie_node.get_def
  rcases twin_get h h' ht s s' hs a with ⟨h1, h2⟩ | ⟨c, c', h1, h2, h3⟩
  · rw [h1, h2]; exact same_path_root h h'
  · rw [h1, h2]; exact h3

theorem twin_loop (h h' : Heap K P) (ht : Twin h h') (k : K) (m : Nat)
    (hfr : ∀ p s s', p.length ≤ m → walk h p = some s → walk h' p = some s' →
      SamePath h h' (fail_of h s) (fail_of h' s')) (fuel : Nat) :
    ∀ (fuel' : Nat) (pst : List K) (st st' fl fl' r r' : Nat), pst.length ≤ m →
      walk h pst = some st → walk h' pst = some st' → SamePath h h' fl fl' →
      compile_visitor.loop h k fuel st fl = some r →
      compile_visitor.loop h' k fuel' st' fl' = some r' → SamePath h h' r r' := by
  induction fuel with
  | zero =>
    intro fuel' pst st st' fl fl' r r' _ _ _ _ hr _
    simp [compile_visitor.loop] at hr
  | succ f ih =>
    intro fuel' pst st st' fl fl' r r' hm hst hst' hfl hr hr'
    cases fuel' with
    | zero => simp [compile_visitor.loop] at hr'
    | succ f' =>
      have hroot := twin_root h h' ht fl fl' hfl
      simp only [compile_visitor.loop] at hr hr'
      by_cases hflr : fl = m_root
      · have hflr' : fl' = m_root := hroot.mp hflr
        simp only [hflr, hflr', if_true] at hr hr'
        have hs1 := hfr pst st st' hm hst hst'
        have hroot1 := twin_root h h' ht _ _ hs1
        have hgd := twin_get_def h h' ht st st' ⟨pst, hst, hst'⟩ k
        by_cases h1 : (h.node st).m_fail = m_root
        · have h1' : (h'.node st').m_fail = m_root := hroot1.mp h1
          simp only [h1, h1', if_true, Option.some.injEq] at hr hr'
          rw [← hr, ← hr']
          exact hgd
        · have h1' : ¬ (h'.node st').m_fail = m_root := fun hc => h1 (hroot1.mpr hc)
          simp only [h1, h1', if_false] at hr hr'
          obtain ⟨ps1, hps1, hps1'⟩ := hs1
          have hpst : pst ≠ [] := by
            intro hc
            subst hc
            simp only [walk_nil, Option.some.injEq] at hst
            rw [← hst] at h1
            exact h1 ht.rf
          obtain ⟨q, hq1, _, hq3⟩ := ht.sf pst st hpst hst
          have hqe := ht.wf.walk_inj q ps1 _ hq3 hps1
          subst hqe
          exact ih f' q _ _ _ _ r r' (by omega) hps1 hps1' hgd hr hr'
      · have hflr' : ¬ fl' = m_root := fun hc => hflr (hroot.mpr hc)
        simp only [hflr, hflr', if_false, Option.some.injEq] at hr hr'
        rw [← hr, ← hr']
        exact hfl

theorem twin_fail_le (h h' : Heap K P) (ht : Twin h h') (n : Nat) :
    ∀ p s s', p.length ≤ n → walk h p = some s → walk h' p = some s' →
      SamePath h h' (fail_of h s) (fail_of h' s') := by
  induction n with
  | zero =>
    intro p s s' hl hs hs'
    have : p = [] := List.length_eq_zero.mp (Nat.le_zero.mp hl)
    subst this
    simp only [walk_nil, Option.some.injEq] at hs hs'
    rw [← hs, ← hs', ht.rf, ht.rf']
    exact same_path_root h h'
  | succ n ih =>
    intro p s s' hl hs hs'
    by_cases hp : p = []
    · subst hp
      simp only [walk_nil, Option.some.injEq] at hs hs'
      rw [← hs, ← hs', ht.rf, ht.rf']
      exact same_path_root h h'
    · obtain ⟨p1, k, rfl⟩ : ∃ p1 k, p = p1 ++ [k] :=
        ⟨p.dropLast, p.getLast hp, (List.dropLast_append_getLast hp).symm⟩
      by_cases hp1 : p1 = []
      · subst hp1
        obtain ⟨q, hq1, _, hq3⟩ := ht.sf _ s hp hs
        obtain ⟨q', hq1', _, hq3'⟩ := ht.sf' _ s' hp hs'
        simp only [List.nil_append, List.length_singleton, Nat.lt_one_iff,
          List.length_eq_zero] at hq1 hq1'
        subst hq1 hq1'
        exact ⟨[], hq3, hq3'⟩
      · obtain ⟨n1, hn1, hg⟩ := (walk_snoc_some h p1 k s).mp hs
        obtain ⟨n1', hn1', hg'⟩ := (walk_snoc_some h' p1 k s').mp hs'
        have hl1 : p1.length ≤ n := by simp at hl; omega
        have hr := ht.st p1 k n1 s hp1 hn1 hg
        have hr' := ht.st' p1 k n1' s' hp1 hn1' hg'
        obtain ⟨pf, hpf, hpf'⟩ := ih p1 n1 n1' hl1 hn1 hn1'
        obtain ⟨q, hq1, _, hq3⟩ := ht.sf p1 n1 hp1 hn1
        have hqe := ht.wf.walk_inj q pf _ hq3 hpf
        subst hqe
        exact twin_loop h h' ht k n ih _ _ q _ _ _ _ _ _ (by omega) hpf hpf'
          (same_path_root h h') hr hr'

theorem twin_fail (h h' : Heap K P) (ht : Twin h h') (s s' : Nat)
    (hs : SamePath h h' s s') : SamePath h h' (fail_of h s) (fail_of h' s') := by
  obtain ⟨p, hp, hp'⟩ := hs
  exact twin_fail_le h h' ht p.length p s s' (le_refl _) hp hp'

theorem twin_chain (h h' : Heap K P) (ht : Twin h h') (s s' : Nat)
    (hs : SamePath h h' s s') (j : Nat) :
    SamePath h h' (fail_chain h s j) (fail_chain h' s' j) := by
  induction j with
  | zero => exact hs
  | succ j ih =>
    rw [fail_chain_succ', fail_chain_succ']
    exact twin_fail h h' ht _ _ ih

theorem twin_payload (h h' : Heap K P) (ht : Twin h h') (s s' : Nat)
    (hs : SamePath h h' s s') : (h.node s).m_payload = (h'.node s').m_payload := by
  obtain ⟨p, hp, hp'⟩ := hs
  have := ht.pay p
  rw [payload_at_some h p s hp, payload_at_some h' p s' hp'] at this
  exact this

end twin

section twin2

variable {K P : Type} [LinearOrder K]

theorem same_path_reaches_root (h h' : Heap K P) (ht : Twin h h') (s s' : Nat)
    (hs : SamePath h h' s s') : ∃ m, fail_chain h s m = m_root := by
  obtain ⟨p, hp, _⟩ := hs
  exact chain_reaches_root h ht.sf p.length p s (le_refl _) hp

theorem twin_next (h h' : Heap K P) (ht : Twin h h') (s s' : Nat)
    (hs : SamePath h h' s s') (a : K) :
    ∃ t t', Automaton.next h s a = some t ∧ Automaton.next h' s' a = some t' ∧
      SamePath h h' t t' := by
  classical
  obtain ⟨m, hm⟩ := same_path_reaches_root h h' ht s s' hs
  have hex : ∃ j, trie_node.get h (fail_chain h s j) a ≠ none ∨ fail_chain h s j = m_root :=
    ⟨m, Or.inr hm⟩
  have hmin : ∀ j < Nat.find hex,
      trie_node.get h (fail_chain h s j) a = none ∧ fail_chain h s j ≠ m_root := by
    intro j hj
    have := Nat.find_min hex hj
    push_neg at this
    exact this
  have hskip' : ∀ j < Nat.find hex,
      trie_node.get h' (fail_chain h' s' j) a = none ∧ fail_chain h' s' j ≠ m_root := by
    intro j hj
    obtain ⟨h1, h2⟩ := hmin j hj
    have hc := twin_chain h h' ht s s' hs j
    refine ⟨?_, fun hr => h2 ((twin_root h h' ht _ _ hc).mpr hr)⟩
    rcases twin_get h h' ht _ _ hc a with ⟨_, h4⟩ | ⟨c, c', h3, _, _⟩
    · exact h4
    · rw [h1] at h3; cases h3
  have hc := twin_chain h h' ht s s' hs (Nat.find hex)
  rcases twin_get h h' ht _ _ hc a with ⟨h3, h4⟩ | ⟨c, c', h3, h4, h5⟩
  · have hr : fail_chain h s (Nat.find hex) = m_root := by
      rcases Nat.find_spec hex with h6 | h6
      · exact absurd h3 h6
      · exact h6
    have hr' := (twin_root h h' ht _ _ hc).mp hr
    exact ⟨m_root, m_root, next_of_chain_root h s a _ hmin h3 hr,
      next_of_chain_root h' s' a _ hskip' h4 hr', same_path_root h h'⟩
  · exact ⟨c, c', next_of_chain_edge h s a _ c hmin h3,
      next_of_chain_edge h' s' a _ c' hskip' h4, h5⟩

theorem twin_run (h h' : Heap K P) (ht : Twin h h') (text : List K) :
    ∀ (s s' : Nat), SamePath h h' s s' →
      ∃ t t', Automaton.run h s text = some t ∧ Automaton.run h' s' text = some t' ∧
        SamePath h h' t t' := by
  induction text with
  | nil =>
    intro s s' hs
    exact ⟨s, s', rfl, rfl, hs⟩
  | cons a rest ih =>
    intro s s' hs
    obtain ⟨t, t', h1, h2, h3⟩ := twin_next h h' ht s s' hs a
    obtain ⟨u, u', h4, h5, h6⟩ := ih t t' h3
    exact ⟨u, u', by simp only [Automaton.run, h1, h4], by simp only [Automaton.run, h2, h5],
      h6⟩

theorem twin_empty (h h' : Heap K P) (ht : Twin h h') (s s' : Nat)
    (hs : SamePath h h' s s') : Automaton.empty h s = Automaton.empty h' s' := by
  simp only [Automaton.empty, trie_node.empty, twin_payload h h' ht s s' hs]

theorem twin_value (h h' : Heap K P) (ht : Twin h h') (s s' : Nat)
    (hs : SamePath h h' s s') : trie_node.value h s = trie_node.value h' s' := by
  simp only [trie_node.value, twin_payload h h' ht s s' hs]

theorem twin_visit (h h' : Heap K P) (ht : Twin h h') (s s' : Nat)
    (hs : SamePath h h' s s') : Automaton.visit h s = Automaton.visit h' s' := by
  have h1 := twin_root h h' ht s s' hs
  have h2 : trie_node.empty h s = trie_node.empty h' s' := twin_empty h h' ht s s' hs
  simp only [Automaton.visit, h2, twin_value h h' ht s s' hs]
  by_cases hr : s = m_root
  · simp [hr, h1.mp hr]
  · have hr' : ¬ s' = m_root := fun hc => hr (h1.mpr hc)
    simp [hr, hr']

theorem build_twin (pats pats' : List (List K × P)) (hnd : (pats.map Prod.fst).Nodup)
    (hperm : pats.Perm pats') (h h' : Heap K P)
    (hw : WF h) (hsk : Skel (ac_trie.add_all ac_trie.new pats) h)
    (hrf : fail_of h m_root = m_root) (hsf : SuffixFail h) (hst : Stable h)
    (hw' : WF h') (hsk' : Skel (ac_trie.add_all ac_trie.new pats') h')
    (hrf' : fail_of h' m_root = m_root) (hsf' : SuffixFail h') (hst' : Stable h') :
    Twin h h' := by
  obtain ⟨_, a2, a3, _⟩ := add_all_spec pats (ac_trie.new : Heap K P) new_wf
  obtain ⟨_, b2, b3, _⟩ := add_all_spec pats' (ac_trie.new : Heap K P) new_wf
  have hnd' : (pats'.map Prod.fst).Nodup := (hperm.map Prod.fst).nodup_iff.mp hnd
  refine ⟨hw, hw', hrf, hrf', hsf, hsf', hst, hst', ?_, ?_⟩
  · intro p
    rw [skel_walk _ h hsk, skel_walk _ h' hsk', a2, b2]
    constructor
    · rintro (h1 | ⟨e, he, h1⟩)
      · exact Or.inl h1
      · exact Or.inr ⟨e, hperm.mem_iff.mp he, h1⟩
    · rintro (h1 | ⟨e, he, h1⟩)
      · exact Or.inl h1
      · exact Or.inr ⟨e, hperm.mem_iff.mpr he, h1⟩
  · intro p
    rw [skel_payload_at _ h hsk, skel_payload_at _ h' hsk', a3, b3, new_payload_at]
    apply option_eq_of_iff
    intro v
    rw [pattern_payload_spec pats p v none hnd, pattern_payload_spec pats' p v none hnd']
    simp only [hperm.mem_iff, reduceCtorEq, false_and, or_false]

/-- C4: insertion order independence.  For pairwise-distinct patterns and any permutation of
them, the two compiled builders give, for every input text fed to a fresh cursor, current
nodes on the same path, the same `empty()` result and the same payloads from `visit()`; and
`visit_all()` comes to the same in both, since as the method is in the source its call does
not compile and hands no payload in either builder. -/
theorem insertion_order_independent (pats pats' : List (List K × P))
    (hnd : (pats.map Prod.fst).Nodup) (hperm : pats.Perm pats') :
    ∃ h h', ac_trie.build pats = some h ∧ ac_trie.build pats' = some h' ∧
      ∀ text, ∃ s s', Automaton.run h m_root text = some s ∧
        Automaton.run h' m_root text = some s' ∧
        SamePath h h' s s' ∧
        Automaton.empty h s = Automaton.empty h' s' ∧
        Automaton.visit h s = Automaton.visit h' s' ∧
        Automaton.visit_all h s = Automaton.visit_all h' s' := by
  obtain ⟨h, hb, hw, hsk, hrf, hsf, hst⟩ := build_spec pats
  obtain ⟨h', hb', hw', hsk', hrf', hsf', hst'⟩ := build_spec pats'
  have ht := build_twin pats pats' hnd hperm h h' hw hsk hrf hsf hst hw' hsk' hrf' hsf' hst'
  refine ⟨h, h', hb, hb', ?_⟩
  intro text
  obtain ⟨s, s', h1, h2, h3⟩ := twin_run h h' ht text m_root m_root (same_path_root h h')
  exact ⟨s, s', h1, h2, h3, twin_empty h h' ht s s' h3, twin_visit h h' ht s s' h3, rfl⟩

theorem insertion_order_independent_witness :
    ((([([1, 2], 7), ([3, 1, 2], 8)] : List (List Nat × Nat)).map Prod.fst).Nodup ∧
      ([([1, 2], 7), ([3, 1, 2], 8)] : List (List Nat × Nat)).Perm
        [([3, 1, 2], 8), ([1, 2], 7)]) ∧
    ∃ h h', ac_trie.build [([1, 2], 7), ([3, 1, 2], 8)] = some h ∧
      ac_trie.build [([3, 1, 2], 8), ([1, 2], 7)] = some h' ∧
      ∀ text, ∃ s s', Automaton.run h m_root text = some s ∧
        Automaton.run h' m_root text = some s' ∧
        SamePath h h' s s' ∧
        Automaton.empty h s = Automaton.empty h' s' ∧
        Automaton.visit h s = Automaton.visit h' s' ∧
        Automaton.visit_all h s = Automaton.visit_all h' s' :=
  ⟨⟨by decide, by decide⟩,
    insertion_order_independent [([1, 2], 7), ([3, 1, 2], 8)] [([3, 1, 2], 8), ([1, 2], 7)]
      (by decide) (by decide)⟩

end twin2

section scenarios

variable {K P : Type} [LinearOrder K]

set_option maxRecDepth 100000 in
/-- C13, the code at the failing input: with "he", "she", "his", "hers" added and compiled and
the text "ushers", the call of `visit_all` does not compile as the method is in the source, so
nothing is reported at any position; and with the test of line 410 changed to `node->empty()`,
`visit_all` reports "hers" after the final 's' and never "his", but after the 'e' it hands the
callback "she" twice and not "he". -/
theorem ushers_reports_she_twice :
    (∀ (h : Heap Char String) (s : Nat), Automaton.visit_all h s = .ill_formed) ∧
    (ac_trie.build [text_pattern "he", text_pattern "she", text_pattern "his",
      text_pattern "hers"]).map (fun h => visit_all_repaired_trace h "ushers".toList) =
      some [some (.returns []), some (.returns []), some (.returns []), some (.returns []),
        some (.returns ["she", "she"]), some (.returns []), some (.returns ["hers"])] := by
  exact ⟨fun _ _ => rfl, by rfl⟩

/-- C14, the code at the failing input: with "a" added and then "ab", and with "ab" added and
then "a" (the promotion path), after compile a fresh cursor scanning "ab" stands on the Match
node of "a" after the first token and on the Match node of "ab" after the second (`visit()`
reports "a", then "ab"), but the call of `visit_all` does not compile as the method is in the
source, so it reports neither "a" after the first token nor "ab" after the second. -/
theorem a_then_ab_visit_all_reports_nothing :
    (ac_trie.build [text_pattern "a", text_pattern "ab"]).map
      (fun h => visit_trace h "ab".toList) =
      some [some (.ok [], .ill_formed), some (.ok ["a"], .ill_formed),
        some (.ok ["ab"], .ill_formed)] ∧
    (ac_trie.build [text_pattern "ab", text_pattern "a"]).map
      (fun h => visit_trace h "ab".toList) =
      some [some (.ok [], .ill_formed), some (.ok ["a"], .ill_formed),
        some (.ok ["ab"], .ill_formed)] := by
  exact ⟨by rfl, by rfl⟩

/-- C16: `add` with an empty pattern is a no-op: on every arena it returns the arena unchanged
(every object with its edges, payload and failure-link), and `add` has no error result. -/
theorem add_empty_pattern_noop (h : Heap K P) (value : P) :
    ac_trie.add h [] value = h ∧
    ∀ i, (ac_trie.add h [] value).node i = h.node i := by
  have h1 : ac_trie.add h [] value = h := by
    unfold ac_trie.add
    simp
  exact ⟨h1, fun i => by rw [h1]⟩

end scenarios

section sound

variable {K P : Type} [LinearOrder K]

theorem next_total (h : Heap K P) (s : Nat) (hex : ∃ m, fail_chain h s m = m_root) (a : K) :
    ∃ t, Automaton.next h s a = some t ∧
      (t = m_root ∨ ∃ j, trie_node.get h (fail_chain h s j) a = some t) := by
  classical
  obtain ⟨m, hm⟩ := hex
  have hex2 : ∃ j, trie_node.get h (fail_chain h s j) a ≠ none ∨ fail_chain h s j = m_root :=
    ⟨m, Or.inr hm⟩
  have hmin : ∀ j < Nat.find hex2,
      trie_node.get h (fail_chain h s j) a = none ∧ fail_chain h s j ≠ m_root := by
    intro j hj
    have := Nat.find_min hex2 hj
    push_neg at this
    exact this
  cases hg : trie_node.get h (fail_chain h s (Nat.find hex2)) a with
  | none =>
    have hr : fail_chain h s (Nat.find hex2) = m_root := by
      rcases Nat.find_spec hex2 with h6 | h6
      · exact absurd hg h6
      · exact h6
    exact ⟨m_root, next_of_chain_root h s a _ hmin hg hr, Or.inl rfl⟩
  | some c =>
    exact ⟨c, next_of_chain_edge h s a _ c hmin hg, Or.inr ⟨_, hg⟩⟩

/-- The path of the node that the cursor reaches is a suffix of the tokens consumed. -/
theorem run_sound (h : Heap K P) (hsf : SuffixFail h) (hrf : fail_of h m_root = m_root)
    (text : List K) :
    ∀ (s : Nat) (p0 : List K), walk h p0 = some s →
      ∃ t p, Automaton.run h s text = some t ∧ walk h p = some t ∧ p <:+ p0 ++ text := by
  induction text with
  | nil =>
    intro s p0 hs
    exact ⟨s, p0, rfl, hs, by simp⟩
  | cons a rest ih =>
    intro s p0 hs
    obtain ⟨t1, hn, hcase⟩ :=
      next_total h s (chain_reaches_root h hsf p0.length p0 s (le_refl _) hs) a
    have hp1 : ∃ p1, walk h p1 = some t1 ∧ p1 <:+ p0 ++ [a] := by
      rcases hcase with h1 | ⟨j, hj⟩
      · exact ⟨[], by rw [h1]; rfl, List.nil_suffix⟩
      · obtain ⟨q, _, hq2, hq3⟩ := chain_path h hsf hrf p0 s hs j
        exact ⟨q ++ [a], (walk_snoc_some h q a t1).mpr ⟨_, hq3, hj⟩, suffix_snoc q p0 a hq2⟩
    obtain ⟨p1, hp1w, hp1s⟩ := hp1
    obtain ⟨t, p, hr, hpw, hps⟩ := ih t1 p1 hp1w
    refine ⟨t, p, by simp only [Automaton.run, hn, hr], hpw, ?_⟩
    obtain ⟨u, hu⟩ := hp1s
    have : p0 ++ a :: rest = u ++ (p1 ++ rest) := by
      rw [← List.append_assoc, hu]
      simp
    rw [this]
    exact hps.trans (List.suffix_append _ _)

theorem pattern_payload_mem (pats : List (List K × P)) (p : List K) (v : P) :
    ∀ (acc : Option P), pattern_payload pats p acc = some v →
      acc = some v ∨ (p ≠ [] ∧ (p, v) ∈ pats) := by
  induction pats with
  | nil =>
    intro acc hv
    exact Or.inl hv
  | cons e rest ih =>
    intro acc hv
    obtain ⟨w, u⟩ := e
    simp only [pattern_payload] at hv
    rcases ih _ hv with h1 | ⟨h1, h2⟩
    · split_ifs at h1 with hc
      · right
        simp only [Option.some.injEq] at h1
        refine ⟨hc.1 ▸ hc.2, ?_⟩
        rw [hc.1, h1]
        exact List.mem_cons_self _ _
      · exact Or.inl h1
    · exact Or.inr ⟨h1, List.mem_cons_of_mem _ h2⟩

theorem pattern_payload_is_some (pats : List (List K × P)) (p : List K) (hp : p ≠ []) :
    ∀ (acc : Option P), (acc.isSome ∨ ∃ v, (p, v) ∈ pats) →
      (pattern_payload pats p acc).isSome := by
  induction pats with
  | nil =>
    intro acc hv
    rcases hv with h1 | ⟨v, hv⟩
    · exact h1
    · cases hv
  | cons e rest ih =>
    intro acc hv
    obtain ⟨w, u⟩ := e
    simp only [pattern_payload]
    apply ih
    rcases hv with h1 | ⟨v, hv⟩
    · left
      split_ifs
      · rfl
      · exact h1
    · rcases List.mem_cons.mp hv with h2 | h2
      · left
        simp only [Prod.mk.injEq] at h2
        rw [if_pos ⟨h2.1, h2.1 ▸ hp⟩]
        rfl
      · exact Or.inr ⟨v, h2⟩

/-- On a compiled builder the payload at the end of a path says whether the path is one of
the added non-empty patterns. -/
theorem build_payload_none_iff (pats : List (List K × P)) (h : Heap K P)
    (hsk : Skel (ac_trie.add_all ac_trie.new pats) h) (p : List K) (s : Nat)
    (hs : walk h p = some s) :
    (h.node s).m_payload = none ↔ ¬ (p ≠ [] ∧ ∃ v, (p, v) ∈ pats) := by
  obtain ⟨_, _, hpay, _⟩ := add_all_spec pats (ac_trie.new : Heap K P) new_wf
  have h1 : payload_at h p = pattern_payload pats p none := by
    rw [skel_payload_at _ h hsk, hpay, new_payload_at]
  rw [payload_at_some h p s hs] at h1
  rw [h1]
  constructor
  · intro hn hc
    have := pattern_payload_is_some pats p hc.1 none (Or.inr hc.2)
    rw [hn] at this
    cases this
  · intro hn
    cases hv : pattern_payload pats p none with
    | none => rfl
    | some v =>
      rcases pattern_payload_mem pats p v none hv with h2 | h2
      · cases h2
      · exact absurd ⟨h2.1, v, h2.2⟩ hn

/-- C11: on every compiled builder `empty()` is true on the cursor that `create_automaton`
returns, and it is true after the cursor has consumed any token sequence of which no inserted
(non-empty) pattern is a suffix. -/
theorem empty_fresh_and_without_match (pats : List (List K × P)) :
    ∃ h, ac_trie.build pats = some h ∧
      Automaton.empty h (ac_trie.create_automaton h) = true ∧
      ∀ text, (∀ e ∈ pats, e.1 ≠ [] → ¬ e.1 <:+ text) →
        ∃ s, Automaton.run h (ac_trie.create_automaton h) text = some s ∧
          Automaton.empty h s = true := by
  obtain ⟨h, hb, hw, hsk, hrf, hsf, _⟩ := build_spec pats
  refine ⟨h, hb, ?_, ?_⟩
  · simp only [Automaton.empty, trie_node.empty, ac_trie.create_automaton, hw.root_payload]
    rfl
  · intro text hno
    obtain ⟨s, p, hr, hp, hps⟩ := run_sound h hsf hrf text m_root [] (walk_nil h)
    refine ⟨s, hr, ?_⟩
    simp only [List.nil_append] at hps
    have : (h.node s).m_payload = none := by
      rw [build_payload_none_iff pats h hsk p s hp]
      rintro ⟨hne, v, hv⟩
      exact hno (p, v) hv hne hps
    simp only [Automaton.empty, trie_node.empty, this]
    rfl

theorem empty_fresh_and_without_match_witness :
    (∀ e ∈ ([([1, 2], 7), ([3, 1, 2], 8)] : List (List Nat × Nat)),
      e.1 ≠ [] → ¬ e.1 <:+ [3, 1]) ∧
    ∃ h, ac_trie.build ([([1, 2], 7), ([3, 1, 2], 8)] : List (List Nat × Nat)) = some h ∧
      ∃ s, Automaton.run h (ac_trie.create_automaton h) [3, 1] = some s ∧
        Automaton.empty h s = true :=
  ⟨by decide,
    (empty_fresh_and_without_match [([1, 2], 7), ([3, 1, 2], 8)]).elim
      fun h hh => ⟨h, hh.1, hh.2.2 [3, 1] (by decide)⟩⟩

/-- C12, the claim as stated fails: with "abc" and "b" added and compiled, after the text "ab"
`empty()` is true although the inserted pattern "b" is a suffix of the consumed text. -/
theorem empty_true_while_b_ends :
    ((ac_trie.build [text_pattern "abc", text_pattern "b"]).bind fun h =>
      (Automaton.run h (ac_trie.create_automaton h) "ab".toList).map (Automaton.empty h)) =
      some true ∧
    "b".toList <:+ "ab".toList ∧
    text_pattern "b" ∈ [text_pattern "abc", text_pattern "b"] := by
  refine ⟨by rfl, by decide, by simp⟩

/-- C12 as amended: on every compiled builder and for every text consumed by a fresh cursor,
the path of the current node is a suffix of the text, and `empty()` is true if and only if
the current node carries no payload, that is, if and only if that path is not one of the
inserted non-empty patterns. -/
theorem empty_iff_current_path_not_pattern (pats : List (List K × P)) :
    ∃ h, ac_trie.build pats = some h ∧
      ∀ text, ∃ s p, Automaton.run h (ac_trie.create_automaton h) text = some s ∧
        walk h p = some s ∧ p <:+ text ∧
        (Automaton.empty h s = true ↔ (h.node s).m_payload = none) ∧
        (Automaton.empty h s = true ↔ ¬ (p ≠ [] ∧ ∃ v, (p, v) ∈ pats)) := by
  obtain ⟨h, hb, _, hsk, hrf, hsf, _⟩ := build_spec pats
  refine ⟨h, hb, ?_⟩
  intro text
  obtain ⟨s, p, hr, hp, hps⟩ := run_sound h hsf hrf text m_root [] (walk_nil h)
  simp only [List.nil_append] at hps
  have he : Automaton.empty h s = true ↔ (h.node s).m_payload = none := by
    simp only [Automaton.empty, trie_node.empty, Option.isNone_iff_eq_none]
  exact ⟨s, p, hr, hp, hps, he, he.trans (build_payload_none_iff pats h hsk p s hp)⟩

end sound

section wordc

variable {K P : Type} [LinearOrder K]

/-- A path from the root passes through distinct objects, so it is shorter than the arena. -/
theorem walk_length_lt (h : Heap K P) (hw : WF h) (p : List K) (x : Nat)
    (hx : walk h p = some x) : p.length + 1 ≤ h.length := by
  have hnd : ((List.range p.length).map fun i => p.take (i + 1)).Nodup := by
    apply List.Nodup.map_on _ (List.nodup_range _)
    intro i hi j hj hij
    simp only [List.mem_range] at hi hj
    have := congrArg List.length hij
    simp only [List.length_take] at this
    omega
  have := count_paths h hw _ hnd (by
    intro q hq
    simp only [List.mem_map, List.mem_range] at hq
    obtain ⟨i, hi, rfl⟩ := hq
    refine ⟨?_, ?_⟩
    · intro hc
      have := congrArg List.length hc
      simp only [List.length_take, List.length_nil] at this
      omega
    · obtain ⟨y, hy⟩ := walk_of_prefix h (p.take (i + 1)) p x (List.take_prefix _ _) hx
      rw [hy]; rfl)
  simpa using this

theorem word_loop_false (h : Heap K P) (hw : WF h) (ch : K) (rest : List K) (hr : rest ≠ [])
    (fuel : Nat) :
    ∀ (node : Nat) (p : List K), walk h p = some node → h.length ≤ p.length + fuel →
      Automaton.word_loop h ch rest fuel node = some none := by
  induction fuel with
  | zero =>
    intro node p hp hl
    have := walk_length_lt h hw p node hp
    omega
  | succ f ih =>
    intro node p hp hl
    simp only [Automaton.word_loop, ne_eq, hr, not_false_eq_true, if_true]
    cases hg : trie_node.get h node ch with
    | none => rfl
    | some child =>
      simp only
      apply ih child (p ++ [ch]) ((walk_snoc_some h p ch child).mpr ⟨node, hp, hg⟩)
      simp only [List.length_append, List.length_singleton]
      omega

/-- From the root, `word` on a sequence of two or more tokens ends and returns false. -/
theorem word_long_false (h : Heap K P) (hw : WF h) (a b : K) (rest : List K) :
    ∃ st, Automaton.word h m_root (a :: b :: rest) = some (false, st) := by
  cases hg : trie_node.get h m_root a with
  | none =>
    have hn : Automaton.next h m_root a = some m_root :=
      next_of_chain_root h m_root a 0 (fun j hj => absurd hj (Nat.not_lt_zero j)) hg rfl
    exact ⟨m_root, by simp [Automaton.word, hn]⟩
  | some c =>
    have hn : Automaton.next h m_root a = some c := next_direct h m_root a c hg
    have hc := get_valid h hw m_root a c hg
    have hp : walk h [a] = some c := (walk_snoc_some h [] a c).mpr ⟨m_root, walk_nil h, hg⟩
    have hl := word_loop_false h hw a (b :: rest) (by simp) (h.length + 2) c [a] hp (by omega)
    exact ⟨c, by simp [Automaton.word, hn, hc.1, hl]⟩

end wordc

section nodes

variable {K P : Type} [LinearOrder K]

/-- What `add` does to the objects that exist before the call: the arena grows, payloads stay,
and a failure-link stays or becomes the root. -/
theorem add_old_nodes (h : Heap K P) (hw : WF h) (w : List K) (v : P) :
    h.length ≤ (ac_trie.add h w v).length ∧
    (∀ i, i < h.length →
      ((ac_trie.add h w v).node i).m_payload = (h.node i).m_payload) ∧
    (∀ i, fail_of (ac_trie.add h w v) i = fail_of h i ∨
      fail_of (ac_trie.add h w v) i = m_root ∨
      ∃ o, o < h.length ∧ fail_of (ac_trie.add h w v) i = fail_of h o) := by
  by_cases hne : w = []
  · subst hne
    rw [add_nil]
    exact ⟨le_refl _, fun _ _ => rfl, fun _ => Or.inl rfl⟩
  obtain ⟨ks, last, rfl⟩ : ∃ ks last, w = ks ++ [last] :=
    ⟨w.dropLast, w.getLast hne, (List.dropLast_append_getLast hne).symm⟩
  rw [add_snoc]
  obtain ⟨d1, d2, d3, d4, d5, d6⟩ := descend_spec ks h m_root [] hw (walk_nil h)
  simp only [List.nil_append] at d2 d5
  generalize (ac_trie.add_descend h m_root ks).1 = h1 at d1 d2 d3 d4 d5 d6 ⊢
  generalize (ac_trie.add_descend h m_root ks).2 = parent at d2 ⊢
  have hpv := walk_valid h1 d1 ks parent d2
  cases hg : trie_node.get h1 parent last with
  | none =>
    have hfe := add_shim_new h1 parent hpv last v hg
    generalize trie_node.add_shim (h1 ++ [(⟨m_root, [], some v⟩ : trie_node K P)]) parent
      ⟨last, h1.length⟩ = h' at hfe ⊢
    refine ⟨by have := hfe.len; omega, ?_, ?_⟩
    · intro i hi
      rw [← (d6 i).1]
      by_cases hip : i = parent
      · subst hip; rw [hfe.at_i]
      · rw [hfe.others i hip (by omega)]
    · intro i
      simp only [fail_of]
      rw [← (d6 i).2]
      by_cases hip : i = parent
      · subst hip; rw [hfe.at_i]; exact Or.inl rfl
      · by_cases hiL : i = h1.length
        · subst hiL; rw [hfe.at_c]; exact Or.inr (Or.inl rfl)
        · rw [hfe.others i hip hiL]; exact Or.inl rfl
  | some o =>
    have hov := get_valid h1 d1 parent last o hg
    have hpo : walk h1 (ks ++ [last]) = some o :=
      (walk_snoc_some h1 ks last o).mpr ⟨parent, d2, hg⟩
    have hoi : o ≠ parent := by
      intro hc
      rw [hc] at hpo
      have := d1.walk_inj _ _ _ hpo d2
      simp at this
    have hoh : o < h.length := by
      rcases d5 _ _ hpo with h2 | ⟨_, h2⟩
      · exact walk_valid h hw _ _ h2
      · have := h2.length_le
        simp at this
    have hpr := add_shim_promote h1 parent hpv last v o hov.2 hoi hg
    generalize trie_node.add_shim (h1 ++ [(⟨m_root, [], some v⟩ : trie_node K P)]) parent
      ⟨last, h1.length⟩ = h' at hpr ⊢
    refine ⟨by have := hpr.len; omega, ?_, ?_⟩
    · intro i hi
      rw [← (d6 i).1]
      by_cases hip : i = parent
      · subst hip; rw [hpr.at_i]
      · by_cases hio : i = o
        · subst hio; rw [hpr.at_o]
        · rw [hpr.others i hip (by omega) hio]
    · intro i
      simp only [fail_of]
      by_cases hiL : i = h1.length
      · subst hiL
        rw [hpr.at_c]
        right; right
        exact ⟨o, hoh, (d6 o).2⟩
      · rw [← (d6 i).2]
        by_cases hip : i = parent
        · subst hip; rw [hpr.at_i]; exact Or.inl rfl
        · by_cases hio : i = o
          · subst hio; rw [hpr.at_o]; exact Or.inr (Or.inl rfl)
          · rw [hpr.others i hip hiL hio]; exact Or.inl rfl

theorem value_ok_iff (h : Heap K P) (i : Nat) (v : P) :
    trie_node.value h i = .ok v ↔ (h.node i).m_payload = some v := by
  unfold trie_node.value
  cases (h.node i).m_payload <;> simp

theorem value_error_iff (h : Heap K P) (i : Nat) :
    trie_node.value h i = .error "Invalid value" ↔ (h.node i).m_payload = none := by
  unfold trie_node.value
  cases (h.node i).m_payload <;> simp

/-- C17: `value()` raises 'Invalid value' exactly on the objects without payload (the root
and the Branch nodes) and returns the payload on a Match node; `empty()` is true exactly where
`value()` raises.  In every builder state the root raises, the Match node that `add` creates
returns the payload of the call, and a later `add` or `compile` does not change what
`value()` returns on an existing Match node. -/
theorem value_raises_iff_no_payload :
    (∀ (h : Heap K P) (i : Nat),
      trie_node.value h i = .error "Invalid value" ↔ (h.node i).m_payload = none) ∧
    (∀ (h : Heap K P) (i : Nat) (v : P),
      trie_node.value h i = .ok v ↔ (h.node i).m_payload = some v) ∧
    (∀ (h : Heap K P) (i : Nat),
      trie_node.empty h i = true ↔ trie_node.value h i = .error "Invalid value") ∧
    (∀ (h : Heap K P), Builder h →
      trie_node.value h m_root = .error "Invalid value" ∧
      (∀ (w : List K) (v : P), w ≠ [] →
        ∃ n, walk (ac_trie.add h w v) w = some n ∧
          trie_node.value (ac_trie.add h w v) n = .ok v) ∧
      (∀ (i : Nat) (x : P), trie_node.value h i = .ok x →
        (∀ (w : List K) (v : P), trie_node.value (ac_trie.add h w v) i = .ok x) ∧
        (∀ h', ac_trie.compile h = some h' → trie_node.value h' i = .ok x))) := by
  refine ⟨value_error_iff, value_ok_iff, ?_, ?_⟩
  · intro h i
    rw [value_error_iff]
    simp only [trie_node.empty, Option.isNone_iff_eq_none]
  · intro h hb
    have hw := builder_wf h hb
    refine ⟨(value_error_iff h m_root).mpr hw.root_payload, ?_, ?_⟩
    · intro w v hne
      obtain ⟨_, _, a3, _⟩ := add_spec h hw w v hne
      have := a3 w
      rw [if_pos rfl] at this
      unfold payload_at at this
      cases hx : walk (ac_trie.add h w v) w with
      | none => rw [hx] at this; cases this
      | some n =>
        rw [hx] at this
        exact ⟨n, rfl, (value_ok_iff _ n v).mpr this⟩
    · intro i x hx
      rw [value_ok_iff] at hx
      have hi : i < h.length := by
        by_contra hc
        rw [node_of_length_le h i (not_lt.mp hc)] at hx
        cases hx
      refine ⟨?_, ?_⟩
      · intro w v
        rw [value_ok_iff, (add_old_nodes h hw w v).2.1 i hi]
        exact hx
      · intro h' hc
        rw [value_ok_iff, ((compile_skel h h' hc).2 i).2]
        exact hx

theorem value_raises_iff_no_payload_witness :
    (Builder (ac_trie.add (ac_trie.new : Heap Nat Nat) [1, 2] 7) ∧
      trie_node.value (ac_trie.add (ac_trie.new : Heap Nat Nat) [1, 2] 7) 2 = .ok 7) ∧
    trie_node.value (ac_trie.add (ac_trie.add (ac_trie.new : Heap Nat Nat) [1, 2] 7) [1] 8) 2 =
      .ok 7 :=
  ⟨⟨Builder.add _ _ _ Builder.new, by rfl⟩,
    (((value_raises_iff_no_payload (K := Nat) (P := Nat)).2.2.2
      (ac_trie.add (ac_trie.new : Heap Nat Nat) [1, 2] 7)
      (Builder.add _ _ _ Builder.new)).2.2 2 7 (by rfl)).1 [1] 8⟩

end nodes

section failinv

variable {K P : Type} [LinearOrder K]

theorem loop_result (h : Heap K P) (k : K) (fuel : Nat) :
    ∀ (st fl r : Nat), compile_visitor.loop h k fuel st fl = some r →
      r = fl ∨ r = m_root ∨ ∃ s, trie_node.get h s k = some r := by
  induction fuel with
  | zero =>
    intro st fl r hr
    simp [compile_visitor.loop] at hr
  | succ f ih =>
    intro st fl r hr
    simp only [compile_visitor.loop] at hr
    have hres : trie_node.get_def h st k m_root = m_root ∨
        trie_node.get h st k = some (trie_node.get_def h st k m_root) := by
      unfold trie_node.get_def
      cases hg : trie_node.get h st k with
      | none => left; rfl
      | some c => right; rfl
    split_ifs at hr with h1 h2
    · simp only [Option.some.injEq] at hr
      rw [← hr]
      rcases hres with h3 | h3
      · exact Or.inr (Or.inl h3)
      · exact Or.inr (Or.inr ⟨st, h3⟩)
    · rcases ih _ _ _ hr with h3 | h3 | h3
      · rw [h3]
        rcases hres with h4 | h4
        · exact Or.inr (Or.inl h4)
        · exact Or.inr (Or.inr ⟨st, h4⟩)
      · exact Or.inr (Or.inl h3)
      · exact Or.inr (Or.inr h3)
    · simp only [Option.some.injEq] at hr
      exact Or.inl hr.symm

/-- One call of `compile_visitor::visit`: only the failure-link of the child is written, and
it becomes the root or a child of some object. -/
theorem visit_fail (h0 hs : Heap K P) (hw0 : WF h0) (f : Nat)
    (s s' : Heap K P × List (trie_node_shim K)) (child : trie_node_shim K)
    (hdeep : Deep h0 child.node) (hsk : Skel h0 s.1) (hfv : FailValid s.1)
    (hch : ∀ y, fail_of s.1 y = fail_of hs y ∨ Deep h0 y)
    (hv : compile_visitor.visit f s child = some s') :
    s'.2 = s.2 ++ [child] ∧ FailValid s'.1 ∧
      ∀ y, fail_of s'.1 y = fail_of hs y ∨ Deep h0 y := by
  unfold compile_visitor.visit at hv
  cases hl : compile_visitor.loop s.1 child.key (s.1.length + 2) f m_root with
  | none => rw [hl] at hv; cases hv
  | some r =>
    rw [hl] at hv
    simp only [Option.some.injEq] at hv
    rw [← hv]
    have hw := skel_wf h0 s.1 hsk hw0
    have hrv : r < s.1.length := by
      rcases loop_result s.1 child.key _ _ _ _ hl with h1 | h1 | ⟨x, hx⟩
      · rw [h1]; exact hw.pos
      · rw [h1]; exact hw.pos
      · exact (get_valid s.1 hw x child.key r hx).2
    refine ⟨rfl, ?_, ?_⟩
    · intro i
      simp only [fail_of, List.length_set]
      rw [node_set]
      split_ifs
      · exact hrv
      · exact hfv i
    · intro y
      by_cases hy : y = child.node
      · rw [hy]; exact Or.inr hdeep
      · simp only [fail_of]
        rw [node_set, if_neg (fun hc => hy hc.1.symm)]
        exact hch y

theorem node_visit_fail (h0 hs : Heap K P) (hw0 : WF h0) (px : List K) (x : Nat)
    (hpx : px ≠ []) (hx : walk h0 px = some x) (f : Nat) (l : List (trie_node_shim K)) :
    ∀ (s s' : Heap K P × List (trie_node_shim K)),
      (∀ c ∈ l, trie_node.get h0 x c.key = some c.node) → Skel h0 s.1 → FailValid s.1 →
      (∀ y, fail_of s.1 y = fail_of hs y ∨ Deep h0 y) →
      trie_node.visit f s l = some s' →
      s'.2 = s.2 ++ l ∧ Skel h0 s'.1 ∧ FailValid s'.1 ∧
        ∀ y, fail_of s'.1 y = fail_of hs y ∨ Deep h0 y := by
  induction l with
  | nil =>
    intro s s' _ hsk hfv hch hv
    simp only [trie_node.visit, Option.some.injEq] at hv
    rw [← hv]
    exact ⟨by simp, hsk, hfv, hch⟩
  | cons c rest ih =>
    intro s s' hl hsk hfv hch hv
    simp only [trie_node.visit] at hv
    cases h1 : compile_visitor.visit f s c with
    | none => rw [h1] at hv; cases hv
    | some s1 =>
      rw [h1] at hv
      have hdeep : Deep h0 c.node :=
        ⟨px ++ [c.key], by
          have := List.length_pos.mpr hpx
          simp only [List.length_append, List.length_singleton]
          omega,
          (walk_snoc_some h0 px c.key c.node).mpr ⟨x, hx, hl c (List.mem_cons_self _ _)⟩⟩
      obtain ⟨a1, a2, a3⟩ := visit_fail h0 hs hw0 f s s1 c hdeep hsk hfv hch h1
      have hsk1 := skel_trans _ _ _ hsk (visit_skel f s s1 c h1)
      obtain ⟨b1, b2, b3, b4⟩ :=
        ih s1 s' (fun d hd => hl d (List.mem_cons_of_mem _ hd)) hsk1 a2 a3 hv
      refine ⟨?_, b2, b3, b4⟩
      rw [b1, a1]
      simp

theorem compile_loop_fail (h0 hs : Heap K P) (hw0 : WF h0) (fuel : Nat) :
    ∀ (h h' : Heap K P) (queue : List (trie_node_shim K)),
      Skel h0 h → FailValid h → (∀ y, fail_of h y = fail_of hs y ∨ Deep h0 y) →
      (∀ s ∈ queue, ∃ p, p ≠ [] ∧ walk h0 p = some s.node) →
      ac_trie.compile_loop fuel h queue = some h' →
      FailValid h' ∧ ∀ y, fail_of h' y = fail_of hs y ∨ Deep h0 y := by
  induction fuel with
  | zero =>
    intro h h' queue _ hfv hch _ hc
    cases queue with
    | nil =>
      simp only [ac_trie.compile_loop, Option.some.injEq] at hc
      rw [← hc]; exact ⟨hfv, hch⟩
    | cons a rest => simp [ac_trie.compile_loop] at hc
  | succ n ih =>
    intro h h' queue hsk hfv hch hq hc
    cases queue with
    | nil =>
      simp only [ac_trie.compile_loop, Option.some.injEq] at hc
      rw [← hc]; exact ⟨hfv, hch⟩
    | cons shim rest =>
      simp only [ac_trie.compile_loop] at hc
      cases hv : trie_node.visit (h.node shim.node).m_fail (h, rest)
          (h.node shim.node).m_children with
      | none => rw [hv] at hc; cases hc
      | some s =>
        rw [hv] at hc
        obtain ⟨px, hpx, hx⟩ := hq shim (List.mem_cons_self _ _)
        have hchild : ∀ c ∈ (h.node shim.node).m_children,
            trie_node.get h0 shim.node c.key = some c.node := by
          intro c hcm
          rw [(hsk.2 shim.node).1] at hcm
          exact (get_some_iff h0 hw0 shim.node c.key c.node).mpr hcm
        obtain ⟨a1, a2, a3, a4⟩ := node_visit_fail h0 hs hw0 px shim.node hpx hx _ _
          (h, rest) s hchild hsk hfv hch hv
        apply ih s.1 h' s.2 a2 a3 a4 _ hc
        intro c hcm
        rw [a1] at hcm
        rcases List.mem_append.mp hcm with h1 | h1
        · exact hq c (List.mem_cons_of_mem _ h1)
        · exact ⟨px ++ [c.key], by simp,
            (walk_snoc_some h0 px c.key c.node).mpr ⟨shim.node, hx, hchild c h1⟩⟩

/-- C20: the failure-link invariant.  In every builder state (after construction and after
every `add` and every `compile`) the failure-link of the root is the root itself, every
failure-link is the index of an allocated object (never null), and every direct child of the
root has the root as failure-link. -/
theorem fail_link_invariant (h : Heap K P) (hb : Builder h) :
    fail_of h m_root = m_root ∧ (∀ i, fail_of h i < h.length) ∧
      (∀ a c, trie_node.get h m_root a = some c → fail_of h c = m_root) := by
  induction hb with
  | new =>
    have hnode : ∀ j, (ac_trie.new : Heap K P).node j = ⟨m_root, [], none⟩ := by
      intro j
      unfold Heap.node ac_trie.new
      cases j <;> rfl
    refine ⟨rfl, ?_, ?_⟩
    · intro i
      simp only [fail_of, hnode]
      simp [ac_trie.new, m_root]
    · intro a c hc
      rw [get_eq_child_of, hnode] at hc
      cases hc
  | add h word value hb ih =>
    have hw := builder_wf h hb
    obtain ⟨i1, i2, i3⟩ := ih
    by_cases hne : word = []
    · subst hne
      rw [add_nil]
      exact ⟨i1, i2, i3⟩
    obtain ⟨a1, _, _, a4⟩ := add_spec h hw word value hne
    obtain ⟨o1, _, o3⟩ := add_old_nodes h hw word value
    refine ⟨?_, ?_, ?_⟩
    · have := a4 [] m_root (walk_nil _)
      rw [walk_nil] at this
      rw [this]; exact i1
    · intro i
      rcases o3 i with h1 | h1 | ⟨o, _, h1⟩
      · rw [h1]; exact lt_of_lt_of_le (i2 i) o1
      · rw [h1]; exact a1.pos
      · rw [h1]; exact lt_of_lt_of_le (i2 o) o1
    · intro a c hc
      have hwc : walk (ac_trie.add h word value) [a] = some c :=
        (walk_snoc_some _ [] a c).mpr ⟨m_root, walk_nil _, hc⟩
      rw [a4 [a] c hwc]
      cases hy : walk h [a] with
      | none => rfl
      | some y =>
        obtain ⟨r, hr, hg⟩ := (walk_snoc_some h [] a y).mp hy
        rw [walk_nil] at hr
        cases hr
        exact i3 a y hg
  | compile h h' hb hc ih =>
    have hw := builder_wf h hb
    obtain ⟨i1, i2, i3⟩ := ih
    have hsk := compile_skel h h' hc
    obtain ⟨c1, c2⟩ := compile_loop_fail h h hw h.length h h' (h.node m_root).m_children
      (skel_refl h) i2 (fun _ => Or.inl rfl)
      (fun s hs => ⟨[s.key], by simp,
        (walk_snoc_some h [] s.key s.node).mpr
          ⟨m_root, walk_nil h, (get_some_iff h hw m_root s.key s.node).mpr hs⟩⟩) hc
    refine ⟨?_, ?_, ?_⟩
    · rcases c2 m_root with h1 | ⟨p, hp1, hp2⟩
      · rw [h1]; exact i1
      · have := hw.walk_inj p [] m_root hp2 (walk_nil h)
        rw [this] at hp1
        simp at hp1
    · exact c1
    · intro a c hg
      rw [skel_get h h' hsk] at hg
      have hwc : walk h [a] = some c := (walk_snoc_some h [] a c).mpr ⟨m_root, walk_nil h, hg⟩
      rcases c2 c with h1 | ⟨p, hp1, hp2⟩
      · rw [h1]; exact i3 a c hg
      · have := hw.walk_inj p [a] c hp2 hwc
        rw [this] at hp1
        simp at hp1

theorem fail_link_invariant_witness :
    Builder (ac_trie.add (ac_trie.new : Heap Nat Nat) [1, 2] 7) ∧
    (fail_of (ac_trie.add (ac_trie.new : Heap Nat Nat) [1, 2] 7) m_root = m_root ∧
      (∀ i, fail_of (ac_trie.add (ac_trie.new : Heap Nat Nat) [1, 2] 7) i <
        (ac_trie.add (ac_trie.new : Heap Nat Nat) [1, 2] 7).length) ∧
      (∀ a c, trie_node.get (ac_trie.add (ac_trie.new : Heap Nat Nat) [1, 2] 7) m_root a =
        some c → fail_of (ac_trie.add (ac_trie.new : Heap Nat Nat) [1, 2] 7) c = m_root)) :=
  ⟨Builder.add _ _ _ Builder.new,
    fail_link_invariant (ac_trie.add (ac_trie.new : Heap Nat Nat) [1, 2] 7)
      (Builder.add _ _ _ Builder.new)⟩

end failinv

section flatmap_thm

variable {K V : Type} [LinearOrder K]

theorem mem_vector_emplace {α : Type} (l : List α) (pos : Nat) (x y : α) :
    y ∈ simple_vector.emplace l pos x ↔ y = x ∨ y ∈ l := by
  unfold simple_vector.emplace
  have h : y ∈ l ↔ y ∈ l.take pos ∨ y ∈ l.drop pos := by
    conv_lhs => rw [← List.take_append_drop pos l]
    exact List.mem_append
  rw [List.mem_append, List.mem_cons, h]
  tauto

theorem length_vector_emplace {α : Type} (l : List α) (pos : Nat) (x : α) :
    (simple_vector.emplace l pos x).length = l.length + 1 := by
  unfold simple_vector.emplace
  simp only [List.length_append, List.length_cons, List.length_take, List.length_drop]
  omega

theorem zip_vector_emplace {α β : Type} (l : List α) (r : List β) (pos : Nat) (x : α) (y : β)
    (hlen : l.length = r.length) :
    (simple_vector.emplace l pos x).zip (simple_vector.emplace r pos y) =
      simple_vector.emplace (l.zip r) pos (x, y) := by
  unfold simple_vector.emplace
  rw [List.zip_append (by simp [hlen]), List.zip_cons_cons]
  simp only [List.zip, List.take_zipWith, List.drop_zipWith]

theorem fm_lower_bound_nil (k : K) : flat_map.lower_bound ([] : List K) k = 0 := rfl

theorem fm_lower_bound_cons_lt (a : K) (l : List K) (k : K) (h : a < k) :
    flat_map.lower_bound (a :: l) k = flat_map.lower_bound l k + 1 := by
  simp [flat_map.lower_bound, h]

theorem fm_lower_bound_cons_ge (a : K) (l : List K) (k : K) (h : ¬ a < k) :
    flat_map.lower_bound (a :: l) k = 0 := by
  simp [flat_map.lower_bound, h]

/-- On a sorted key array the key at the lower bound is `k` exactly when `k` is a key. -/
theorem fm_found_iff_mem (l : List K) (hl : l.Sorted (· < ·)) (k : K) :
    l[flat_map.lower_bound l k]? = some k ↔ k ∈ l := by
  induction l with
  | nil => simp [fm_lower_bound_nil]
  | cons a rest ih =>
    have hl' := List.sorted_cons.mp hl
    rcases lt_trichotomy a k with hlt | heq | hgt
    · rw [fm_lower_bound_cons_lt a rest k hlt, List.getElem?_cons_succ, ih hl'.2,
        List.mem_cons]
      constructor
      · exact Or.inr
      · rintro (h | h)
        · rw [h] at hlt; exact absurd hlt (lt_irrefl _)
        · exact h
    · rw [fm_lower_bound_cons_ge a rest k (by simp [heq])]
      simp [heq]
    · rw [fm_lower_bound_cons_ge a rest k (not_lt_of_lt hgt)]
      simp only [List.getElem?_cons_zero, Option.some.injEq, List.mem_cons]
      constructor
      · intro h; exact Or.inl h.symm
      · rintro (h | h)
        · exact h.symm
        · exact absurd (lt_trans (hl'.1 k h) hgt) (lt_irrefl _)

/-- Inserting a missing key at its lower bound keeps the key array sorted. -/
theorem fm_emplace_sorted (l : List K) (hl : l.Sorted (· < ·)) (k : K) (hk : k ∉ l) :
    (simple_vector.emplace l (flat_map.lower_bound l k) k).Sorted (· < ·) := by
  induction l with
  | nil => simp [simple_vector.emplace, fm_lower_bound_nil]
  | cons a rest ih =>
    have hl' := List.sorted_cons.mp hl
    have hne : a ≠ k := fun h => hk (by simp [h])
    have hk' : k ∉ rest := fun h => hk (List.mem_cons_of_mem _ h)
    rcases lt_or_gt_of_ne hne with hlt | hgt
    · rw [fm_lower_bound_cons_lt a rest k hlt]
      have he : simple_vector.emplace (a :: rest) (flat_map.lower_bound rest k + 1) k =
          a :: simple_vector.emplace rest (flat_map.lower_bound rest k) k := by
        simp [simple_vector.emplace]
      rw [he, List.sorted_cons]
      refine ⟨?_, ih hl'.2 hk'⟩
      intro b hb
      rcases (mem_vector_emplace rest _ k b).mp hb with h | h
      · rw [h]; exact hlt
      · exact hl'.1 b h
    · rw [fm_lower_bound_cons_ge a rest k (not_lt_of_lt hgt)]
      have he : simple_vector.emplace (a :: rest) 0 k = k :: a :: rest := by
        simp [simple_vector.emplace]
      rw [he, List.sorted_cons]
      refine ⟨?_, hl⟩
      intro b hb
      rcases List.mem_cons.mp hb with h | h
      · rw [h]; exact hgt
      · exact lt_trans hgt (hl'.1 b h)

theorem fm_find_raw_found (m : flat_map K V) (k : K) :
    (m.do_find_raw k).2 = true ↔ m.m_keys[flat_map.lower_bound m.m_keys k]? = some k := by
  simp only [flat_map.do_find_raw, flat_map.do_lower_bound_raw, Bool.and_eq_true,
    Bool.not_eq_true', decide_eq_false_iff_not, decide_eq_true_eq]
  constructor
  · exact fun h => h.2
  · intro h
    refine ⟨?_, h⟩
    intro hc
    rw [hc] at h
    simp at h

theorem fm_find_raw_fst (m : flat_map K V) (k : K) :
    (m.do_find_raw k).1 = flat_map.lower_bound m.m_keys k := rfl

/-- One `emplace`: the map stays sorted with arrays of the same length; a key that is present
leaves the map as it is, a missing key adds the entry. -/
theorem fm_emplace_spec (m : flat_map K V) (hs : m.m_keys.Sorted (· < ·))
    (hlen : m.m_keys.length = m.m_values.length) (k : K) (v : V) :
    (m.emplace k v).1.m_keys.Sorted (· < ·) ∧
    (m.emplace k v).1.m_keys.length = (m.emplace k v).1.m_values.length ∧
    (k ∈ m.m_keys → (m.emplace k v).1 = m) ∧
    (k ∉ m.m_keys →
      (∀ x, x ∈ (m.emplace k v).1.m_keys ↔ x = k ∨ x ∈ m.m_keys) ∧
      (∀ e, e ∈ (m.emplace k v).1.entries ↔ e = (k, v) ∨ e ∈ m.entries)) := by
  by_cases hk : k ∈ m.m_keys
  · have hf : (m.do_find_raw k).2 = true :=
      (fm_find_raw_found m k).mpr ((fm_found_iff_mem m.m_keys hs k).mpr hk)
    have he : (m.emplace k v).1 = m := by
      simp [flat_map.emplace, hf]
    rw [he]
    exact ⟨hs, hlen, fun _ => rfl, fun hn => absurd hk hn⟩
  · have hf : (m.do_find_raw k).2 = false := by
      rw [← Bool.not_eq_true, fm_find_raw_found, fm_found_iff_mem m.m_keys hs k]
      exact hk
    have he : (m.emplace k v).1 =
        ⟨simple_vector.emplace m.m_keys (flat_map.lower_bound m.m_keys k) k,
          simple_vector.emplace m.m_values (flat_map.lower_bound m.m_keys k) v⟩ := by
      simp [flat_map.emplace, hf, flat_map.do_emplace, fm_find_raw_fst]
    rw [he]
    refine ⟨fm_emplace_sorted m.m_keys hs k hk, ?_, fun hc => absurd hc hk, fun _ => ⟨?_, ?_⟩⟩
    · simp only [length_vector_emplace, hlen]
    · intro x
      exact mem_vector_emplace _ _ _ _
    · intro e
      simp only [flat_map.entries]
      rw [zip_vector_emplace _ _ _ _ _ hlen]
      exact mem_vector_emplace _ _ _ _

theorem fm_emplace_all_spec (ops : List (K × V)) :
    ∀ (m : flat_map K V), m.m_keys.Sorted (· < ·) → m.m_keys.length = m.m_values.length →
      (flat_map.emplace_all m ops).m_keys.Sorted (· < ·) ∧
      (flat_map.emplace_all m ops).m_keys.length =
        (flat_map.emplace_all m ops).m_values.length ∧
      ∀ k v, (k, v) ∈ (flat_map.emplace_all m ops).entries ↔
        (k, v) ∈ m.entries ∨
          (k ∉ m.m_keys ∧ ops.find? (fun e => decide (e.1 = k)) = some (k, v)) := by
  induction ops with
  | nil =>
    intro m hs hlen
    simp only [flat_map.emplace_all, List.find?_nil]
    exact ⟨hs, hlen, by simp⟩
  | cons e rest ih =>
    intro m hs hlen
    obtain ⟨k0, v0⟩ := e
    simp only [flat_map.emplace_all]
    obtain ⟨e1, e2, e3, e4⟩ := fm_emplace_spec m hs hlen k0 v0
    obtain ⟨i1, i2, i3⟩ := ih (m.emplace k0 v0).1 e1 e2
    refine ⟨i1, i2, ?_⟩
    intro k v
    rw [i3]
    by_cases hk0 : k0 ∈ m.m_keys
    · rw [e3 hk0]
      by_cases hkk : k0 = k
      · subst hkk
        simp [hk0]
      · simp [List.find?_cons, hkk]
    · obtain ⟨e5, e6⟩ := e4 hk0
      rw [e6, e5]
      by_cases hkk : k0 = k
      · subst hkk
        simp only [Prod.mk.injEq, true_and, true_or, not_true_eq_false, false_and, or_false,
          List.find?_cons, decide_True, Option.some.injEq, hk0, not_false_eq_true]
        constructor
        · rintro (h | h)
          · exact Or.inr h.symm
          · exact Or.inl h
        · rintro (h | h)
          · exact Or.inr h
          · exact Or.inl h.symm
      · have hkk' : ¬ k = k0 := fun h => hkk h.symm
        simp [List.find?_cons, hkk, hkk']

/-- C19: the flat map stays sorted.  For the map built from the empty map by the `emplace`
calls of `ops` in order (the loop of the initializer-list constructor), the key array is
strictly increasing, the key array and the value array have the same length, and the entry
(key `i`, value `i`) with key `k` is the first pair of `ops` with key `k`. -/
theorem flat_map_stays_sorted (ops : List (K × V)) :
    (flat_map.from_initializer_list ops).m_keys.Sorted (· < ·) ∧
    (flat_map.from_initializer_list ops).m_keys.length =
      (flat_map.from_initializer_list ops).m_values.length ∧
    (flat_map.from_initializer_list ops).size =
      (flat_map.from_initializer_list ops).m_values.length ∧
    ∀ k v, (k, v) ∈ (flat_map.from_initializer_list ops).entries ↔
      ops.find? (fun e => decide (e.1 = k)) = some (k, v) := by
  obtain ⟨h1, h2, h3⟩ := fm_emplace_all_spec ops (flat_map.new : flat_map K V)
    (by simp [flat_map.new]) (by simp [flat_map.new])
  refine ⟨h1, h2, h2, ?_⟩
  intro k v
  rw [flat_map.from_initializer_list, h3]
  simp [flat_map.new, flat_map.entries]

end flatmap_thm

section edgeinv

variable {K P : Type} [LinearOrder K]

/-- C21: the sorted-edge invariant.  With the edge lookup returning the lower-bound insertion
point, in every builder state (a fresh builder followed by any sequence of `add` and
`compile` calls) the edge list of every object is strictly increasing by token, so it holds
at most one edge per token, and `get(token)` returns the child of the edge labelled `token`
exactly when that edge exists (the null pointer exactly when no edge carries the token). -/
theorem sorted_edge_invariant (h : Heap K P) (hb : Builder h) (i : Nat) :
    sorted_keys (h.node i).m_children ∧
    ((h.node i).m_children.map trie_node_shim.key).Nodup ∧
    (∀ k c, trie_node.get h i k = some c ↔ ⟨k, c⟩ ∈ (h.node i).m_children) ∧
    (∀ k, trie_node.get h i k = none ↔ ∀ s ∈ (h.node i).m_children, s.key ≠ k) := by
  have hw := builder_wf h hb
  have hiff := fun k c => get_some_iff h hw i k c
  refine ⟨hw.sorted i, ?_, hiff, ?_⟩
  · have := hw.sorted i
    unfold sorted_keys List.Sorted at this
    exact this.imp (fun hab => ne_of_lt hab)
  · intro k
    constructor
    · intro hn s hs hk
      have : trie_node.get h i k = some s.node := by
        rw [hiff]
        cases s
        simp only at hk
        rw [← hk]
        exact hs
      rw [hn] at this
      cases this
    · intro hall
      cases hg : trie_node.get h i k with
      | none => rfl
      | some c =>
        exact absurd rfl (hall ⟨k, c⟩ ((hiff k c).mp hg))

theorem sorted_edge_invariant_witness :
    Builder (ac_trie.add (ac_trie.add (ac_trie.new : Heap Nat Nat) [2, 1] 7) [1] 8) ∧
    sorted_keys ((ac_trie.add (ac_trie.add (ac_trie.new : Heap Nat Nat) [2, 1] 7) [1] 8).node
      m_root).m_children ∧
    trie_node.get (ac_trie.add (ac_trie.add (ac_trie.new : Heap Nat Nat) [2, 1] 7) [1] 8)
      m_root 3 = none :=
  ⟨Builder.add _ _ _ (Builder.add _ _ _ Builder.new),
    (sorted_edge_invariant _ (Builder.add _ _ _ (Builder.add _ _ _ Builder.new)) m_root).1,
    ((sorted_edge_invariant _ (Builder.add _ _ _ (Builder.add _ _ _ Builder.new))
      m_root).2.2.2 3).mpr (by decide)⟩

end edgeinv

section reinsert

variable {K P : Type} [LinearOrder K]

/-- C27: re-inserting a pattern replaces its payload only.  In every builder state where the
non-empty pattern `p` ends on a Match node `n` with payload `v1`, after `add(p, v2)` the path
of `p` ends on a Match node with payload `v2` that has the edge list and the failure-link of
`n`; the set of paths is the same, and every other path ends on the same object as before,
with the same payload (so the same node kind) and failure-link, the object being unchanged
altogether unless it is the parent of `n`, whose edge for the last token now leads to the new
node.  The old object `n` keeps `v1` but is on no path any more. -/
theorem reinsert_replaces_payload (h : Heap K P) (hb : Builder h) (p : List K) (v1 v2 : P)
    (n : Nat) (hp : p ≠ []) (hn : walk h p = some n) (hv : (h.node n).m_payload = some v1) :
    ∃ n', walk (ac_trie.add h p v2) p = some n' ∧
      ((ac_trie.add h p v2).node n').m_payload = some v2 ∧
      ((ac_trie.add h p v2).node n').m_children = (h.node n).m_children ∧
      ((ac_trie.add h p v2).node n').m_fail = (h.node n).m_fail ∧
      (∀ q, (walk (ac_trie.add h p v2) q).isSome ↔ (walk h q).isSome) ∧
      (∀ q, q ≠ p → payload_at (ac_trie.add h p v2) q = payload_at h q) ∧
      (∀ q x, q ≠ p → walk h q = some x →
        walk (ac_trie.add h p v2) q = some x ∧
        ((ac_trie.add h p v2).node x).m_payload = (h.node x).m_payload ∧
        ((ac_trie.add h p v2).node x).m_fail = (h.node x).m_fail ∧
        (q ≠ p.dropLast → (ac_trie.add h p v2).node x = h.node x)) ∧
      ((ac_trie.add h p v2).node n).m_payload = some v1 ∧
      (∀ q, walk (ac_trie.add h p v2) q ≠ some n) := by
  have hw := builder_wf h hb
  obtain ⟨ks, last, rfl⟩ : ∃ ks last, p = ks ++ [last] :=
    ⟨p.dropLast, p.getLast hp, (List.dropLast_append_getLast hp).symm⟩
  obtain ⟨parent, hpar, hg⟩ := (walk_snoc_some h ks last n).mp hn
  have hpv := walk_valid h hw ks parent hpar
  have hov := get_valid h hw parent last n hg
  have hoi : n ≠ parent := by
    intro hc
    rw [hc] at hn
    have := hw.walk_inj _ _ _ hn hpar
    simp at this
  have hd : ac_trie.add_descend h m_root ks = (h, parent) :=
    descend_existing h m_root ks parent hpar
  have hpr := add_shim_promote h parent hpv last v2 n hov.2 hoi hg
  rw [add_snoc, hd]
  simp only
  generalize trie_node.add_shim (h ++ [(⟨m_root, [], some v2⟩ : trie_node K P)]) parent
      ⟨last, h.length⟩ = h' at hpr ⊢
  have hwalk := walk_promote h h' hw parent last n v2 hpr hg ks hpar
  have hold : ∀ q x, q ≠ ks ++ [last] → walk h q = some x →
      walk h' q = some x ∧ (h'.node x).m_payload = (h.node x).m_payload ∧
      (h'.node x).m_fail = (h.node x).m_fail ∧
      (q ≠ (ks ++ [last]).dropLast → h'.node x = h.node x) := by
    intro q x hq hx
    have hxo : x ≠ n := by
      intro hc
      rw [hc] at hx
      exact hq (hw.walk_inj _ _ _ hx hn)
    have hxv := walk_valid h hw q x hx
    refine ⟨by rw [hwalk, hx]; simp [promote_map, hxo], ?_⟩
    by_cases hxp : x = parent
    · subst hxp
      rw [hpr.at_i]
      refine ⟨rfl, rfl, ?_⟩
      intro hqk
      exfalso
      apply hqk
      simp only [List.dropLast_concat]
      exact hw.walk_inj _ _ _ hx hpar
    · rw [hpr.others x hxp (Nat.ne_of_lt hxv) hxo]
      exact ⟨rfl, rfl, fun _ => rfl⟩
  refine ⟨h.length, ?_, ?_, ?_, ?_, ?_, ?_, hold, ?_, ?_⟩
  · rw [hwalk, hn]; simp [promote_map]
  · rw [hpr.at_c]
  · rw [hpr.at_c]
  · rw [hpr.at_c]
  · intro q
    rw [hwalk, Option.isSome_map']
  · intro q hq
    cases hx : walk h q with
    | none => rw [payload_at_none h q hx, payload_at_none h' q (by rw [hwalk, hx]; rfl)]
    | some x =>
      rw [payload_at_some h q x hx, payload_at_some h' q x (hold q x hq hx).1,
        (hold q x hq hx).2.1]
  · rw [hpr.at_o]
    exact hv
  · intro q hq
    rw [hwalk] at hq
    cases hx : walk h q with
    | none => rw [hx] at hq; cases hq
    | some x =>
      rw [hx] at hq
      simp only [Option.map_some', Option.some.injEq, promote_map] at hq
      split_ifs at hq with h1
      · omega
      · exact h1 hq

theorem reinsert_replaces_payload_witness :
    (Builder (ac_trie.add (ac_trie.new : Heap Nat Nat) [1, 2] 7) ∧
      ([1, 2] : List Nat) ≠ [] ∧
      walk (ac_trie.add (ac_trie.new : Heap Nat Nat) [1, 2] 7) [1, 2] = some 2 ∧
      ((ac_trie.add (ac_trie.new : Heap Nat Nat) [1, 2] 7).node 2).m_payload = some 7) ∧
    ∃ n', walk (ac_trie.add (ac_trie.add (ac_trie.new : Heap Nat Nat) [1, 2] 7) [1, 2] 9)
        [1, 2] = some n' ∧
      ((ac_trie.add (ac_trie.add (ac_trie.new : Heap Nat Nat) [1, 2] 7) [1, 2] 9).node
        n').m_payload = some 9 :=
  ⟨⟨Builder.add _ _ _ Builder.new, by decide, by decide, by decide⟩,
    (reinsert_replaces_payload (ac_trie.add (ac_trie.new : Heap Nat Nat) [1, 2] 7)
      (Builder.add _ _ _ Builder.new) [1, 2] 7 9 2 (by decide) (by decide) (by decide)).elim
      fun n' hn' => ⟨n', hn'.1, hn'.2.1⟩⟩

end reinsert

section flatmap_emplace

variable {K V : Type} [LinearOrder K]

theorem fm_lower_bound_le (l : List K) (k : K) : flat_map.lower_bound l k ≤ l.length := by
  induction l with
  | nil => simp [fm_lower_bound_nil]
  | cons a rest ih =>
    by_cases hlt : a < k
    · rw [fm_lower_bound_cons_lt a rest k hlt]
      simp only [List.length_cons]
      omega
    · rw [fm_lower_bound_cons_ge a rest k hlt]
      omega

/-- After the insertion of `k` at its lower bound the lower bound of `k` is the same position. -/
theorem fm_lower_bound_emplace (l : List K) (k : K) :
    flat_map.lower_bound (simple_vector.emplace l (flat_map.lower_bound l k) k) k =
      flat_map.lower_bound l k := by
  induction l with
  | nil => simp [simple_vector.emplace, fm_lower_bound_nil, flat_map.lower_bound]
  | cons a rest ih =>
    by_cases hlt : a < k
    · rw [fm_lower_bound_cons_lt a rest k hlt]
      have he : simple_vector.emplace (a :: rest) (flat_map.lower_bound rest k + 1) k =
          a :: simple_vector.emplace rest (flat_map.lower_bound rest k) k := by
        simp [simple_vector.emplace]
      rw [he, fm_lower_bound_cons_lt a _ k hlt, ih]
    · rw [fm_lower_bound_cons_ge a rest k hlt]
      have he : simple_vector.emplace (a :: rest) 0 k = k :: a :: rest := by
        simp [simple_vector.emplace]
      rw [he, fm_lower_bound_cons_ge k _ k (lt_irrefl k)]

theorem getElem?_vector_emplace {α : Type} (l : List α) (pos : Nat) (x : α)
    (hpos : pos ≤ l.length) : (simple_vector.emplace l pos x)[pos]? = some x := by
  unfold simple_vector.emplace
  have h1 : (l.take pos).length = pos := by
    rw [List.length_take]
    omega
  rw [List.getElem?_append_right (by omega), h1]
  simp

/-- C28: `emplace(k, v)` on a sorted flat map never overwrites.  It reports `inserted` exactly
when `k` was not a key; afterwards `find_pos(k)` reports `found` at the returned position,
which holds `k`; when `k` was absent the value at that position is `v` and `v` is the only
value under `k`; when `k` was present the map is unchanged, so `k` keeps the value stored
before; every other key keeps its value; and the size grows by one exactly when `inserted`
is reported. -/
theorem flat_map_emplace_never_overwrites (m : flat_map K V)
    (hs : m.m_keys.Sorted (· < ·)) (hlen : m.m_keys.length = m.m_values.length)
    (k : K) (v : V) :
    ((m.emplace k v).2.2 = true ↔ k ∉ m.m_keys) ∧
    (m.emplace k v).1.find_pos k = ((m.emplace k v).2.1, true) ∧
    (m.emplace k v).1.m_keys[(m.emplace k v).2.1]? = some k ∧
    (k ∉ m.m_keys →
      (m.emplace k v).1.m_values[(m.emplace k v).2.1]? = some v ∧
      ∀ x, (k, x) ∈ (m.emplace k v).1.entries ↔ x = v) ∧
    (k ∈ m.m_keys →
      (m.emplace k v).1 = m ∧ (m.emplace k v).2.1 = (m.find_pos k).1 ∧
      ∀ x, (k, x) ∈ (m.emplace k v).1.entries ↔ (k, x) ∈ m.entries) ∧
    (∀ k' x, k' ≠ k → ((k', x) ∈ (m.emplace k v).1.entries ↔ (k', x) ∈ m.entries)) ∧
    (m.emplace k v).1.size = m.size + (if (m.emplace k v).2.2 then 1 else 0) := by
  by_cases hk : k ∈ m.m_keys
  · have hfound := (fm_found_iff_mem m.m_keys hs k).mpr hk
    have hf : (m.do_find_raw k).2 = true := (fm_find_raw_found m k).mpr hfound
    have he : m.emplace k v = (m, ((m.do_find_raw k).1, false)) := by
      simp [flat_map.emplace, hf]
    rw [he]
    refine ⟨by simp [hk], ?_, ?_, fun hn => absurd hk hn, fun _ => ⟨rfl, rfl, fun _ => Iff.rfl⟩,
      fun _ _ _ => Iff.rfl, by simp⟩
    · apply Prod.ext
      · rfl
      · exact hf
    · rw [fm_find_raw_fst]
      exact hfound
  · have hf : (m.do_find_raw k).2 = false := by
      rw [← Bool.not_eq_true, fm_find_raw_found, fm_found_iff_mem m.m_keys hs k]
      exact hk
    have he : m.emplace k v =
        (⟨simple_vector.emplace m.m_keys (flat_map.lower_bound m.m_keys k) k,
          simple_vector.emplace m.m_values (flat_map.lower_bound m.m_keys k) v⟩,
          (flat_map.lower_bound m.m_keys k, true)) := by
      simp [flat_map.emplace, hf, flat_map.do_emplace, fm_find_raw_fst]
    have hle := fm_lower_bound_le m.m_keys k
    have hkey := getElem?_vector_emplace m.m_keys _ k hle
    have hent : ∀ e, e ∈ (simple_vector.emplace m.m_keys (flat_map.lower_bound m.m_keys k)
        k).zip (simple_vector.emplace m.m_values (flat_map.lower_bound m.m_keys k) v) ↔
        e = (k, v) ∨ e ∈ m.entries := by
      intro e
      rw [zip_vector_emplace _ _ _ _ _ hlen]
      exact mem_vector_emplace _ _ _ _
    rw [he]
    simp only
    refine ⟨by simp [hk], ?_, hkey, fun _ => ⟨?_, ?_⟩, fun hc => absurd hc hk, ?_, ?_⟩
    · apply Prod.ext
      · show (flat_map.do_find_raw _ k).1 = _
        rw [fm_find_raw_fst]
        exact fm_lower_bound_emplace m.m_keys k
      · show (flat_map.do_find_raw _ k).2 = true
        rw [fm_find_raw_found]
        simp only
        rw [fm_lower_bound_emplace]
        exact hkey
    · exact getElem?_vector_emplace m.m_values _ v (by omega)
    · intro x
      simp only [flat_map.entries]
      rw [hent]
      constructor
      · rintro (h1 | h1)
        · simp only [Prod.mk.injEq, true_and] at h1
          exact h1
        · exact absurd (List.of_mem_zip h1).1 hk
      · intro hx
        left; rw [hx]
    · intro k' x hne
      simp only [flat_map.entries]
      rw [hent]
      constructor
      · rintro (h1 | h1)
        · simp only [Prod.mk.injEq] at h1
          exact absurd h1.1 hne
        · exact h1
      · exact Or.inr
    · simp [flat_map.size, length_vector_emplace]

theorem flat_map_emplace_never_overwrites_witness :
    ((⟨[1, 3], [10, 30]⟩ : flat_map Nat Nat).m_keys.Sorted (· < ·) ∧
      (⟨[1, 3], [10, 30]⟩ : flat_map Nat Nat).m_keys.length =
        (⟨[1, 3], [10, 30]⟩ : flat_map Nat Nat).m_values.length) ∧
    ((⟨[1, 3], [10, 30]⟩ : flat_map Nat Nat).emplace 2 20).1.find_pos 2 =
      (((⟨[1, 3], [10, 30]⟩ : flat_map Nat Nat).emplace 2 20).2.1, true) :=
  ⟨⟨by decide, by decide⟩,
    (flat_map_emplace_never_overwrites (⟨[1, 3], [10, 30]⟩ : flat_map Nat Nat)
      (by decide) (by decide) 2 20).2.1⟩

end flatmap_emplace

section flatmap_compare

variable {K V : Type} [LinearOrder K] [LinearOrder V]

theorem less_loop_cons (k1 k2 : K) (v1 v2 : V) (ks1 ks2 : List K) (vs1 vs2 : List V)
    (n : Nat) : ∀ idx,
    flat_map.less_loop ⟨k1 :: ks1, v1 :: vs1⟩ ⟨k2 :: ks2, v2 :: vs2⟩ n (idx + 1) =
      flat_map.less_loop ⟨ks1, vs1⟩ ⟨ks2, vs2⟩ n idx := by
  induction n with
  | zero => intro idx; rfl
  | succ n ih =>
    intro idx
    simp only [flat_map.less_loop, List.getElem?_cons_succ, ih]

theorem equal_loop_cons (k1 k2 : K) (v1 v2 : V) (ks1 ks2 : List K) (vs1 vs2 : List V)
    (n : Nat) : ∀ idx,
    flat_map.equal_loop ⟨k1 :: ks1, v1 :: vs1⟩ ⟨k2 :: ks2, v2 :: vs2⟩ n (idx + 1) =
      flat_map.equal_loop ⟨ks1, vs1⟩ ⟨ks2, vs2⟩ n idx := by
  induction n with
  | zero => intro idx; rfl
  | succ n ih =>
    intro idx
    simp only [flat_map.equal_loop, List.getElem?_cons_succ, ih]

theorem less_loop_spec (ks1 : List K) : ∀ (vs1 : List V) (ks2 : List K) (vs2 : List V),
    ks1.length = vs1.length → ks2.length = vs2.length →
    ∃ r, flat_map.less_loop ⟨ks1, vs1⟩ ⟨ks2, vs2⟩ (min ks1.length ks2.length) 0 = some r ∧
      entries_less (ks1.zip vs1) (ks2.zip vs2) = r.getD (decide (ks1.length < ks2.length)) := by
  induction ks1 with
  | nil =>
    intro vs1 ks2 vs2 h1 h2
    cases vs1 with
    | cons _ _ => simp at h1
    | nil =>
      refine ⟨none, by simp [flat_map.less_loop], ?_⟩
      cases ks2 with
      | nil => simp [entries_less]
      | cons k2 r2 =>
        cases vs2 with
        | nil => simp at h2
        | cons v2 s2 => simp [entries_less]
  | cons k1 r1 ih =>
    intro vs1 ks2 vs2 h1 h2
    cases vs1 with
    | nil => simp at h1
    | cons v1 s1 =>
      cases ks2 with
      | nil =>
        cases vs2 with
        | cons _ _ => simp at h2
        | nil => exact ⟨none, by simp [flat_map.less_loop], by simp [entries_less]⟩
      | cons k2 r2 =>
        cases vs2 with
        | nil => simp at h2
        | cons v2 s2 =>
          simp only [List.length_cons, Nat.succ.injEq] at h1 h2
          obtain ⟨r, hr, hrs⟩ := ih s1 r2 s2 h1 h2
          have hmin : min (r1.length + 1) (r2.length + 1) = min r1.length r2.length + 1 := by
            omega
          simp only [List.length_cons, hmin, flat_map.less_loop, List.getElem?_cons_zero,
            less_loop_cons, List.zip_cons_cons, entries_less, Nat.add_lt_add_iff_right]
          by_cases c1 : k1 < k2
          · exact ⟨some true, by simp [c1], by simp [c1]⟩
          · by_cases c2 : k1 = k2
            · by_cases c3 : v1 < v2
              · exact ⟨some true, by simp [c1, c2, c3], by simp [c1, c2, c3]⟩
              · by_cases c4 : v1 = v2
                · refine ⟨r, ?_, ?_⟩
                  · simpa [c1, c2, c3, c4] using hr
                  · simpa [c1, c2, c3, c4] using hrs
                · exact ⟨some false, by simp [c1, c2, c3, c4], by simp [c1, c2, c3, c4]⟩
            · exact ⟨some false, by simp [c1, c2], by simp [c1, c2]⟩

theorem equal_loop_spec (ks1 : List K) : ∀ (vs1 : List V) (ks2 : List K) (vs2 : List V),
    ks1.length = vs1.length → ks2.length = vs2.length →
    ∃ r, flat_map.equal_loop ⟨ks1, vs1⟩ ⟨ks2, vs2⟩ (min ks1.length ks2.length) 0 = some r ∧
      (r.getD (decide (ks1.length = ks2.length)) = true ↔ ks1 = ks2 ∧ vs1 = vs2) := by
  induction ks1 with
  | nil =>
    intro vs1 ks2 vs2 h1 h2
    cases vs1 with
    | cons _ _ => simp at h1
    | nil =>
      refine ⟨none, by simp [flat_map.equal_loop], ?_⟩
      cases ks2 with
      | nil =>
        cases vs2 with
        | nil => simp
        | cons _ _ => simp at h2
      | cons k2 r2 => simp
  | cons k1 r1 ih =>
    intro vs1 ks2 vs2 h1 h2
    cases vs1 with
    | nil => simp at h1
    | cons v1 s1 =>
      cases ks2 with
      | nil => exact ⟨none, by simp [flat_map.equal_loop], by simp⟩
      | cons k2 r2 =>
        cases vs2 with
        | nil => simp at h2
        | cons v2 s2 =>
          simp only [List.length_cons, Nat.succ.injEq] at h1 h2
          obtain ⟨r, hr, hrs⟩ := ih s1 r2 s2 h1 h2
          have hmin : min (r1.length + 1) (r2.length + 1) = min r1.length r2.length + 1 := by
            omega
          simp only [List.length_cons, hmin, flat_map.equal_loop, List.getElem?_cons_zero,
            equal_loop_cons, Nat.add_right_cancel_iff, List.cons.injEq]
          by_cases c2 : k1 = k2
          · by_cases c4 : v1 = v2
            · refine ⟨r, ?_, ?_⟩
              · simpa [c2, c4] using hr
              · simpa [c2, c4] using hrs
            · exact ⟨some false, by simp [c2, c4], by simp [c4]⟩
          · exact ⟨some false, by simp [c2], by simp [c2]⟩

theorem operator_lt_spec (a b : flat_map K V) (ha : a.m_keys.length = a.m_values.length)
    (hb : b.m_keys.length = b.m_values.length) :
    a.operator_lt b = some (entries_less a.entries b.entries) := by
  obtain ⟨ks1, vs1⟩ := a
  obtain ⟨ks2, vs2⟩ := b
  simp only at ha hb
  obtain ⟨r, hr, hrs⟩ := less_loop_spec ks1 vs1 ks2 vs2 ha hb
  simp only [flat_map.operator_lt, flat_map.empty, flat_map.size, flat_map.entries, hr]
  cases ks1 with
  | nil =>
    cases ks2 with
    | nil => simp [entries_less]
    | cons k2 r2 =>
      cases vs2 with
      | nil => simp at hb
      | cons v2 s2 => simp [entries_less]
  | cons k1 r1 =>
    cases vs1 with
    | nil => simp at ha
    | cons v1 s1 =>
      cases ks2 with
      | nil => simp [entries_less]
      | cons k2 r2 =>
        simp only [List.isEmpty_cons, Bool.false_eq_true, if_false, Bool.not_false,
          Bool.and_false]
        rw [hrs]
        cases r with
        | none => simp
        | some x => simp

theorem operator_eq_spec (a b : flat_map K V) (ha : a.m_keys.length = a.m_values.length)
    (hb : b.m_keys.length = b.m_values.length) :
    a.operator_eq b = some (decide (a = b)) := by
  obtain ⟨ks1, vs1⟩ := a
  obtain ⟨ks2, vs2⟩ := b
  simp only at ha hb
  obtain ⟨r, hr, hrs⟩ := equal_loop_spec ks1 vs1 ks2 vs2 ha hb
  simp only [flat_map.operator_eq, flat_map.empty, flat_map.size, hr, flat_map.mk.injEq]
  cases ks1 with
  | nil =>
    cases vs1 with
    | cons _ _ => simp at ha
    | nil =>
      cases ks2 with
      | nil =>
        cases vs2 with
        | nil => simp
        | cons _ _ => simp at hb
      | cons _ _ => simp
  | cons k1 r1 =>
    cases ks2 with
    | nil => simp
    | cons k2 r2 =>
      simp only [List.isEmpty_cons, Bool.false_eq_true, if_false, Bool.not_false, Bool.and_false]
      cases r with
      | none =>
        simp only [Option.getD_none, decide_eq_true_eq] at hrs
        simp only [Option.some.injEq, decide_eq_decide]
        exact hrs
      | some x =>
        simp only [Option.getD_some] at hrs
        simp only [Option.some.injEq]
        by_cases hx : x = true
        · rw [hx]; simp [hrs.mp hx]
        · have : ¬ (k1 :: r1 = k2 :: r2 ∧ vs1 = vs2) := fun hc => hx (hrs.mpr hc)
          simp only [Bool.not_eq_true] at hx
          rw [hx]
          simp only [List.cons.injEq, Bool.false_eq, decide_eq_false_iff_not, not_and]
          intro h1 h2
          exact this ⟨by rw [h1.1, h1.2], h2⟩

theorem entries_less_iff_lex (l1 : List (K × V)) : ∀ l2 : List (K × V),
    entries_less l1 l2 = true ↔ List.Lex (Prod.Lex (· < ·) (· < ·)) l1 l2 := by
  induction l1 with
  | nil =>
    intro l2
    cases l2 with
    | nil => simp [entries_less]
    | cons e r => simp [entries_less, List.Lex.nil]
  | cons e1 r1 ih =>
    intro l2
    obtain ⟨k1, v1⟩ := e1
    cases l2 with
    | nil =>
      simp only [entries_less, Bool.false_eq_true, false_iff]
      intro hc; cases hc
    | cons e2 r2 =>
      obtain ⟨k2, v2⟩ := e2
      simp only [entries_less]
      constructor
      · intro hl
        split_ifs at hl with c1 c2 c3 c4
        · exact List.Lex.rel (Prod.Lex.left _ _ c1)
        · simp only [ne_eq, not_not] at c2
          subst c2
          exact List.Lex.rel (Prod.Lex.right _ c3)
        · simp only [ne_eq, not_not] at c2 c4
          subst c2 c4
          exact List.Lex.cons ((ih r2).mp hl)
      · intro hl
        cases hl with
        | cons h =>
          simp [(ih r2).mpr h]
        | rel h =>
          cases h with
          | left _ _ h1 => simp [h1]
          | right _ h2 => simp [h2]

theorem entries_less_trichotomy (l1 : List (K × V)) : ∀ l2 : List (K × V),
    (entries_less l1 l2 = true ∧ l1 ≠ l2 ∧ entries_less l2 l1 = false) ∨
    (entries_less l1 l2 = false ∧ l1 = l2 ∧ entries_less l2 l1 = false) ∨
    (entries_less l1 l2 = false ∧ l1 ≠ l2 ∧ entries_less l2 l1 = true) := by
  induction l1 with
  | nil =>
    intro l2
    cases l2 with
    | nil => simp [entries_less]
    | cons e r => simp [entries_less]
  | cons e1 r1 ih =>
    intro l2
    obtain ⟨k1, v1⟩ := e1
    cases l2 with
    | nil => simp [entries_less]
    | cons e2 r2 =>
      obtain ⟨k2, v2⟩ := e2
      simp only [entries_less]
      rcases lt_trichotomy k1 k2 with c1 | c1 | c1
      · simp [c1, not_lt_of_lt c1, ne_of_lt c1, (ne_of_lt c1).symm]
      · subst c1
        rcases lt_trichotomy v1 v2 with c2 | c2 | c2
        · simp [c2, not_lt_of_lt c2, ne_of_lt c2, (ne_of_lt c2).symm]
        · subst c2
          simpa using ih r2
        · simp [c2, not_lt_of_lt c2, ne_of_lt c2, (ne_of_lt c2).symm]
      · simp [c1, not_lt_of_lt c1, ne_of_lt c1, (ne_of_lt c1).symm]

theorem entries_injective (a b : flat_map K V) (ha : a.m_keys.length = a.m_values.length)
    (hb : b.m_keys.length = b.m_values.length) : a.entries = b.entries ↔ a = b := by
  constructor
  · intro he
    have h1 := List.unzip_zip ha
    have h2 := List.unzip_zip hb
    simp only [flat_map.entries] at he
    rw [he, h2] at h1
    obtain ⟨ks1, vs1⟩ := a
    obtain ⟨ks2, vs2⟩ := b
    simp only [Prod.mk.injEq] at h1
    simp only [flat_map.mk.injEq]
    exact ⟨h1.1.symm, h1.2.symm⟩
  · intro he
    rw [he]

theorem entries_less_append (l : List (K × V)) (t : List (K × V)) (ht : t ≠ []) :
    entries_less l (l ++ t) = true := by
  induction l with
  | nil =>
    cases t with
    | nil => exact absurd rfl ht
    | cons e r => simp [entries_less]
  | cons e r ih =>
    obtain ⟨k, v⟩ := e
    simp [entries_less, ih]

theorem flat_map_ext_index (a b : flat_map K V) (ha : a.m_keys.length = a.m_values.length)
    (hb : b.m_keys.length = b.m_values.length) :
    a = b ↔ a.size = b.size ∧
      ∀ i, i < a.size → a.m_keys[i]? = b.m_keys[i]? ∧ a.m_values[i]? = b.m_values[i]? := by
  constructor
  · intro he
    rw [he]
    exact ⟨rfl, fun _ _ => ⟨rfl, rfl⟩⟩
  · rintro ⟨hsz, hall⟩
    obtain ⟨ks1, vs1⟩ := a
    obtain ⟨ks2, vs2⟩ := b
    simp only [flat_map.size] at hsz hall ha hb
    simp only [flat_map.mk.injEq]
    constructor
    · apply List.ext_getElem?
      intro i
      by_cases hi : i < ks1.length
      · exact (hall i hi).1
      · rw [List.getElem?_eq_none (by omega), List.getElem?_eq_none (by omega)]
    · apply List.ext_getElem?
      intro i
      by_cases hi : i < ks1.length
      · exact (hall i hi).2
      · rw [List.getElem?_eq_none (by omega), List.getElem?_eq_none (by omega)]

/-- C29: the comparison of flat maps is the lexicographic order on their entry sequences.
For maps `a` and `b` that hold as many values as keys, over totally ordered keys and values,
`operator<` and `operator==` return a result; `a == b` is true exactly when the maps have the
same size and equal keys and values at every index, that is when they are equal; `a < b` is
true exactly when the sequence of (key, value) pairs of `a` is lexicographically smaller than
that of `b`, a proper prefix being smaller; and exactly one of `a < b`, `a == b`, `b < a` is
true. -/
theorem flat_map_comparison_lexicographic (a b : flat_map K V)
    (ha : a.m_keys.length = a.m_values.length) (hb : b.m_keys.length = b.m_values.length) :
    ∃ lt eq gt : Bool, a.operator_lt b = some lt ∧ a.operator_eq b = some eq ∧
      b.operator_lt a = some gt ∧
      (eq = true ↔ a.size = b.size ∧
        ∀ i, i < a.size → a.m_keys[i]? = b.m_keys[i]? ∧ a.m_values[i]? = b.m_values[i]?) ∧
      (eq = true ↔ a = b) ∧
      (lt = true ↔ List.Lex (Prod.Lex (· < ·) (· < ·)) a.entries b.entries) ∧
      (∀ t, t ≠ [] → b.entries = a.entries ++ t → lt = true) ∧
      ((lt = true ∧ eq = false ∧ gt = false) ∨ (lt = false ∧ eq = true ∧ gt = false) ∨
        (lt = false ∧ eq = false ∧ gt = true)) := by
  refine ⟨entries_less a.entries b.entries, decide (a = b), entries_less b.entries a.entries,
    operator_lt_spec a b ha hb, operator_eq_spec a b ha hb, operator_lt_spec b a hb ha,
    ?_, by simp, entries_less_iff_lex _ _, ?_, ?_⟩
  · rw [decide_eq_true_eq]
    exact flat_map_ext_index a b ha hb
  · intro t ht he
    rw [he]
    exact entries_less_append _ t ht
  · have hinj := entries_injective a b ha hb
    rcases entries_less_trichotomy a.entries b.entries with ⟨h1, h2, h3⟩ | ⟨h1, h2, h3⟩ |
      ⟨h1, h2, h3⟩
    · left
      refine ⟨h1, ?_, h3⟩
      rw [decide_eq_false_iff_not, ← hinj]
      exact h2
    · right; left
      refine ⟨h1, ?_, h3⟩
      rw [decide_eq_true_eq, ← hinj]
      exact h2
    · right; right
      refine ⟨h1, ?_, h3⟩
      rw [decide_eq_false_iff_not, ← hinj]
      exact h2

theorem flat_map_comparison_lexicographic_witness :
    ((⟨[1, 2], [10, 20]⟩ : flat_map Nat Nat).m_keys.length =
        (⟨[1, 2], [10, 20]⟩ : flat_map Nat Nat).m_values.length ∧
      (⟨[1, 3], [10, 5]⟩ : flat_map Nat Nat).m_keys.length =
        (⟨[1, 3], [10, 5]⟩ : flat_map Nat Nat).m_values.length) ∧
    ∃ lt eq gt : Bool,
      (⟨[1, 2], [10, 20]⟩ : flat_map Nat Nat).operator_lt ⟨[1, 3], [10, 5]⟩ = some lt ∧
      (⟨[1, 2], [10, 20]⟩ : flat_map Nat Nat).operator_eq ⟨[1, 3], [10, 5]⟩ = some eq ∧
      (⟨[1, 3], [10, 5]⟩ : flat_map Nat Nat).operator_lt ⟨[1, 2], [10, 20]⟩ = some gt ∧
      ((lt = true ∧ eq = false ∧ gt = false) ∨ (lt = false ∧ eq = true ∧ gt = false) ∨
        (lt = false ∧ eq = false ∧ gt = true)) :=
  ⟨⟨by decide, by decide⟩,
    (flat_map_comparison_lexicographic (⟨[1, 2], [10, 20]⟩ : flat_map Nat Nat)
      ⟨[1, 3], [10, 5]⟩ (by decide) (by decide)).elim fun lt h1 => h1.elim fun eq h2 =>
        h2.elim fun gt h3 => ⟨lt, eq, gt, h3.1, h3.2.1, h3.2.2.1, h3.2.2.2.2.2.2.2⟩⟩

end flatmap_compare

section subject_thm

variable {K D A R W : Type} [DecidableEq K]

theorem subject_add_absent (s : subject K D A R W) (key : K) (func : D → A → W → R × W)
    (hn : s.m_observers key = none) :
    (s.add key func).2 = true ∧ (s.add key func).1.m_observers key = some ⟨func⟩ ∧
      ∀ k, k ≠ key → (s.add key func).1.m_observers k = s.m_observers k := by
  simp only [subject.add, unordered_map.try_emplace, hn]
  refine ⟨trivial, by simp, ?_⟩
  intro k hk
  simp [hk]

theorem subject_add_present (s : subject K D A R W) (key : K) (func : D → A → W → R × W)
    (o : observer_base D A R W) (ho : s.m_observers key = some o) :
    s.add key func = (s, false) := by
  simp only [subject.add, unordered_map.try_emplace, ho]

/-- C30: `subject` keeps the first observer per key.  `add(key, func)` returns true and
registers `func` (changing no other key) when no observer is registered under `key`, and
returns false leaving the subject as it is otherwise, so a second `add` under the same key is
refused and the first observer stays; `event(key, data)` calls the observer registered under
`key`, and only that one, and reports true with its result when there is one, and reports
false calling no observer when there is none, in particular after `erase(key)`; the same
holds for the `void` specialisation.  (The overload `add(key, obj, method)` is `add` with the
bound method, except that it returns false and registers nothing for a null `obj`.) -/
theorem subject_keeps_first_observer [Inhabited R] :
    (∀ (s : subject K D A R W) key func, s.m_observers key = none →
      (s.add key func).2 = true ∧ (s.add key func).1.m_observers key = some ⟨func⟩ ∧
      ∀ k, k ≠ key → (s.add key func).1.m_observers k = s.m_observers k) ∧
    (∀ (s : subject K D A R W) key func o, s.m_observers key = some o →
      s.add key func = (s, false)) ∧
    (∀ (s : subject K D A R W) key f g, s.m_observers key = none →
      (s.add key f).1.add key g = ((s.add key f).1, false) ∧
      ∀ data args w, (s.add key f).1.event key data args w =
        ((true, (f data args w).1), (f data args w).2)) ∧
    (∀ (s : subject K D A R W) key o data args w, s.m_observers key = some o →
      s.event key data args w = ((true, (o.event data args w).1), (o.event data args w).2)) ∧
    (∀ (s : subject K D A R W) key data args w, s.m_observers key = none →
      s.event key data args w = ((false, default), w)) ∧
    (∀ (s : subject K D A R W) key data args w,
      (s.erase key).event key data args w = ((false, default), w) ∧
      ∀ k, k ≠ key → (s.erase key).m_observers k = s.m_observers k) ∧
    (∀ (s : subject K D A Unit W) key o data args w, s.m_observers key = some o →
      s.event_void key data args w = (true, (o.event data args w).2)) ∧
    (∀ (s : subject K D A Unit W) key data args w, s.m_observers key = none →
      s.event_void key data args w = (false, w)) ∧
    (∀ (s : subject K D A Unit W) key data args w,
      (s.erase key).event_void key data args w = (false, w)) ∧
    (∀ (T : Type) (s : subject K D A R W) key (method : T → D → A → W → R × W),
      s.add_method key none method = (s, false) ∧
      ∀ obj, s.add_method key (some obj) method = s.add key (method obj)) := by
  refine ⟨subject_add_absent, subject_add_present, ?_, ?_, ?_, ?_, ?_, ?_, ?_,
    fun _ _ _ _ => ⟨rfl, fun _ => rfl⟩⟩
  · intro s key f g hn
    obtain ⟨_, h2, _⟩ := subject_add_absent s key f hn
    refine ⟨subject_add_present _ key g _ h2, ?_⟩
    intro data args w
    simp only [subject.event, unordered_map.find, h2]
  · intro s key o data args w ho
    simp only [subject.event, unordered_map.find, ho]
  · intro s key data args w hn
    simp only [subject.event, unordered_map.find, hn]
  · intro s key data args w
    refine ⟨?_, ?_⟩
    · simp [subject.event, unordered_map.find, subject.erase, unordered_map.erase]
    · intro k hk
      simp [subject.erase, unordered_map.erase, hk]
  · intro s key o data args w ho
    simp only [subject.event_void, unordered_map.find, ho, Option.isSome_some]
  · intro s key data args w hn
    simp only [subject.event_void, unordered_map.find, hn, Option.isSome_none]
  · intro s key data args w
    simp [subject.event_void, unordered_map.find, subject.erase, unordered_map.erase]

end subject_thm

section linkinv

variable {K P : Type} [LinearOrder K]

theorem live_root (h : Heap K P) : Live h m_root := ⟨[], walk_nil h⟩

theorem dead_get (h : Heap K P) (hl : Link h) (i : Nat) (hi : ¬ Live h i) (a : K) :
    trie_node.get h i a = none := by
  rw [get_eq_child_of, (hl.dead i hi).1]
  rfl

theorem live_of_get (h : Heap K P) (hl : Link h) (i : Nat) (a : K) (c : Nat)
    (hg : trie_node.get h i a = some c) : Live h i := by
  by_contra hn
  rw [dead_get h hl i hn a] at hg
  cases hg

theorem root_chain (h : Heap K P) (hl : Link h) (n : Nat) : fail_chain h m_root n = m_root := by
  induction n with
  | zero => rfl
  | succ n ih => rw [fail_chain_succ', ih, hl.root]

theorem dead_chain (h : Heap K P) (hl : Link h) (d : Nat) (hd : ¬ Live h d) (n : Nat) :
    fail_chain h d (n + 1) = m_root := by
  rw [fail_chain_succ, (hl.dead d hd).2]
  exact root_chain h hl n

/-- From a node on the path `ps`, every object of the failure chain is a node on a suffix of
`ps` or an object that is on no path. -/
theorem link_chain_path (h : Heap K P) (hl : Link h) (ps : List K) (s : Nat)
    (hs : walk h ps = some s) (n : Nat) :
    (∃ q, q.length ≤ ps.length ∧ q <:+ ps ∧ walk h q = some (fail_chain h s n)) ∨
      ¬ Live h (fail_chain h s n) := by
  induction n with
  | zero => exact Or.inl ⟨ps, le_refl _, List.suffix_refl _, hs⟩
  | succ n ih =>
    rw [fail_chain_succ']
    rcases ih with ⟨q, hq1, hq2, hq3⟩ | hdead
    · by_cases hq : q = []
      · subst hq
        simp only [walk_nil, Option.some.injEq] at hq3
        rw [← hq3, hl.root]
        exact Or.inl ⟨[], by simp, List.nil_suffix, walk_nil h⟩
      · rcases hl.link q _ hq hq3 with ⟨q', h1, h2, h3⟩ | ⟨_, h1⟩
        · exact Or.inl ⟨q', by omega, h2.trans hq2, h3⟩
        · exact Or.inr h1
    · rw [(hl.dead _ hdead).2]
      exact Or.inl ⟨[], by simp, List.nil_suffix, walk_nil h⟩

/-- From the failure-link of a node on the non-empty path `px`, every object of the failure
chain is a node on a strictly shorter suffix of `px` or an object that is on no path. -/
theorem link_chain_from_fail (h : Heap K P) (hl : Link h) (px : List K) (x : Nat)
    (hpx : px ≠ []) (hx : walk h px = some x) (n : Nat) :
    (∃ q, q.length < px.length ∧ q <:+ px ∧
        walk h q = some (fail_chain h (fail_of h x) n)) ∨
      ¬ Live h (fail_chain h (fail_of h x) n) := by
  have hpos : 0 < px.length := List.length_pos.mpr hpx
  rcases hl.link px x hpx hx with ⟨q, hq1, hq2, hq3⟩ | ⟨_, hdead⟩
  · rcases link_chain_path h hl q _ hq3 n with ⟨q', h1, h2, h3⟩ | h1
    · exact Or.inl ⟨q', by omega, h2.trans hq2, h3⟩
    · exact Or.inr h1
  · cases n with
    | zero => exact Or.inr hdead
    | succ n =>
      rw [dead_chain h hl _ hdead n]
      exact Or.inl ⟨[], hpos, List.nil_suffix, walk_nil h⟩

/-- Every failure chain reaches the root. -/
theorem link_chain_root (h : Heap K P) (hl : Link h) (s : Nat) :
    ∃ m, fail_chain h s m = m_root := by
  have hlive : ∀ (n : Nat) (ps : List K) (s : Nat), ps.length ≤ n → walk h ps = some s →
      ∃ m, fail_chain h s m = m_root := by
    intro n
    induction n with
    | zero =>
      intro ps s hlen hs
      have : ps = [] := List.length_eq_zero.mp (Nat.le_zero.mp hlen)
      subst this
      simp only [walk_nil, Option.some.injEq] at hs
      exact ⟨0, hs.symm⟩
    | succ n ih =>
      intro ps s hlen hs
      by_cases hp : ps = []
      · subst hp
        simp only [walk_nil, Option.some.injEq] at hs
        exact ⟨0, hs.symm⟩
      · rcases hl.link ps s hp hs with ⟨q, h1, _, h3⟩ | ⟨_, hdead⟩
        · obtain ⟨m, hm⟩ := ih q _ (by omega) h3
          exact ⟨m + 1, by rw [fail_chain_succ]; exact hm⟩
        · exact ⟨2, by rw [fail_chain_succ]; exact dead_chain h hl _ hdead 0⟩
  by_cases hs : Live h s
  · obtain ⟨ps, hps⟩ := hs
    exact hlive ps.length ps s (le_refl _) hps
  · exact ⟨1, dead_chain h hl s hs 0⟩

theorem link_new : Link (ac_trie.new : Heap K P) := by
  have hnode : ∀ j, (ac_trie.new : Heap K P).node j = ⟨m_root, [], none⟩ := by
    intro j
    unfold Heap.node ac_trie.new
    cases j <;> rfl
  refine ⟨rfl, ?_, ?_, ?_⟩
  · intro i
    simp only [fail_of, hnode]
    simp [ac_trie.new, m_root]
  · intro i _
    exact ⟨by rw [hnode], by simp only [fail_of, hnode]⟩
  · intro p x hp hx
    have := (new_walk (P := P) p).mp (by rw [hx]; rfl)
    exact absurd this hp

/-- A new edge to a new object whose failure-link is the root keeps the invariant. -/
theorem link_fresh_edge (h h' : Heap K P) (hw : WF h) (hl : Link h) (i : Nat) (k : K)
    (nc : trie_node K P) (hnc : nc.m_children = []) (hnf : nc.m_fail = m_root)
    (hfe : FreshEdge h h' i k nc) (hn : trie_node.get h i k = none)
    (p0 : List K) (hp0 : walk h p0 = some i) : Link h' := by
  have hi := walk_valid h hw p0 i hp0
  have hg := fresh_edge_get h h' hw i hi k nc hnc hfe hn
  have hwalk := walk_fresh_edge h h' i h.length k hg hn (Nat.ne_of_gt hi)
    (fun a => get_of_length_le h _ (le_refl _) a)
  have hfail : ∀ j, j ≠ h.length → fail_of h' j = fail_of h j := by
    intro j hj
    simp only [fail_of]
    by_cases hji : j = i
    · subst hji; rw [hfe.at_i]
    · rw [hfe.others j hji hj]
  have hfc : fail_of h' h.length = m_root := by
    simp only [fail_of]
    rw [hfe.at_c, hnf]
  have hlive : ∀ x, Live h' x → Live h x ∨ x = h.length := by
    rintro x ⟨p, hp⟩
    rcases (hwalk p x).mp hp with h1 | ⟨h1, _⟩
    · exact Or.inl ⟨p, h1⟩
    · exact Or.inr h1
  have hlive' : ∀ x, Live h x → Live h' x := by
    rintro x ⟨p, hp⟩
    exact ⟨p, (hwalk p x).mpr (Or.inl hp)⟩
  have hcl : Live h' h.length := ⟨p0 ++ [k], (hwalk _ _).mpr (Or.inr ⟨rfl, p0, rfl, hp0⟩)⟩
  refine ⟨?_, ?_, ?_, ?_⟩
  · rw [hfail m_root (Nat.ne_of_lt hw.pos)]
    exact hl.root
  · intro j
    rw [hfe.len]
    by_cases hj : j = h.length
    · rw [hj, hfc]
      have := hw.pos
      unfold m_root
      omega
    · rw [hfail j hj]
      have := hl.valid j
      omega
  · intro j hj
    have hjL : j ≠ h.length := fun hc => hj (hc ▸ hcl)
    have hjd : ¬ Live h j := fun hc => hj (hlive' j hc)
    have hji : j ≠ i := fun hc => hjd (hc ▸ ⟨p0, hp0⟩)
    rw [hfail j hjL, hfe.others j hji hjL]
    exact hl.dead j hjd
  · intro p x hp hx
    rcases (hwalk p x).mp hx with h1 | ⟨h1, _⟩
    · have hxL : x ≠ h.length := Nat.ne_of_lt (walk_valid h hw p x h1)
      rw [hfail x hxL]
      rcases hl.link p x hp h1 with ⟨q, hq1, hq2, hq3⟩ | ⟨h2, hdead⟩
      · exact Or.inl ⟨q, hq1, hq2, (hwalk q _).mpr (Or.inl hq3)⟩
      · right
        refine ⟨h2, ?_⟩
        intro hc
        rcases hlive _ hc with h3 | h3
        · exact hdead h3
        · have := hl.valid x
          omega
    · rw [h1, hfc]
      exact Or.inl ⟨[], List.length_pos.mpr hp, List.nil_suffix, walk_nil h'⟩

/-- A promotion keeps the invariant: the failure-links that led to the old object now lead to
an object that is on no path. -/
theorem link_promote (h h' : Heap K P) (hw : WF h) (hl : Link h) (i : Nat) (k : K) (o : Nat)
    (v : P) (hpr : Promote h h' i k o v) (hg : trie_node.get h i k = some o)
    (p0 : List K) (hp0 : walk h p0 = some i) : Link h' := by
  have hi := walk_valid h hw p0 i hp0
  have hov := get_valid h hw i k o hg
  have hpo : walk h (p0 ++ [k]) = some o := (walk_snoc_some h p0 k o).mpr ⟨i, hp0, hg⟩
  have hoi : o ≠ i := by
    intro hc
    rw [hc] at hpo
    have := hw.walk_inj _ _ _ hpo hp0
    simp at this
  have hwalk := walk_promote h h' hw i k o v hpr hg p0 hp0
  have hfail : ∀ j, j ≠ h.length → j ≠ o → fail_of h' j = fail_of h j := by
    intro j hj hjo
    simp only [fail_of]
    by_cases hji : j = i
    · subst hji; rw [hpr.at_i]
    · rw [hpr.others j hji hj hjo]
  have hfc : fail_of h' h.length = fail_of h o := by
    simp only [fail_of]
    rw [hpr.at_c]
  have hfo : fail_of h' o = m_root := by
    simp only [fail_of]
    rw [hpr.at_o]
  have hw' : ∀ p x, walk h' p = some x →
      ∃ y, walk h p = some y ∧ x = promote_map o h.length y := by
    intro p x hp
    rw [hwalk] at hp
    cases hy : walk h p with
    | none => rw [hy] at hp; cases hp
    | some y =>
      rw [hy] at hp
      simp only [Option.map_some', Option.some.injEq] at hp
      exact ⟨y, rfl, hp.symm⟩
  have hkeep : ∀ p x, walk h p = some x → x ≠ o → walk h' p = some x := by
    intro p x hp hxo
    rw [hwalk, hp]
    simp [promote_map, hxo]
  have hodead : ¬ Live h' o := by
    rintro ⟨p, hp⟩
    obtain ⟨y, hy, he⟩ := hw' p o hp
    simp only [promote_map] at he
    split_ifs at he with h1
    · omega
    · exact h1 he.symm
  have hlive : ∀ x, Live h' x → x = h.length ∨ Live h x := by
    rintro x ⟨p, hp⟩
    obtain ⟨y, hy, he⟩ := hw' p x hp
    simp only [promote_map] at he
    split_ifs at he with h1
    · exact Or.inl he
    · exact Or.inr ⟨p, he ▸ hy⟩
  have hcl : Live h' h.length := ⟨p0 ++ [k], by rw [hwalk, hpo]; simp [promote_map]⟩
  have h0L : m_root ≠ h.length := Nat.ne_of_lt hw.pos
  refine ⟨?_, ?_, ?_, ?_⟩
  · rw [hfail m_root h0L (Ne.symm hov.1)]
    exact hl.root
  · intro j
    rw [hpr.len]
    by_cases hj : j = h.length
    · rw [hj, hfc]
      have := hl.valid o
      omega
    · by_cases hjo : j = o
      · rw [hjo, hfo]
        have := hw.pos
        unfold m_root
        omega
      · rw [hfail j hj hjo]
        have := hl.valid j
        omega
  · intro j hj
    have hjL : j ≠ h.length := fun hc => hj (hc ▸ hcl)
    by_cases hjo : j = o
    · subst hjo
      refine ⟨?_, hfo⟩
      rw [hpr.at_o]
    · have hjd : ¬ Live h j := by
        rintro ⟨p, hp⟩
        exact hj ⟨p, hkeep p j hp hjo⟩
      have hji : j ≠ i := fun hc => hjd (hc ▸ ⟨p0, hp0⟩)
      rw [hfail j hjL hjo, hpr.others j hji hjL hjo]
      exact hl.dead j hjd
  · intro p x hp hx
    obtain ⟨y, hy, he⟩ := hw' p x hx
    have hnotlive : ∀ z, ¬ Live h z → z < h.length → ¬ Live h' z := by
      intro z hz hzl hc
      rcases hlive z hc with h3 | h3
      · omega
      · exact hz h3
    have hcase : ∀ f, fail_of h' x = f →
        ((∃ q, q.length < p.length ∧ q <:+ p ∧ walk h q = some f) ∨
          (2 ≤ p.length ∧ ¬ Live h f)) → f < h.length →
        (∃ q, q.length < p.length ∧ q <:+ p ∧ walk h' q = some (fail_of h' x)) ∨
          (2 ≤ p.length ∧ ¬ Live h' (fail_of h' x)) := by
      intro f hf hlk hfv
      rw [hf]
      rcases hlk with ⟨q, hq1, hq2, hq3⟩ | ⟨h2, hdead⟩
      · by_cases hfo' : f = o
        · right
          rw [hfo']
          refine ⟨?_, hodead⟩
          have hq : q ≠ [] := by
            intro hc
            rw [hc, walk_nil, hfo'] at hq3
            exact hov.1 (Option.some.inj hq3).symm
          have := List.length_pos.mpr hq
          omega
        · exact Or.inl ⟨q, hq1, hq2, hkeep q f hq3 hfo'⟩
      · exact Or.inr ⟨h2, hnotlive f hdead hfv⟩
    by_cases hyo : y = o
    · have hxL : x = h.length := by rw [he, hyo]; simp [promote_map]
      apply hcase (fail_of h o) (by rw [hxL, hfc]) _ (hl.valid o)
      rw [hyo] at hy
      exact hl.link p o hp hy
    · have hxy : x = y := by rw [he]; simp [promote_map, hyo]
      have hyL : y ≠ h.length := Nat.ne_of_lt (walk_valid h hw p y hy)
      apply hcase (fail_of h y) (by rw [hxy, hfail y hyL hyo]) _ (hl.valid y)
      exact hl.link p y hp hy

theorem descend_link (ks : List K) : ∀ (h : Heap K P) (s : Nat) (p0 : List K), WF h →
    Link h → walk h p0 = some s → Link (ac_trie.add_descend h s ks).1 := by
  induction ks with
  | nil =>
    intro h s p0 _ hl _
    exact hl
  | cons a rest ih =>
    intro h s p0 hw hl hs
    have hsv := walk_valid h hw p0 s hs
    simp only [ac_trie.add_descend]
    cases hg : trie_node.get h s a with
    | some c =>
      rw [add_found h s a m_root c hg]
      have hc : walk h (p0 ++ [a]) = some c := (walk_snoc_some h p0 a c).mpr ⟨s, hs, hg⟩
      exact ih h c (p0 ++ [a]) hw hl hc
    | none =>
      have hfe := add_new_fresh_edge h s hsv a m_root hg
      have hsnd := add_new_snd h s a m_root hg
      have hw1 := fresh_edge_wf h _ hw s hsv a _ rfl hfe hg
      have hl1 := link_fresh_edge h _ hw hl s a _ rfl rfl hfe hg p0 hs
      have hg1 := fresh_edge_get h _ hw s hsv a _ rfl hfe hg
      have hwalk := walk_fresh_edge h _ s h.length a hg1 hg (Nat.ne_of_gt hsv)
        (fun b => get_of_length_le h _ (le_refl _) b)
      have hc : walk (trie_node.add h s a m_root).1 (p0 ++ [a]) =
          some (trie_node.add h s a m_root).2 := by
        rw [hsnd, hwalk]
        exact Or.inr ⟨rfl, p0, rfl, hs⟩
      exact ih _ _ (p0 ++ [a]) hw1 hl1 hc

/-- The method `add` keeps the failure-link invariant. -/
theorem link_add (h : Heap K P) (hw : WF h) (hl : Link h) (w : List K) (v : P) :
    Link (ac_trie.add h w v) := by
  by_cases hne : w = []
  · subst hne
    rw [add_nil]
    exact hl
  obtain ⟨ks, last, rfl⟩ : ∃ ks last, w = ks ++ [last] :=
    ⟨w.dropLast, w.getLast hne, (List.dropLast_append_getLast hne).symm⟩
  rw [add_snoc]
  obtain ⟨d1, d2, _, _, _, _⟩ := descend_spec ks h m_root [] hw (walk_nil h)
  have dl := descend_link ks h m_root [] hw hl (walk_nil h)
  simp only [List.nil_append] at d2
  generalize (ac_trie.add_descend h m_root ks).1 = h1 at d1 d2 dl ⊢
  generalize (ac_trie.add_descend h m_root ks).2 = parent at d2 ⊢
  have hpv := walk_valid h1 d1 ks parent d2
  cases hg : trie_node.get h1 parent last with
  | none =>
    have hfe := add_shim_new h1 parent hpv last v hg
    exact link_fresh_edge h1 _ d1 dl parent last _ rfl rfl hfe hg ks d2
  | some o =>
    have hov := get_valid h1 d1 parent last o hg
    have hpo : walk h1 (ks ++ [last]) = some o :=
      (walk_snoc_some h1 ks last o).mpr ⟨parent, d2, hg⟩
    have hoi : o ≠ parent := by
      intro hc
      rw [hc] at hpo
      have := d1.walk_inj _ _ _ hpo d2
      simp at this
    have hpr := add_shim_promote h1 parent hpv last v o hov.2 hoi hg
    exact link_promote h1 _ d1 dl parent last o v hpr hg ks d2

end linkinv

section linkcompile

variable {K P : Type} [LinearOrder K]

theorem compile_loop_trace_fst (fuel : Nat) :
    ∀ (h : Heap K P) (queue : List (trie_node_shim K)),
      ac_trie.compile_loop fuel h queue =
        (ac_trie.compile_loop_trace fuel h queue).map Prod.fst := by
  induction fuel with
  | zero =>
    intro h queue
    cases queue <;> rfl
  | succ n ih =>
    intro h queue
    cases queue with
    | nil => rfl
    | cons shim rest =>
      simp only [ac_trie.compile_loop, ac_trie.compile_loop_trace]
      cases hv : trie_node.visit (h.node shim.node).m_fail (h, rest)
          (h.node shim.node).m_children with
      | none => rfl
      | some s =>
        simp only
        rw [ih]
        cases ac_trie.compile_loop_trace n s.1 s.2 <;> rfl

theorem compile_trace_fst (h : Heap K P) :
    ac_trie.compile h = (ac_trie.compile_trace h).map Prod.fst :=
  compile_loop_trace_fst _ _ _

/-- One call of `compile_visitor::visit` for the child `c` along `k` of the node `x`, on an
arena that satisfies the failure-link invariant. -/
theorem visit_link (h0 h : Heap K P) (hw0 : WF h0) (hsk : Skel h0 h) (hl : Link h)
    (px : List K) (x : Nat) (k : K) (c : Nat) (hpx : px ≠ [])
    (hx : walk h0 px = some x) (hc : trie_node.get h0 x k = some c)
    (queue : List (trie_node_shim K)) :
    ∃ h', compile_visitor.visit (fail_of h x) (h, queue) ⟨k, c⟩ =
        some (h', queue ++ [⟨k, c⟩]) ∧
      Skel h0 h' ∧ Link h' ∧ (∀ y, y ≠ c → fail_of h' y = fail_of h y) ∧ x ≠ c ∧
      GoodFail h0 h' c := by
  have hw : WF h := skel_wf h0 h hsk hw0
  have hwalk : ∀ p, walk h p = walk h0 p := skel_walk h0 h hsk
  have hget : ∀ j a, trie_node.get h j a = trie_node.get h0 j a := skel_get h0 h hsk
  have hx' : walk h px = some x := by rw [hwalk]; exact hx
  have hc' : trie_node.get h x k = some c := by rw [hget]; exact hc
  have hpc : walk h (px ++ [k]) = some c := (walk_snoc_some h px k c).mpr ⟨x, hx', hc'⟩
  have hcv := get_valid h hw x k c hc'
  obtain ⟨m0, hm0⟩ := link_chain_root h hl (fail_of h x)
  obtain ⟨m, hm, hmb⟩ := chain_root_bound h _ ⟨m0, hm0⟩
  obtain ⟨r, hr, hrcase⟩ := loop_terminates h k hl.root m (h.length + 2) (fail_of h x) m_root hm
    (by omega)
  have hxc : x ≠ c := by
    intro hxc
    rw [← hxc] at hpc
    have := hw.walk_inj _ _ _ hpc hx'
    simp at this
  have h0c : m_root ≠ c := Ne.symm hcv.1
  have hsk' : Skel h (h.set c { h.node c with m_fail := r }) := skel_set_fail h c r
  have hfo : ∀ j, j ≠ c → fail_of (h.set c { h.node c with m_fail := r }) j = fail_of h j := by
    intro j hj
    simp only [fail_of]
    rw [node_set, if_neg (fun hcj => hj hcj.1.symm)]
  have hfc : fail_of (h.set c { h.node c with m_fail := r }) c = r := by
    simp only [fail_of]
    rw [node_set, if_pos ⟨rfl, hcv.2⟩]
  have hrpath : ∃ q : List K, q.length < (px ++ [k]).length ∧ q <:+ px ++ [k] ∧
      walk h q = some r := by
    have hroot : ∃ q : List K, q.length < (px ++ [k]).length ∧ q <:+ px ++ [k] ∧
        walk h q = some m_root := ⟨[], by simp, List.nil_suffix, rfl⟩
    rcases hrcase with h1 | h1 | ⟨j, hj⟩
    · rw [h1]; exact hroot
    · rw [h1]; exact hroot
    · rcases link_chain_from_fail h hl px x hpx hx' j with ⟨q, hq1, hq2, hq3⟩ | hdead
      · refine ⟨q ++ [k], ?_, suffix_snoc _ _ k hq2, (walk_snoc_some h q k r).mpr ⟨_, hq3, hj⟩⟩
        simp only [List.length_append, List.length_singleton]
        omega
      · exact absurd (live_of_get h hl _ k r hj) hdead
  have hwalk' : ∀ p, walk (h.set c { h.node c with m_fail := r }) p = walk h p :=
    skel_walk h _ hsk'
  have hlive' : ∀ z, Live (h.set c { h.node c with m_fail := r }) z ↔ Live h z := by
    intro z
    constructor
    · rintro ⟨p, hp⟩; exact ⟨p, by rw [← hwalk']; exact hp⟩
    · rintro ⟨p, hp⟩; exact ⟨p, by rw [hwalk']; exact hp⟩
  have hrv : r < h.length := by
    obtain ⟨q, _, _, hq⟩ := hrpath
    exact walk_valid h hw q r hq
  refine ⟨h.set c { h.node c with m_fail := r }, ?_, skel_trans _ _ _ hsk hsk', ?_, hfo, hxc, ?_⟩
  · simp only [compile_visitor.visit, hr]
  · refine ⟨?_, ?_, ?_, ?_⟩
    · rw [hfo _ h0c]; exact hl.root
    · intro j
      rw [hsk'.1]
      by_cases hj : j = c
      · rw [hj, hfc]; exact hrv
      · rw [hfo j hj]; exact hl.valid j
    · intro j hj
      rw [hlive'] at hj
      have hjc : j ≠ c := fun hcj => hj (hcj ▸ ⟨px ++ [k], hpc⟩)
      rw [hfo j hjc, (hsk'.2 j).1]
      exact hl.dead j hj
    · intro p y hp hy
      rw [hwalk'] at hy
      by_cases hyc : y = c
      · subst hyc
        have hpe := hw.walk_inj _ _ _ hy hpc
        subst hpe
        rw [hfc]
        obtain ⟨q, hq1, hq2, hq3⟩ := hrpath
        exact Or.inl ⟨q, hq1, hq2, by rw [hwalk']; exact hq3⟩
      · rw [hfo y hyc]
        rcases hl.link p y hp hy with ⟨q, hq1, hq2, hq3⟩ | ⟨h2, hdead⟩
        · exact Or.inl ⟨q, hq1, hq2, by rw [hwalk']; exact hq3⟩
        · exact Or.inr ⟨h2, by rw [hlive']; exact hdead⟩
  · intro p hp
    rw [← hwalk] at hp
    have hpe := hw.walk_inj _ _ _ hp hpc
    subst hpe
    rw [hfc]
    obtain ⟨q, hq1, hq2, hq3⟩ := hrpath
    exact ⟨q, hq1, hq2, by rw [← hwalk]; exact hq3⟩

/-- The call `node->visit(compile_visitor(...))` of `ac_trie::compile` on the node `x`. -/
theorem node_visit_link (h0 : Heap K P) (hw0 : WF h0) (px : List K) (x : Nat) (hpx : px ≠ [])
    (hx : walk h0 px = some x) (f : Nat) :
    ∀ (todo : List (trie_node_shim K)) (h : Heap K P) (queue : List (trie_node_shim K)),
      (∀ s ∈ todo, trie_node.get h0 x s.key = some s.node) →
      Skel h0 h → Link h → fail_of h x = f →
      ∃ h', trie_node.visit f (h, queue) todo = some (h', queue ++ todo) ∧
        Skel h0 h' ∧ Link h' ∧ (∀ y, GoodFail h0 h y → GoodFail h0 h' y) ∧
        (∀ s ∈ todo, GoodFail h0 h' s.node) := by
  intro todo
  induction todo with
  | nil =>
    intro h queue _ hsk hl _
    exact ⟨h, by simp [trie_node.visit], hsk, hl, fun _ hy => hy, by simp⟩
  | cons s rest ih =>
    intro h queue hch hsk hl hfx
    obtain ⟨k, c⟩ := s
    have hc : trie_node.get h0 x k = some c := hch ⟨k, c⟩ (List.mem_cons_self _ _)
    obtain ⟨h1, hv, hsk1, hl1, hfo1, hxc, hgc⟩ :=
      visit_link h0 h hw0 hsk hl px x k c hpx hx hc queue
    rw [hfx] at hv
    have hkeep1 : ∀ y, GoodFail h0 h y → GoodFail h0 h1 y := by
      intro y hy
      by_cases hyc : y = c
      · rw [hyc]; exact hgc
      · intro p hp
        rw [hfo1 y hyc]
        exact hy p hp
    obtain ⟨h2, hv2, hsk2, hl2, hkeep2, hall2⟩ :=
      ih h1 (queue ++ [⟨k, c⟩]) (fun s hs => hch s (List.mem_cons_of_mem _ hs)) hsk1 hl1
        (by rw [hfo1 x hxc, hfx])
    refine ⟨h2, ?_, hsk2, hl2, fun y hy => hkeep2 y (hkeep1 y hy), ?_⟩
    · simp only [trie_node.visit, hv, hv2]
      simp
    · intro s hs
      rcases List.mem_cons.mp hs with h3 | h3
      · rw [h3]
        exact hkeep2 c hgc
      · exact hall2 s h3

/-- The `while(!queue.empty())` loop of `ac_trie::compile` on an arena that satisfies the
failure-link invariant: it ends, takes each queued node and each node below from the queue,
and leaves every node it has queued with a failure-link to a strictly shorter suffix. -/
theorem compile_loop_link (h0 : Heap K P) (hw0 : WF h0) (fuel : Nat) :
    ∀ (h : Heap K P) (queue : List (trie_node_shim K)) (Dp Qp : List (List K)),
      PInv h0 Dp Qp →
      List.Forall₂ (fun p (s : trie_node_shim K) => walk h0 p = some s.node) Qp queue →
      Skel h0 h → Link h →
      (∀ p ∈ Dp ++ Qp, ∀ y, walk h0 p = some y → GoodFail h0 h y) →
      h0.length ≤ Dp.length + fuel →
      ∃ h' Rp, ac_trie.compile_loop_trace fuel h queue =
          some (h', Rp.map fun p => (walk h0 p).getD 0) ∧
        Skel h0 h' ∧ Link h' ∧ PInv h0 (Dp ++ Rp) [] ∧
        (∀ p ∈ Dp ++ Rp, ∀ y, walk h0 p = some y → GoodFail h0 h' y) := by
  induction fuel with
  | zero =>
    intro h queue Dp Qp hpi hq hsk hl hgood hfuel
    rcases Qp with _ | ⟨px, Qrest⟩
    · rw [List.forall₂_nil_left_iff] at hq
      subst hq
      refine ⟨h, [], by simp [ac_trie.compile_loop_trace], hsk, hl, by simpa using hpi, ?_⟩
      simpa using hgood
    · have hcount := count_paths h0 hw0 (Dp ++ [px])
        (by
          have := hpi.nodup
          rw [List.nodup_append] at this ⊢
          refine ⟨this.1, by simp, ?_⟩
          intro a ha hb
          simp only [List.mem_singleton] at hb
          subst hb
          exact this.2.2 ha (List.mem_cons_self _ _))
        (by
          intro p hp
          apply hpi.valid p
          simp only [List.mem_append, List.mem_singleton] at hp
          simp only [List.mem_append, List.mem_cons]
          tauto)
      simp only [List.length_append, List.length_singleton] at hcount
      omega
  | succ n ih =>
    intro h queue Dp Qp hpi hq hsk hl hgood hfuel
    rcases Qp with _ | ⟨px, Qrest⟩
    · rw [List.forall₂_nil_left_iff] at hq
      subst hq
      refine ⟨h, [], by simp [ac_trie.compile_loop_trace], hsk, hl, by simpa using hpi, ?_⟩
      simpa using hgood
    · rcases queue with _ | ⟨shim, rest⟩
      · cases hq
      rw [List.forall₂_cons] at hq
      obtain ⟨hps, hrest⟩ := hq
      have hpxv := hpi.valid px (by simp)
      have hch : (h.node shim.node).m_children = (h0.node shim.node).m_children :=
        (hsk.2 shim.node).1
      have hchild : ∀ s ∈ (h0.node shim.node).m_children,
          trie_node.get h0 shim.node s.key = some s.node :=
        fun s hs => (get_some_iff h0 hw0 shim.node s.key s.node).mpr hs
      obtain ⟨h1, hv, hsk1, hl1, hkeep1, hall1⟩ :=
        node_visit_link h0 hw0 px shim.node hpxv.1 hps (fail_of h shim.node)
          (h0.node shim.node).m_children h rest hchild hsk hl rfl
      have hpi1 := pinv_step h0 hw0 Dp Qrest px shim.node hps hpi
      have hq1 : List.Forall₂ (fun p (s : trie_node_shim K) => walk h0 p = some s.node)
          (Qrest ++ child_paths px (h0.node shim.node).m_children)
          (rest ++ (h0.node shim.node).m_children) := by
        apply List.rel_append hrest
        apply forall₂_child_paths
        intro s hs
        rw [walk_snoc_some]
        exact ⟨shim.node, hps, hchild s hs⟩
      have hgood1 : ∀ p ∈ (Dp ++ [px]) ++
          (Qrest ++ child_paths px (h0.node shim.node).m_children),
          ∀ y, walk h0 p = some y → GoodFail h0 h1 y := by
        intro p hp y hy
        simp only [List.mem_append, List.mem_singleton] at hp
        rcases hp with (hp | hp) | hp | hp
        · exact hkeep1 y (hgood p (List.mem_append_left _ hp) y hy)
        · exact hkeep1 y (hgood p (by rw [hp]; simp) y hy)
        · exact hkeep1 y (hgood p (by simp [hp]) y hy)
        · obtain ⟨s, hs, rfl⟩ := (mem_child_paths px _ p).mp hp
          have hys : walk h0 (px ++ [s.key]) = some s.node :=
            (walk_snoc_some h0 px s.key s.node).mpr ⟨shim.node, hps, hchild s hs⟩
          rw [hys] at hy
          cases hy
          exact hall1 s hs
      obtain ⟨h2, Rp, hc2, hsk2, hl2, hpi2, hgood2⟩ :=
        ih h1 _ (Dp ++ [px]) _ hpi1 hq1 hsk1 hl1 hgood1
          (by simp only [List.length_append, List.length_singleton]; omega)
      refine ⟨h2, px :: Rp, ?_, hsk2, hl2, by simpa using hpi2, ?_⟩
      · simp only [ac_trie.compile_loop_trace, hch]
        have hv' : trie_node.visit (h.node shim.node).m_fail (h, rest)
            (h0.node shim.node).m_children = some (h1, rest ++ (h0.node shim.node).m_children) :=
          hv
        rw [hv']
        simp only [hc2, List.map_cons, hps, Option.getD_some]
      · intro p hp
        apply hgood2 p
        simpa using hp

/-- On an arena that satisfies the failure-link invariant `compile` ends: the breadth-first
pass takes every node other than the root from the queue exactly once, and it leaves every
node with a failure-link to the node on a strictly shorter suffix of its path. -/
theorem compile_link (h0 : Heap K P) (hw0 : WF h0) (hl : Link h0) :
    ∃ h' order, ac_trie.compile_trace h0 = some (h', order) ∧ ac_trie.compile h0 = some h' ∧
      Skel h0 h' ∧ Link h' ∧ SuffixFail h' ∧ order.Nodup ∧
      ∀ x, x ∈ order ↔ ∃ p, p ≠ [] ∧ walk h0 p = some x := by
  have hinit : ∀ p ∈ ([] : List (List K)) ++ child_paths [] (h0.node m_root).m_children,
      ∀ y, walk h0 p = some y → GoodFail h0 h0 y := by
    intro p hp y hy p' hp'
    simp only [List.nil_append] at hp
    obtain ⟨s, _, rfl⟩ := (mem_child_paths [] _ p).mp hp
    have hpe := hw0.walk_inj _ _ _ hp' hy
    subst hpe
    rcases hl.link _ y (by simp) hy with h1 | ⟨h2, _⟩
    · exact h1
    · simp at h2
  obtain ⟨h', Rp, hc, hsk, hl', hpi, hgood⟩ :=
    compile_loop_link h0 hw0 h0.length h0 (h0.node m_root).m_children [] _
      (pinv_init h0 hw0)
      (by
        apply forall₂_child_paths
        intro s hs
        rw [walk_snoc_some]
        exact ⟨m_root, walk_nil h0, (get_some_iff h0 hw0 m_root s.key s.node).mpr hs⟩)
      (skel_refl h0) hl hinit (by simp)
  simp only [List.nil_append] at hpi hgood
  have hvalid : ∀ p ∈ Rp, p ≠ [] ∧ (walk h0 p).isSome := by
    intro p hp
    exact hpi.valid p (by simpa using hp)
  have hnd : Rp.Nodup := by simpa using hpi.nodup
  have hfinal := pinv_final h0 Rp hpi
  refine ⟨h', _, hc, ?_, hsk, hl', ?_, ?_, ?_⟩
  · rw [compile_trace_fst]
    unfold ac_trie.compile_trace
    rw [hc]
    rfl
  · intro p x hp hx
    rw [skel_walk h0 h' hsk] at hx
    have hpR := hfinal p.length p (le_refl _) hp (by rw [hx]; rfl)
    obtain ⟨q, hq1, hq2, hq3⟩ := hgood p hpR x hx p hx
    exact ⟨q, hq1, hq2, by rw [skel_walk h0 h' hsk]; exact hq3⟩
  · apply List.Nodup.map_on _ hnd
    intro p hp q hq he
    obtain ⟨x, hx⟩ := Option.isSome_iff_exists.mp (hvalid p hp).2
    obtain ⟨y, hy⟩ := Option.isSome_iff_exists.mp (hvalid q hq).2
    rw [hx, hy] at he
    simp only [Option.getD_some] at he
    rw [he] at hx
    exact hw0.walk_inj p q y hx hy
  · intro x
    simp only [List.mem_map]
    constructor
    · rintro ⟨p, hp, he⟩
      obtain ⟨y, hy⟩ := Option.isSome_iff_exists.mp (hvalid p hp).2
      rw [hy] at he
      simp only [Option.getD_some] at he
      exact ⟨p, (hvalid p hp).1, he ▸ hy⟩
    · rintro ⟨p, hp, hx⟩
      exact ⟨p, hfinal p.length p (le_refl _) hp (by rw [hx]; rfl), by rw [hx]; rfl⟩

/-- Every builder state satisfies the failure-link invariant. -/
theorem builder_link (h : Heap K P) (hb : Builder h) : Link h := by
  induction hb with
  | new => exact link_new
  | add h word value hb ih => exact link_add h (builder_wf h hb) ih word value
  | compile h h' hb hc ih =>
    obtain ⟨h2, _, _, hc2, _, hl2, _⟩ := compile_link h (builder_wf h hb) ih
    rw [hc] at hc2
    cases hc2
    exact hl2

end linkcompile

section termination

variable {K P : Type} [LinearOrder K]

theorem sample_builder_state : Builder sample_builder :=
  Builder.add _ [1] 9 (Builder.compile (ac_trie.add ac_trie.new [1, 1, 2] 7) _
    (Builder.add _ [1, 1, 2] 7 Builder.new) (by rfl))

theorem link_next_total (h : Heap K P) (hl : Link h) (s : Nat) (a : K) :
    ∃ t, Automaton.next h s a = some t ∧
      (t = m_root ∨ ∃ j, trie_node.get h (fail_chain h s j) a = some t) :=
  next_total h s (link_chain_root h hl s) a

theorem link_run_total (h : Heap K P) (hl : Link h) (text : List K) :
    ∀ s, ∃ t, Automaton.run h s text = some t := by
  induction text with
  | nil => exact fun s => ⟨s, rfl⟩
  | cons a rest ih =>
    intro s
    obtain ⟨t1, hn, _⟩ := link_next_total h hl s a
    obtain ⟨t, ht⟩ := ih t1
    exact ⟨t, by simp only [Automaton.run, hn, ht]⟩

theorem link_loop_total (h : Heap K P) (hl : Link h) (s : Nat) (k : K) :
    ∃ r, compile_visitor.loop h k (h.length + 2) s m_root = some r := by
  obtain ⟨m, hm, hmb⟩ := chain_root_bound h s (link_chain_root h hl s)
  obtain ⟨r, hr, _⟩ := loop_terminates h k hl.root m (h.length + 2) s m_root hm (by omega)
  exact ⟨r, hr⟩

/-- C22: `next()` terminates.  In every builder state (a fresh builder followed by `add` calls,
with or without `compile` calls anywhere between them), from every object the chain of
failure-links reaches the root within as many steps as the arena has objects, plus one; so for
every cursor state and every token the loop of `next()` exits with a new state, and a fresh
cursor consumes every text. -/
theorem next_terminates (h : Heap K P) (hb : Builder h) :
    (∀ s, ∃ m, m ≤ h.length + 1 ∧ fail_chain h s m = m_root) ∧
    (∀ s ch, ∃ t, Automaton.next h s ch = some t) ∧
    (∀ text, ∃ t, Automaton.run h (ac_trie.create_automaton h) text = some t) := by
  have hl := builder_link h hb
  refine ⟨?_, ?_, ?_⟩
  · intro s
    obtain ⟨m, hm, hmb⟩ := chain_root_bound h s (link_chain_root h hl s)
    exact ⟨m, hmb, hm⟩
  · intro s ch
    obtain ⟨t, ht, _⟩ := link_next_total h hl s ch
    exact ⟨t, ht⟩
  · intro text
    exact link_run_total h hl text _

theorem next_terminates_witness :
    Builder sample_builder ∧
    ∃ t, Automaton.run sample_builder (ac_trie.create_automaton sample_builder) [1, 1, 3] =
      some t :=
  ⟨sample_builder_state, (next_terminates sample_builder sample_builder_state).2.2 [1, 1, 3]⟩

/-- C23: `compile()` terminates.  In every builder state (a fresh builder followed by `add`
and earlier `compile` calls in any order, so also when `compile` runs again after further
insertions) `compile` returns; the breadth-first pass takes every node other than the root
from the queue exactly once; every failure-candidate walk of `compile_visitor::visit` ends,
from whatever candidate it starts; and the result is again a builder state. -/
theorem compile_terminates (h : Heap K P) (hb : Builder h) :
    ∃ h' order, ac_trie.compile_trace h = some (h', order) ∧ ac_trie.compile h = some h' ∧
      order.Nodup ∧ (∀ x, x ∈ order ↔ x ≠ m_root ∧ Live h x) ∧
      (∀ s k, ∃ r, compile_visitor.loop h k (h.length + 2) s m_root = some r) ∧
      (∀ s k, ∃ r, compile_visitor.loop h' k (h'.length + 2) s m_root = some r) ∧
      Builder h' := by
  have hw := builder_wf h hb
  have hl := builder_link h hb
  obtain ⟨h', order, ht, hc, _, hl', _, hnd, hmem⟩ := compile_link h hw hl
  refine ⟨h', order, ht, hc, hnd, ?_, link_loop_total h hl, link_loop_total h' hl',
    Builder.compile h h' hb hc⟩
  intro x
  rw [hmem]
  constructor
  · rintro ⟨p, hp, hx⟩
    exact ⟨walk_ne_root h hw p x hx hp, p, hx⟩
  · rintro ⟨hx, p, hp⟩
    refine ⟨p, ?_, hp⟩
    intro hc
    rw [hc, walk_nil] at hp
    exact hx (Option.some.inj hp).symm

theorem compile_terminates_witness :
    Builder sample_builder ∧
    ∃ h' order, ac_trie.compile_trace sample_builder = some (h', order) ∧ order.Nodup :=
  ⟨sample_builder_state,
    (compile_terminates sample_builder sample_builder_state).elim
      fun h' hh => hh.elim fun order ho => ⟨h', order, ho.1, ho.2.2.1⟩⟩

end termination

section soundness

variable {K P : Type} [LinearOrder K]

theorem builder_of_builder (pats : List (List K × P)) (h : Heap K P)
    (hb : BuilderOf pats h) : Builder h := by
  induction hb with
  | new => exact Builder.new
  | add pats h word value _ ih => exact Builder.add h word value ih
  | compile pats h h' _ hc ih => exact Builder.compile h h' ih hc

theorem pattern_payload_append (pats : List (List K × P)) (w : List K) (v : P) (p : List K) :
    ∀ acc, pattern_payload (pats ++ [(w, v)]) p acc =
      if p = w ∧ w ≠ [] then some v else pattern_payload pats p acc := by
  induction pats with
  | nil => intro acc; simp [pattern_payload]
  | cons e rest ih =>
    intro acc
    obtain ⟨w', v'⟩ := e
    show pattern_payload (rest ++ [(w, v)]) p _ = _
    rw [ih]
    rfl

/-- In every builder state the payload at the end of a path is the payload of the last
insertion of that path as a non-empty pattern. -/
theorem builder_of_payload (pats : List (List K × P)) (h : Heap K P)
    (hb : BuilderOf pats h) (p : List K) :
    payload_at h p = pattern_payload pats p none := by
  induction hb with
  | new => simp [pattern_payload, new_payload_at]
  | add pats h word value hb ih =>
    have hw := builder_wf h (builder_of_builder pats h hb)
    rw [pattern_payload_append]
    by_cases hne : word = []
    · subst hne
      rw [add_nil, ih]
      simp
    · rw [(add_spec h hw word value hne).2.2.1 p, ih]
      simp [hne]
  | compile pats h h' hb hc ih =>
    rw [skel_payload_at h h' (compile_skel h h' hc), ih]

/-- On an arena that satisfies the failure-link invariant the path of the node that the cursor
reaches is a suffix of the tokens consumed. -/
theorem link_run_sound (h : Heap K P) (hl : Link h) (text : List K) :
    ∀ (s : Nat) (p0 : List K), walk h p0 = some s →
      ∃ t p, Automaton.run h s text = some t ∧ walk h p = some t ∧ p <:+ p0 ++ text := by
  induction text with
  | nil =>
    intro s p0 hs
    exact ⟨s, p0, rfl, hs, by simp⟩
  | cons a rest ih =>
    intro s p0 hs
    obtain ⟨t1, hn, hcase⟩ := link_next_total h hl s a
    have hp1 : ∃ p1, walk h p1 = some t1 ∧ p1 <:+ p0 ++ [a] := by
      rcases hcase with h1 | ⟨j, hj⟩
      · exact ⟨[], by rw [h1]; rfl, List.nil_suffix⟩
      · rcases link_chain_path h hl p0 s hs j with ⟨q, _, hq2, hq3⟩ | hdead
        · exact ⟨q ++ [a], (walk_snoc_some h q a t1).mpr ⟨_, hq3, hj⟩, suffix_snoc q p0 a hq2⟩
        · exact absurd (live_of_get h hl _ a t1 hj) hdead
    obtain ⟨p1, hp1w, hp1s⟩ := hp1
    obtain ⟨t, p, hr, hpw, hps⟩ := ih t1 p1 hp1w
    refine ⟨t, p, by simp only [Automaton.run, hn, hr], hpw, ?_⟩
    obtain ⟨u, hu⟩ := hp1s
    have : p0 ++ a :: rest = u ++ (p1 ++ rest) := by
      rw [← List.append_assoc, hu]
      simp
    rw [this]
    exact hps.trans (List.suffix_append _ _)

/-- C24: cursor soundness.  In every builder state (the patterns of `pats` added in order to a
fresh builder, with `compile` calls anywhere between them or after them) a fresh cursor
consumes every text with `next()`, and the tokens on the path from the root to the current
node, the only path that ends on it, are a suffix of the consumed text; `visit()` then
reports nothing, or it reports one payload `v`, and this path with `v` is one of the inserted
non-empty patterns, so a pattern with payload `v` ends at the current position. -/
theorem cursor_sound (pats : List (List K × P)) (h : Heap K P) (hb : BuilderOf pats h)
    (text : List K) :
    ∃ s p, Automaton.run h (ac_trie.create_automaton h) text = some s ∧
      walk h p = some s ∧ (∀ p', walk h p' = some s → p' = p) ∧ p <:+ text ∧
      (Automaton.visit h s = .ok [] ∨
        ∃ v, Automaton.visit h s = .ok [v] ∧ p ≠ [] ∧ (p, v) ∈ pats) := by
  have hbb := builder_of_builder pats h hb
  have hw := builder_wf h hbb
  have hl := builder_link h hbb
  obtain ⟨s, p, hr, hp, hps⟩ := link_run_sound h hl text m_root [] (walk_nil h)
  simp only [List.nil_append] at hps
  refine ⟨s, p, hr, hp, fun p' hp' => hw.walk_inj p' p s hp' hp, hps, ?_⟩
  have hpay := builder_of_payload pats h hb p
  rw [payload_at_some h p s hp] at hpay
  cases hv : (h.node s).m_payload with
  | none =>
    left
    simp [Automaton.visit, trie_node.empty, hv]
  | some v =>
    rw [hv] at hpay
    rcases pattern_payload_mem pats p v none hpay.symm with h1 | ⟨h1, h2⟩
    · cases h1
    · right
      refine ⟨v, ?_, h1, h2⟩
      exact visit_of_payload h s v (walk_ne_root h hw p s hp h1) hv

theorem builder_of_sample :
    BuilderOf [([1, 1, 2], 7), ([1], 9)] sample_builder :=
  BuilderOf.add [([1, 1, 2], 7)] _ [1] 9
    (BuilderOf.compile _ (ac_trie.add ac_trie.new [1, 1, 2] 7) _
      (BuilderOf.add [] _ [1, 1, 2] 7 BuilderOf.new) (by rfl))

theorem cursor_sound_witness :
    BuilderOf [([1, 1, 2], 7), ([1], 9)] sample_builder ∧
    ∃ s p, Automaton.run sample_builder (ac_trie.create_automaton sample_builder) [1, 1, 1] =
        some s ∧
      walk sample_builder p = some s ∧ p <:+ [1, 1, 1] :=
  ⟨builder_of_sample,
    (cursor_sound _ sample_builder builder_of_sample [1, 1, 1]).elim
      fun s hs => hs.elim fun p hp => ⟨s, p, hp.1, hp.2.1, hp.2.2.2.1⟩⟩

/-- C25: failure-links point to proper suffixes.  After `compile()`, on the patterns added to
a fresh builder and more generally in every builder state, the failure-link of every node
other than the root is the node (the root included, for the empty suffix) whose path from the
root, the only path that ends on it, is a proper suffix of the path of the node; so the target
is strictly shallower than the node. -/
theorem fail_links_proper_suffix :
    (∀ pats : List (List K × P), ∃ h', ac_trie.build pats = some h' ∧
      ∀ p x, p ≠ [] → walk h' p = some x →
        ∃ q, q <:+ p ∧ q ≠ p ∧ q.length < p.length ∧ walk h' q = some (fail_of h' x) ∧
          ∀ q', walk h' q' = some (fail_of h' x) → q' = q) ∧
    (∀ h : Heap K P, Builder h → ∃ h', ac_trie.compile h = some h' ∧
      ∀ p x, p ≠ [] → walk h' p = some x →
        ∃ q, q <:+ p ∧ q ≠ p ∧ q.length < p.length ∧ walk h' q = some (fail_of h' x) ∧
          ∀ q', walk h' q' = some (fail_of h' x) → q' = q) := by
  have key : ∀ h' : Heap K P, WF h' → SuffixFail h' →
      ∀ p x, p ≠ [] → walk h' p = some x →
        ∃ q, q <:+ p ∧ q ≠ p ∧ q.length < p.length ∧ walk h' q = some (fail_of h' x) ∧
          ∀ q', walk h' q' = some (fail_of h' x) → q' = q := by
    intro h' hw hsf p x hp hx
    obtain ⟨q, hq1, hq2, hq3⟩ := hsf p x hp hx
    refine ⟨q, hq2, ?_, hq1, hq3, fun q' hq' => hw.walk_inj q' q _ hq' hq3⟩
    intro hc
    rw [hc] at hq1
    exact lt_irrefl _ hq1
  refine ⟨?_, ?_⟩
  · intro pats
    obtain ⟨h', hb, hw, _, _, hsf, _⟩ := build_spec pats
    exact ⟨h', hb, key h' hw hsf⟩
  · intro h hb
    have hw := builder_wf h hb
    obtain ⟨h', _, _, hc, hsk, _, hsf, _, _⟩ := compile_link h hw (builder_link h hb)
    exact ⟨h', hc, key h' (skel_wf h h' hsk hw) hsf⟩

/-- C26: `word()` does not advance through the sequence.  In every builder state, for every
cursor state and every token sequence of two or more tokens, `word()` ends and returns false
(after the first token it looks up the first token again and again, descending until an edge
is missing).  For a sequence of one token it returns true exactly when `next()` lands on a
node other than the root that carries no payload; the new cursor state is that node. -/
theorem word_never_advances (h : Heap K P) (hb : Builder h) (s : Nat) :
    (∀ a b rest, ∃ st, Automaton.word h s (a :: b :: rest) = some (false, st)) ∧
    (∀ a, ∃ t r, Automaton.next h s a = some t ∧ Automaton.word h s [a] = some (r, t) ∧
      (r = true ↔ t ≠ m_root ∧ (h.node t).m_payload = none)) := by
  have hw := builder_wf h hb
  have hl := builder_link h hb
  refine ⟨?_, ?_⟩
  · intro a b rest
    obtain ⟨t, hn, hcase⟩ := link_next_total h hl s a
    by_cases ht : t = m_root
    · exact ⟨t, by simp [Automaton.word, hn, ht]⟩
    · rcases hcase with h1 | ⟨j, hj⟩
      · exact absurd h1 ht
      · obtain ⟨q, hq⟩ := live_of_get h hl _ a t hj
        have hp : walk h (q ++ [a]) = some t := (walk_snoc_some h q a t).mpr ⟨_, hq, hj⟩
        have hlf := word_loop_false h hw a (b :: rest) (by simp) (h.length + 2) t _ hp
          (by omega)
        exact ⟨t, by simp [Automaton.word, hn, ht, hlf]⟩
  · intro a
    obtain ⟨t, hn, _⟩ := link_next_total h hl s a
    by_cases ht : t = m_root
    · exact ⟨t, false, hn, by simp [Automaton.word, hn, ht], by simp [ht]⟩
    · refine ⟨t, Automaton.empty h t, hn, ?_, ?_⟩
      · simp [Automaton.word, hn, ht, Automaton.word_loop]
      · simp [Automaton.empty, trie_node.empty, ht]

theorem word_never_advances_witness :
    Builder sample_builder ∧
    ∃ st, Automaton.word sample_builder 2 [2, 3] = some (false, st) :=
  ⟨sample_builder_state,
    (word_never_advances sample_builder sample_builder_state 2).1 2 3 []⟩

end soundness

section word_defect

variable {K P : Type} [LinearOrder K]

/-- C15, the code at the failing input: with "he" added and compiled, the path of "he" ends on
the Match node that holds "he", yet `word("he")` on a cursor fresh from the root returns false,
as `word("hx")` does.  So it is for every inserted pattern of two tokens: on every compiled
builder the path of the pattern ends on a Match node and `word` from the root returns false
on it. -/
theorem word_he_false_though_inserted :
    ((ac_trie.build [text_pattern "he"]).map fun h =>
      (walk h "he".toList, (walk h "he".toList).map (trie_node.value h),
        (Automaton.word h (ac_trie.create_automaton h) "he".toList).map Prod.fst,
        (Automaton.word h (ac_trie.create_automaton h) "hx".toList).map Prod.fst)) =
      some (some 2, some (.ok "he"), some false, some false) ∧
    ∀ (pats : List (List K × P)) (a b : K) (v : P), ([a, b], v) ∈ pats →
      ∃ h n st, ac_trie.build pats = some h ∧ walk h [a, b] = some n ∧
        (h.node n).m_payload ≠ none ∧
        Automaton.word h (ac_trie.create_automaton h) [a, b] = some (false, st) := by
  refine ⟨by rfl, ?_⟩
  intro pats a b v hv
  obtain ⟨h, hb, hw, hsk, _, _, _⟩ := build_spec pats
  obtain ⟨_, a2, _, _⟩ := add_all_spec pats (ac_trie.new : Heap K P) new_wf
  have hsome : (walk h [a, b]).isSome := by
    rw [skel_walk _ h hsk, a2]
    exact Or.inr ⟨([a, b], v), hv, List.prefix_refl _, by simp⟩
  obtain ⟨n, hn⟩ := Option.isSome_iff_exists.mp hsome
  obtain ⟨st, hst⟩ := word_long_false h hw a b []
  refine ⟨h, n, st, hb, hn, ?_, hst⟩
  intro hc
  exact (build_payload_none_iff pats h hsk [a, b] n hn).mp hc ⟨by simp, v, hv⟩

end word_defect

section payload_access

variable {K P : Type} [LinearOrder K]

end payload_access

end yy_data
